import Mathlib


/-!
# malcolm: a shallow embedding of the sudoku solver

The embedding follows the C++ sources under `src/malcolm`:

* `Board_t<T>` (Board.h) is a `std::vector<std::vector<T>>` addressed as
  `m_board[x][y]`; here it is a list of columns.
* `std::set<T>` containers are lists; where the source iterates a set in
  order (`begin()`, range-for) the list is kept sorted by `setInsert`.
* `malcolm::size_t` is `std::uint8_t`: results of that type are reduced
  modulo 256.
* The tracing service only writes log text and is left out.
-/

namespace malcolm

/-- Type of a cell (`value_t = int` in main.cpp). -/
abbrev value_t := Int

/-- Pair of coordinates `(x, y)`; `x` selects the column vector. -/
abbrev pos_t := Nat × Nat

/-- A value at a position (`field_t<T>`). -/
abbrev field_t := pos_t × Int

/-- The 2D matrix `std::vector<column_t<T>>` wrapped by `Board_t<T>`. -/
abbrev Board_t (α : Type) := List (List α)

/-- Set of values (`value_container_t<T> = std::set<T>`), as a list. -/
abbrev value_container_t := List Int

/-- Board of candidate sets (`PossibilitiesBoard_t<T>`). -/
abbrev PossibilitiesBoard_t := Board_t (List Int)

/-- Strict order of `std::pair<uint8_t, uint8_t>`. -/
def posLt (a b : pos_t) : Bool :=
  decide (a.1 < b.1) || (decide (a.1 = b.1) && decide (a.2 < b.2))

/-- Strict order of `field_t<int>` (pair of position and value). -/
def fieldLt (a b : field_t) : Bool :=
  posLt a.1 b.1 || (decide (a.1 = b.1) && decide (a.2 < b.2))

/-- Insertion into a `std::set` kept as a strictly increasing list: an element
equivalent to one already present is not inserted. -/
def setInsert {α : Type} (lt : α → α → Bool) (a : α) : List α → List α
  | [] => [a]
  | b :: t =>
    if lt a b then a :: b :: t
    else if lt b a then b :: setInsert lt a t
    else b :: t

namespace utils

/-- The function `utils::vector::hasDuplicates`: some value outside
`ignored_values` occurs at two indices `i < j`. -/
def hasDuplicates (v : List Int) (ignored_values : List Int) : Bool :=
  match v with
  | [] => false
  | a :: t => t.any (fun b => a == b && !ignored_values.contains a) || hasDuplicates t ignored_values

/-- The function `utils::vector::contains`. -/
def contains (v : List Int) (val : Int) : Bool :=
  v.any (fun x => x == val)

/-- The function `utils::vector::isFull`: no empty place (value 0). -/
def isFull (v : List Int) : Bool :=
  !contains v 0

/-- The function `utils::vector2d::getLocalCenter`. -/
def getLocalCenter (coords : pos_t) : pos_t :=
  let x := if coords.1 % 3 = 0 then coords.1 + 1 else if coords.1 % 3 = 2 then coords.1 - 1 else coords.1
  let y := if coords.2 % 3 = 0 then coords.2 + 1 else if coords.2 % 3 = 2 then coords.2 - 1 else coords.2
  (x, y)

end utils

namespace Board_t

variable {α : Type}

/-- The method `getSize`: `(m_board.size(), m_board[0].size())` as 8-bit values. -/
def getSize (b : Board_t α) : Nat × Nat :=
  (b.length % 256, if b.length = 0 then 0 else (b.headD []).length % 256)

/-- The list `centersFor9x9Board()`. -/
def centersFor9x9Board : List pos_t :=
  [(1, 1), (4, 1), (7, 1), (1, 4), (4, 4), (7, 4), (1, 7), (4, 7), (7, 7)]

/-- Read access `operator[](const pos_t&)`: `m_board[coords.first][coords.second]`. -/
def get [Inhabited α] (b : Board_t α) (coords : pos_t) : α :=
  (b.getD coords.1 []).getD coords.2 default

/-- Write access through `operator[](const pos_t&)`: `board[coords] = v`. -/
def set (b : Board_t α) (coords : pos_t) (v : α) : Board_t α :=
  List.set b coords.1 (List.set (b.getD coords.1 []) coords.2 v)

/-- The constructor `Board_t(x, y)`: a board of size `x` times `y` filled with the default value. -/
def zero [Inhabited α] (x y : Nat) : Board_t α :=
  List.replicate x (List.replicate y default)

/-- The method `find(predicate)`, scanning column by column from index `i`;
`{-1, -1}` is `(255, 255)` in 8-bit coordinates. -/
def findFrom (predicate : α → Bool) : List (List α) → Nat → pos_t
  | [], _ => (255, 255)
  | col :: rest, i =>
    if col.any predicate then (i % 256, col.findIdx predicate % 256)
    else findFrom predicate rest (i + 1)

/-- The method `find(predicate)`. -/
def find (predicate : α → Bool) (b : Board_t α) : pos_t :=
  findFrom predicate b 0

/-- Positions met by the double loop of `findAll` whose value satisfies the predicate. -/
def findAllScan [Inhabited α] (predicate : α → Bool) (b : Board_t α) : List pos_t :=
  (List.range b.length).flatMap (fun i =>
    ((List.range (b.getD i []).length).filter (fun j => predicate (get b (i, j)))).map
      (fun j => (i % 256, j % 256)))

/-- The method `findAll(predicate)`: the positions are inserted into a `std::set<pos_t>`. -/
def findAll [Inhabited α] (predicate : α → Bool) (b : Board_t α) : List pos_t :=
  (findAllScan predicate b).foldl (fun result p => setInsert posLt p result) []

/-- The method `count(predicate)`; the accumulator is 8-bit. -/
def count (predicate : α → Bool) (b : Board_t α) : Nat :=
  b.foldl (fun result x => x.foldl (fun result y => (result + (if predicate y then 1 else 0)) % 256) result) 0

/-- The method `transposed`: the columns `m_board[i]` are appended to the result in the
order of `i`. -/
def transposed (b : Board_t α) : Board_t α :=
  (List.range b.length).foldl (fun result i => result ++ [b.getD i []]) []

/-- One update of the map `occurencies` of `getModalValueAndCount`: the 8-bit counter of
`value` is incremented, or `value` is entered with the count 1. The map is a list in
increasing key order, the order in which a `std::map` is iterated. -/
def occurenciesInsert (value : Int) : List (Int × Nat) → List (Int × Nat)
  | [] => [(value, 1)]
  | (k, c) :: t =>
    if value < k then (value, 1) :: (k, c) :: t
    else if k < value then (k, c) :: occurenciesInsert value t
    else (k, (c + 1) % 256) :: t

/-- The map `occurencies` after the double loop over the cells. -/
def occurencies (b : Board_t Int) : List (Int × Nat) :=
  b.foldl (fun m column => column.foldl (fun m value => occurenciesInsert value m) m) []

/-- The method `getModalValueAndCount`; `none` stands for the local `modal_value` when no
assignment to it was made. -/
def getModalValueAndCount (b : Board_t Int) : Option Int × Nat :=
  (occurencies b).foldl (fun (r : Option Int × Nat) (e : Int × Nat) =>
    if e.2 > r.2 ∧ e.2 < b.length then (some e.1, e.2) else r) (none, 0)

/-- The method `getRow` with the `push_back` inserter: `m_board[i][row_number]` for every `i`. -/
def getRow [Inhabited α] (b : Board_t α) (row_number : Nat) : List α :=
  b.map (fun col => col.getD row_number default)

/-- The method `getColumn` with the `push_back` inserter: `m_board[column_number][i]`
for `i < m_board[0].size()`. -/
def getColumn [Inhabited α] (b : Board_t α) (column_number : Nat) : List α :=
  (List.range (b.headD []).length).map (fun i => get b (column_number, i))

/-- The insertions of `getNeighborhood` once `x` and `y` hold the local center. -/
def neighborhoodAround [Inhabited α] (b : Board_t α) (x y : Nat) : List α :=
  let ysize := (b.getD x []).length
  [get b (x, y)]
    ++ (if x > 0 then [get b (x - 1, y)] else [])
    ++ (if x < b.length - 1 then [get b (x + 1, y)] else [])
    ++ (if y > 0 then [get b (x, y - 1)] else [])
    ++ (if y < ysize - 1 then [get b (x, y + 1)] else [])
    ++ (if x > 0 ∧ y > 0 then [get b (x - 1, y - 1)] else [])
    ++ (if x < b.length - 1 ∧ y > 0 then [get b (x + 1, y - 1)] else [])
    ++ (if x > 0 ∧ y < ysize - 1 then [get b (x - 1, y + 1)] else [])
    ++ (if x < b.length - 1 ∧ y < ysize - 1 then [get b (x + 1, y + 1)] else [])

/-- The method `getNeighborhood`: values of the 3x3 square around the local center of
`coords` (a `std::set` in the source; only membership is observed). -/
def getNeighborhood [Inhabited α] (b : Board_t α) (coords : pos_t) : List α :=
  let x := if coords.1 % 3 = 0 then coords.1 + 1 else if coords.1 % 3 = 2 then coords.1 - 1 else coords.1
  let y := if coords.2 % 3 = 0 then coords.2 + 1 else if coords.2 % 3 = 2 then coords.2 - 1 else coords.2
  neighborhoodAround b x y

/-- The method `copyNeighborhood`: the 3x3 board around the local center of `coords`,
one appended column for each `i` in `-1, 0, 1`. -/
def copyNeighborhood [Inhabited α] (b : Board_t α) (coords : pos_t) : Board_t α :=
  let x := if coords.1 % 3 = 0 then coords.1 + 1 else if coords.1 % 3 = 2 then coords.1 - 1 else coords.1
  let y := if coords.2 % 3 = 0 then coords.2 + 1 else if coords.2 % 3 = 2 then coords.2 - 1 else coords.2
  [0, 1, 2].map (fun i => [get b (x + i - 1, y - 1), get b (x + i - 1, y), get b (x + i - 1, y + 1)])

/-- The method `toContainer` with an inserter that appends the field. -/
def toContainer [Inhabited α] (b : Board_t α) : List (pos_t × α) :=
  (List.range (getSize b).1).flatMap (fun i =>
    (List.range (getSize b).2).map (fun j => ((i, j), get b (i, j))))

end Board_t

/-- The method `BoardValidator_t::validateBoard`. -/
def validateBoard (board : Board_t Int) (additional_checks : Board_t Int → Bool) : Bool :=
  let x := (Board_t.getSize board).1
  let y := (Board_t.getSize board).2
  if (List.range x).any (fun i => utils.hasDuplicates (Board_t.getRow board i) [0]) then false
  else if (List.range y).any (fun i => utils.hasDuplicates (Board_t.getColumn board i) [0]) then false
  else if Board_t.centersFor9x9Board.any (fun pos =>
      utils.hasDuplicates (((Board_t.copyNeighborhood board pos).toContainer).map Prod.snd) [0]) then false
  else additional_checks board

/-- The default `additional_checks` argument of `validateBoard`. -/
def defaultChecks (_board : Board_t Int) : Bool := true

/-- The set `target`, `{1,...,9}`. -/
def target : List Int := [1, 2, 3, 4, 5, 6, 7, 8, 9]

/-- The call `std::set::erase(value)` on a candidate set. -/
def setErase (s : List Int) (value : Int) : List Int :=
  s.filter (fun v => v != value)

/-- The method `TheOnlyPossibilityStrategy_t::retrieveNextMove`. -/
def TheOnlyPossibilityStrategy_t.retrieveNextMove (possibilities : PossibilitiesBoard_t)
    (_board : Board_t Int) : field_t :=
  let has_one_element := fun (val : List Int) => val.length == 1
  if Board_t.count has_one_element possibilities > 0 then
    let valid_position := Board_t.find has_one_element possibilities
    let options := Board_t.get possibilities valid_position
    let goal := options.headD 0
    (valid_position, goal)
  else ((0, 0), 0)

/-- The method `FillSubboardsStrategy_t::retrieveNextMove`: the first box center and
the first goal for which exactly one candidate set of the box holds the goal. -/
def FillSubboardsStrategy_t.retrieveNextMove (possibilities : PossibilitiesBoard_t)
    (board : Board_t Int) : field_t :=
  let found := Board_t.centersFor9x9Board.findSome? (fun pos =>
    let neighborhood := Board_t.copyNeighborhood possibilities pos
    let local_neighborhood := Board_t.getNeighborhood board pos
    target.findSome? (fun goal =>
      if local_neighborhood.contains goal then none
      else
        let has_goal := fun (container : List Int) => container.contains goal
        if Board_t.count has_goal neighborhood = 1 then
          let relative_position := Board_t.find has_goal neighborhood
          some (((relative_position.1 + pos.1 - 1) % 256, (relative_position.2 + pos.2 - 1) % 256), goal)
        else none))
  match found with
  | some field => field
  | none => ((0, 0), 0)

/-- The strategies pushed by the constructor of `BoardSolver_t`, in order. -/
def m_strategies : List (PossibilitiesBoard_t → Board_t Int → field_t) :=
  [TheOnlyPossibilityStrategy_t.retrieveNextMove, FillSubboardsStrategy_t.retrieveNextMove]

/-- The method `BruteforceStrategy_t::retrieveNextMoves`; the result is a `std::set` of fields. -/
def BruteforceStrategy_t.retrieveNextMoves (possibilities : PossibilitiesBoard_t)
    (board : Board_t Int) : List field_t :=
  Board_t.centersFor9x9Board.foldl (fun result pos =>
    target.foldl (fun result val =>
      let neighborhood := Board_t.getNeighborhood board pos
      let neighborhood_possibilities := Board_t.copyNeighborhood possibilities pos
      if neighborhood.contains val then result
      else
        let possibilities_count :=
          Board_t.count (fun (container : List Int) => container.contains val) neighborhood_possibilities
        if possibilities_count ≤ 2 ∧ possibilities_count > 1 then
          (Board_t.findAll (fun (value_container : List Int) => value_container.contains val) possibilities).foldl
            (fun result possibility =>
              if (utils.getLocalCenter possibility).1 = pos.1 ∧ (utils.getLocalCenter possibility).2 = pos.2 then
                setInsert fieldLt (possibility, val) result
              else result) result
        else result) result) []

namespace SmartCleaner_t

/-- The enumeration `relation_type_t`. -/
inductive relation_type_t where
  | MUST_BE_IN_ROW
  | MUST_BE_IN_COLUMN
  | MUST_NOT_BE_IN_ROW
  | MUST_NOT_BE_IN_COLUMN
  deriving DecidableEq, Repr

/-- The type `rule_t`: a relation and a local row or column number. -/
abbrev rule_t := relation_type_t × Nat

/-- Rules determined for the three local columns of the box centered at `x`
(the loop filling `determined_local_rules_for_columns`). -/
def determineLocalRulesForColumns (board : Board_t Int) (goal : Int) (x : pos_t)
    (neighborhood : Board_t Int) : List rule_t :=
  (List.range (Board_t.getSize neighborhood).1).foldl (fun rules i =>
    let full_column := Board_t.getColumn board ((i + x.1 - 1) % 256)
    if utils.contains full_column goal then
      rules ++ [(relation_type_t.MUST_NOT_BE_IN_COLUMN, i + 1)]
    else if utils.isFull (Board_t.getColumn neighborhood i) then
      rules ++ [(relation_type_t.MUST_NOT_BE_IN_COLUMN, i + 1)]
    else rules) []

/-- The value of `allowed_column` computed from the determined rules (`-5` when fewer
than two rules were determined). -/
def allowedColumn (rules : List rule_t) (x : pos_t) : Int :=
  if rules.length ≥ 2 then
    let forbidden_local_columns :=
      (rules.filter (fun r => decide (r.1 = relation_type_t.MUST_NOT_BE_IN_COLUMN))).map Prod.snd
    let allowed_column_relative : Int :=
      [1, 2, 3].foldl (fun (acc : Int) (val : Nat) =>
        if !forbidden_local_columns.contains val then (val : Int) - 2 else acc) (-5)
    allowed_column_relative + (x.1 : Int)
  else -5

/-- The final loop of `smartclean` for one box: erase `goal` from the candidate sets of
column `allowed_column` outside the box centered at `x`. -/
def eraseInAllowedColumn (possibilities_board : PossibilitiesBoard_t) (goal : Int) (x : pos_t)
    (allowed_column : Int) : PossibilitiesBoard_t :=
  (List.range (Board_t.getSize possibilities_board).2).foldl (fun P i =>
    let current_position : pos_t := (allowed_column.toNat % 256, i % 256)
    if (utils.getLocalCenter current_position).1 = x.1 ∧ (utils.getLocalCenter current_position).2 = x.2 then P
    else if (Board_t.get P current_position).count goal > 0 then
      Board_t.set P current_position (setErase (Board_t.get P current_position) goal)
    else P) possibilities_board

/-- Body of the loop of `smartclean` over the box centers. -/
def smartcleanCenter (board : Board_t Int) (goal : Int) (possibilities_board : PossibilitiesBoard_t)
    (x : pos_t) : PossibilitiesBoard_t :=
  let neighborhood := Board_t.copyNeighborhood board x
  if Board_t.find (fun v => v == goal) neighborhood ≠ (255, 255) then possibilities_board
  else
    let rules := determineLocalRulesForColumns board goal x neighborhood
    let allowed_column := allowedColumn rules x
    if allowed_column > -1 then eraseInAllowedColumn possibilities_board goal x allowed_column
    else possibilities_board

/-- The method `SmartCleaner_t::smartclean`; the board is not modified, the new
candidate board is returned. The rows extracted through `transposed()` are never
read by the source and are not computed here. -/
def smartclean (board : Board_t Int) (possibilities_board : PossibilitiesBoard_t) (goal : Int) :
    PossibilitiesBoard_t :=
  let count := Board_t.count (fun v => v == goal) board
  if count = 9 ∨ count = 0 then possibilities_board
  else Board_t.centersFor9x9Board.foldl (smartcleanCenter board goal) possibilities_board

end SmartCleaner_t

/-- State of one solving session: the working board `copy` of `solve`, the member
`m_current_possibilities`, and a log of the writes made into `copy` (most recent
first), each with the board as it was just before the write. -/
structure Session where
  copy : Board_t Int
  m_current_possibilities : PossibilitiesBoard_t
  written : List (Board_t Int × field_t)
  deriving DecidableEq

/-- How a run ends: the function returned, `std::exception` was thrown, or the
iteration bound of the embedding was used up. -/
inductive Outcome where
  | returned (s : Session)
  | raised (s : Session)
  | exhausted (s : Session)
  deriving DecidableEq

/-- The session state carried by an outcome. -/
def Outcome.state : Outcome → Session
  | .returned s => s
  | .raised s => s
  | .exhausted s => s

namespace BoardSolver_t

/-- The method `getPossibleValues`. -/
def getPossibleValues (m_board : Board_t Int) (coords : pos_t) : List Int :=
  if Board_t.get m_board coords ≠ 0 then []
  else
    let column := Board_t.getColumn m_board coords.1
    let row := Board_t.getRow m_board coords.2
    let neighborhood := Board_t.getNeighborhood m_board coords
    let found_values := neighborhood ++ column ++ row
    target.filter (fun v => !found_values.contains v)

/-- The method `retrievePossibilitiesBoard`. -/
def retrievePossibilitiesBoard (m_board : Board_t Int) (m_current_possibilities : PossibilitiesBoard_t) :
    PossibilitiesBoard_t :=
  (List.range (Board_t.getSize m_board).1).foldl (fun P i =>
    (List.range (Board_t.getSize m_board).2).foldl (fun P j =>
      Board_t.set P (i, j) (getPossibleValues m_board (i, j))) P) m_current_possibilities

/-- The candidate board built by the constructor `BoardSolver_t(current_board)`. -/
def constructPossibilities (m_board : Board_t Int) : PossibilitiesBoard_t :=
  let size_of_board := Board_t.getSize m_board
  let appended : PossibilitiesBoard_t :=
    (List.range size_of_board.1).map (fun i =>
      (List.range size_of_board.2).map (fun j =>
        if Board_t.get m_board (i, j) = 0 then target else []))
  retrievePossibilitiesBoard m_board appended

/-- The lambda `eraseFrompossibilities_board` of `postprocessInsertion`. -/
def eraseFrompossibilities_board (P : PossibilitiesBoard_t) (coords : pos_t) (value : Int) :
    PossibilitiesBoard_t :=
  Board_t.set P coords (setErase (Board_t.get P coords) value)

/-- The method `postprocessInsertion`. -/
def postprocessInsertion (m_current_possibilities : PossibilitiesBoard_t) (field : field_t) :
    PossibilitiesBoard_t :=
  let pos := field.1
  let value := field.2
  let P1 := (List.range 9).foldl (fun P i =>
    eraseFrompossibilities_board (eraseFrompossibilities_board P (pos.1, i) value) (i, pos.2) value)
    m_current_possibilities
  let local_center_position := utils.getLocalCenter pos
  let P2 := [0, 1, 2].foldl (fun P i =>
    [0, 1, 2].foldl (fun P j =>
      eraseFrompossibilities_board P
        (local_center_position.1 + j - 1, local_center_position.2 + i - 1) value) P) P1
  Board_t.set P2 pos []

/-- The method `getFieldsToBeFilled`: the non-sentinel moves of the strategies, as a set. -/
def getFieldsToBeFilled (m_current_possibilities : PossibilitiesBoard_t) (board : Board_t Int) :
    List field_t :=
  m_strategies.foldl (fun result strategy =>
    let field := strategy m_current_possibilities board
    if field.2 ≠ 0 then setInsert fieldLt field result else result) []

/-- The method `smartcleanPossibilitiesBoard`: `Except.error` is the thrown
`std::exception`, carrying the candidate board at the time of the throw. -/
def smartcleanPossibilitiesBoard (board : Board_t Int) (m_current_possibilities : PossibilitiesBoard_t) :
    Except PossibilitiesBoard_t PossibilitiesBoard_t :=
  if Board_t.count (fun v => v == 0) board = 0 then Except.error m_current_possibilities
  else Except.ok ([1, 2, 3, 4, 5, 6, 7, 8, 9].foldl
    (fun P (x : Int) => SmartCleaner_t.smartclean board P x) m_current_possibilities)

/-- One pass of the innermost loop body of `solve`: `copy[pos] = value` followed by
`postprocessInsertion`. -/
def commit (s : Session) (field : field_t) : Session :=
  { copy := Board_t.set s.copy field.1 field.2
    m_current_possibilities := postprocessInsertion s.m_current_possibilities field
    written := (s.copy, field) :: s.written }

/-- The innermost `while (queue.size() > 0)` of `solve`; the first argument bounds the
number of iterations. -/
def innerLoop : Nat → Session → List field_t → Outcome
  | _, s, [] => Outcome.returned s
  | 0, s, _ :: _ => Outcome.exhausted s
  | n + 1, s, field :: _ =>
    let s1 := commit s field
    innerLoop n s1 (getFieldsToBeFilled s1.m_current_possibilities s1.copy)

/-- The middle `while (queue.size() > 0)` of `solve`. -/
def middleLoop (_allow_recursive_usage : Bool) (bound : Nat) : Nat → Session → List field_t → Outcome
  | _, s, [] => Outcome.returned s
  | 0, s, _ :: _ => Outcome.exhausted s
  | n + 1, s, field :: queue =>
    match innerLoop bound s (field :: queue) with
    | Outcome.returned s1 =>
      match (if _allow_recursive_usage then smartcleanPossibilitiesBoard s1.copy s1.m_current_possibilities
             else Except.ok s1.m_current_possibilities) with
      | Except.error _ => Outcome.raised s1
      | Except.ok P =>
        middleLoop _allow_recursive_usage bound n { s1 with m_current_possibilities := P }
          (getFieldsToBeFilled P s1.copy)
    | other => other

/-- The outer `while (queue.size() > 0)` of `solve`; `runner` is `bruteforceStrategyRunner`. -/
def outerLoop (runner : Session → Outcome) (_allow_recursive_usage : Bool) (bound : Nat) :
    Nat → Session → List field_t → Outcome
  | _, s, [] => Outcome.returned s
  | 0, s, _ :: _ => Outcome.exhausted s
  | n + 1, s, field :: queue =>
    match middleLoop _allow_recursive_usage bound bound s (field :: queue) with
    | Outcome.returned s1 =>
      match (if _allow_recursive_usage then runner s1 else Outcome.returned s1) with
      | Outcome.returned s2 =>
        match smartcleanPossibilitiesBoard s2.copy s2.m_current_possibilities with
        | Except.error _ => Outcome.raised s2
        | Except.ok P =>
          outerLoop runner _allow_recursive_usage bound n { s2 with m_current_possibilities := P }
            (getFieldsToBeFilled P s2.copy)
      | other => other
    | other => other

/-- The method `solve`, with the bruteforce runner as a parameter; `s` holds the copy of
`m_board` and the candidate board of the solver object. -/
def solveWith (runner : Session → Outcome) (_allow_recursive_usage : Bool) (bound : Nat)
    (s : Session) : Outcome :=
  match (if _allow_recursive_usage then smartcleanPossibilitiesBoard s.copy s.m_current_possibilities
         else Except.ok s.m_current_possibilities) with
  | Except.error _ => Outcome.raised s
  | Except.ok P =>
    match (if _allow_recursive_usage then runner { s with m_current_possibilities := P }
           else Outcome.returned { s with m_current_possibilities := P }) with
    | Outcome.returned s2 =>
      outerLoop runner _allow_recursive_usage bound bound s2
        (getFieldsToBeFilled s2.m_current_possibilities s2.copy)
    | other => other

/-- Number of cells of the candidate board whose candidate set is not empty. -/
def openCells (P : PossibilitiesBoard_t) : Nat :=
  (P.map (fun col => col.countP (fun c => !c.isEmpty))).sum

/-- Iteration bound given to the loops of a session starting with candidate board `P`. -/
def fuelFor (P : PossibilitiesBoard_t) : Nat :=
  openCells P + 1

/-- The call `solve(false)` made on a scenario inside `bruteforceStrategyRunner`: with
`_allow_recursive_usage = false` the runner is never called. -/
def solveNested (bound : Nat) (s : Session) : Outcome :=
  solveWith Outcome.returned false bound s

/-- The loop of `bruteforceStrategyRunner` over `scenario_collection`. -/
def runScenarios : List (Board_t Int × field_t) → Session → Outcome
  | [], s => Outcome.returned s
  | (scenario, field) :: rest, s =>
    let P := postprocessInsertion (constructPossibilities scenario) field
    match solveNested (fuelFor P) { copy := scenario, m_current_possibilities := P, written := [] } with
    | Outcome.returned r =>
      let scenario_solved := r.copy
      if Board_t.count (fun v => v == 0) scenario_solved > 0 ∧ validateBoard scenario_solved defaultChecks = false then
        runScenarios rest { s with m_current_possibilities :=
          eraseFrompossibilities_board s.m_current_possibilities field.1 field.2 }
      else if Board_t.count (fun v => v == 0) scenario_solved = 0 ∧ validateBoard scenario_solved defaultChecks = true then
        Outcome.returned { s with copy := Board_t.set s.copy field.1 field.2,
                                  written := (s.copy, field) :: s.written }
      else runScenarios rest s
    | Outcome.raised _ => Outcome.raised s
    | Outcome.exhausted _ => Outcome.exhausted s

/-- The method `bruteforceStrategyRunner`. -/
def bruteforceStrategyRunner (s : Session) : Outcome :=
  let bruteforce_movements :=
    BruteforceStrategy_t.retrieveNextMoves s.m_current_possibilities s.copy
  if bruteforce_movements.length = 0 then Outcome.returned s
  else
    let scenario_collection := bruteforce_movements.map (fun f => (Board_t.set s.copy f.1 f.2, f))
    runScenarios scenario_collection s

/-- The method `solve(_allow_recursive_usage)` of a solver constructed for `m_board`. -/
def solve (m_board : Board_t Int) (_allow_recursive_usage : Bool) : Outcome :=
  let P := constructPossibilities m_board
  solveWith bruteforceStrategyRunner _allow_recursive_usage (fuelFor P)
    { copy := m_board, m_current_possibilities := P, written := [] }

/-- The method `getSolved` of `BoardSolver_t(current_board)`. -/
def getSolved (current_board : Board_t Int) : Outcome :=
  solve current_board true

end BoardSolver_t

end malcolm


/-!
## Vocabulary of the specification

Predicates used to state the claims: the shape of a 9x9 grid, positions in
range, and the three kinds of units (row, column, box) of a sudoku grid.
-/

namespace malcolm

/-- A board of nine columns of nine cells. -/
def Is9x9 {α : Type} (b : Board_t α) : Prop :=
  b.length = 9 ∧ ∀ col ∈ b, col.length = 9

instance {α : Type} (b : Board_t α) : Decidable (Is9x9 b) := by
  unfold Is9x9; exact inferInstance

/-- A position of a 9x9 grid. -/
def InRange (p : pos_t) : Prop := p.1 < 9 ∧ p.2 < 9

instance (p : pos_t) : Decidable (InRange p) := by
  unfold InRange; exact inferInstance

/-- Two positions lie in the same 3x3 box. -/
def SameBox (p q : pos_t) : Prop := p.1 / 3 = q.1 / 3 ∧ p.2 / 3 = q.2 / 3

instance (p q : pos_t) : Decidable (SameBox p q) := by
  unfold SameBox; exact inferInstance

/-- Two different positions that share a column (same `x`), a row (same `y`) or a box. -/
def Peers (p q : pos_t) : Prop :=
  p ≠ q ∧ (p.1 = q.1 ∨ p.2 = q.2 ∨ SameBox p q)

instance (p q : pos_t) : Decidable (Peers p q) := by
  unfold Peers; exact inferInstance

/-- No row contains two cells holding the same non-zero value. -/
def RowsDistinct (g : Board_t Int) : Prop :=
  ∀ y < 9, ∀ x1 < 9, ∀ x2 < 9, x1 ≠ x2 → g.get (x1, y) = g.get (x2, y) → g.get (x1, y) = 0

/-- No column contains two cells holding the same non-zero value. -/
def ColumnsDistinct (g : Board_t Int) : Prop :=
  ∀ x < 9, ∀ y1 < 9, ∀ y2 < 9, y1 ≠ y2 → g.get (x, y1) = g.get (x, y2) → g.get (x, y1) = 0

/-- None of the nine 3x3 boxes contains two cells holding the same non-zero value. -/
def BoxesDistinct (g : Board_t Int) : Prop :=
  ∀ p q : pos_t, InRange p → InRange q → p ≠ q → SameBox p q → g.get p = g.get q → g.get p = 0

/-- No row, no column and no box contains two cells holding the same non-zero value. -/
def NoConflict (g : Board_t Int) : Prop :=
  RowsDistinct g ∧ ColumnsDistinct g ∧ BoxesDistinct g

/-- The cells of the box centered at `c`, in the order of `copyNeighborhood` followed
by `toContainer`. -/
def boxCells (c : pos_t) : List pos_t :=
  [(c.1 - 1, c.2 - 1), (c.1 - 1, c.2), (c.1 - 1, c.2 + 1),
   (c.1, c.2 - 1), (c.1, c.2), (c.1, c.2 + 1),
   (c.1 + 1, c.2 - 1), (c.1 + 1, c.2), (c.1 + 1, c.2 + 1)]

/-- The 81 positions of a 9x9 grid, column by column. -/
def allCells : List pos_t :=
  (List.range 9).flatMap (fun x => (List.range 9).map (fun y => (x, y)))

/-- A completely filled grid of the data model (cell values are integers 0..9 where 0
denotes an empty cell): nine by nine, every cell a digit of 1..9. -/
def CompletelyFilled (S : Board_t Int) : Prop :=
  Is9x9 S ∧ ∀ p ∈ allCells, 1 ≤ Board_t.get S p ∧ Board_t.get S p ≤ 9

instance (S : Board_t Int) : Decidable (CompletelyFilled S) := by
  unfold CompletelyFilled; exact inferInstance

/-- The values held by the cells of the column, the row and the box of `p`. -/
def unitValues (g : Board_t Int) (p : pos_t) : List Int :=
  (allCells.filter (fun q => decide (q.1 = p.1 ∨ q.2 = p.2 ∨ SameBox p q))).map (Board_t.get g)

/-- The positions whose candidate set `postprocessInsertion` erases the value from, in
the order of the source: the column and the row of `pos`, then its box. -/
def postCells (pos : pos_t) : List pos_t :=
  (List.range 9).flatMap (fun i => [(pos.1, i), (i, pos.2)]) ++
    [0, 1, 2].flatMap (fun i => [0, 1, 2].map (fun j =>
      ((utils.getLocalCenter pos).1 + j - 1, (utils.getLocalCenter pos).2 + i - 1)))

/-- Every candidate set of `P2` is contained in the one of `P1` at the same cell. -/
def Shrinks (P1 P2 : PossibilitiesBoard_t) : Prop :=
  Is9x9 P2 ∧ ∀ q, InRange q → ∀ v ∈ Board_t.get P2 q, v ∈ Board_t.get P1 q

/-- The board `P2` is `P1` with `goal` erased from some candidate sets and nothing else changed. -/
def ErasesOnly (goal : Int) (P1 P2 : PossibilitiesBoard_t) : Prop :=
  Is9x9 P2 ∧ ∀ q, Board_t.get P2 q = Board_t.get P1 q ∨ Board_t.get P2 q = setErase (Board_t.get P1 q) goal

/-- The invariant kept by a session between its working board and its candidate board:
candidates are digits, are listed only at empty cells, and never repeat the value of
a cell sharing a row, column or box. -/
structure Consistent (b : Board_t Int) (P : PossibilitiesBoard_t) : Prop where
  board9 : Is9x9 b
  poss9 : Is9x9 P
  atEmpty : ∀ p, InRange p → Board_t.get P p ≠ [] → Board_t.get b p = 0
  digits : ∀ p, InRange p → ∀ v ∈ Board_t.get P p, v ∈ target
  fresh : ∀ p q, InRange p → InRange q → Peers p q → Board_t.get b q ∉ Board_t.get P p

/-- An invariant of the session state that the loops of `solve` maintain: it implies
consistency and is kept by a committed move and by a successful cleaning pass. -/
structure LoopInvariant (Inv : Session → Prop) : Prop where
  consistent : ∀ s, Inv s → Consistent s.copy s.m_current_possibilities
  commit : ∀ s f, Inv s →
    f ∈ BoardSolver_t.getFieldsToBeFilled s.m_current_possibilities s.copy → Inv (BoardSolver_t.commit s f)
  clean : ∀ s P, Inv s →
    BoardSolver_t.smartcleanPossibilitiesBoard s.copy s.m_current_possibilities = Except.ok P →
    Inv { s with m_current_possibilities := P }

/-- What the loops of `solve` need from the bruteforce runner: it leaves the working board
alone, keeps the invariant, does not use up the iteration bound and adds no candidates. -/
structure RunnerOk (Inv : Session → Prop) (runner : Session → Outcome) : Prop where
  notExhausted : ∀ s, Inv s → ∀ t, runner s ≠ Outcome.exhausted t
  inv : ∀ s, Inv s → Inv (runner s).state
  copy_eq : ∀ s, Inv s → (runner s).state.copy = s.copy
  measure_le : ∀ s, Inv s →
    BoardSolver_t.openCells (runner s).state.m_current_possibilities ≤
      BoardSolver_t.openCells s.m_current_possibilities

/-- A field whose value is a digit listed in the candidates of its cell and of another cell. -/
def TwoWay (P : PossibilitiesBoard_t) (f : field_t) : Prop :=
  InRange f.1 ∧ f.2 ∈ target ∧ f.2 ∈ Board_t.get P f.1 ∧
    ∃ q, q ≠ f.1 ∧ InRange q ∧ f.2 ∈ Board_t.get P q

/-- A hypothesis of the bruteforce pass on board `b`: the scenario is `b` with a non-zero
value written in range, and some other cell of `b` is empty. -/
def ScenarioOk (b : Board_t Int) (sc : Board_t Int × field_t) : Prop :=
  sc.1 = Board_t.set b sc.2.1 sc.2.2 ∧ InRange sc.2.1 ∧ sc.2.2 ≠ 0 ∧
    ∃ q, q ≠ sc.2.1 ∧ InRange q ∧ Board_t.get b q = 0

/-- The log `written` is the history of the working board `copy` since the input `g`:
each entry holds the board before its write, and the write gives the next board. -/
def History (g : Board_t Int) : List (Board_t Int × field_t) → Board_t Int → Prop
  | [], copy => copy = g
  | (before, f) :: rest, copy => copy = Board_t.set before f.1 f.2 ∧ History g rest before

/-- A working board that keeps every non-empty cell of the input `g`, and is free of
conflicts when `g` is. -/
def Extends (g b : Board_t Int) : Prop :=
  Is9x9 b ∧ (∀ q, InRange q → Board_t.get g q ≠ 0 → Board_t.get b q = Board_t.get g q) ∧
    (NoConflict g → NoConflict b)

/-- A logged write: into an empty cell in range, of a non-zero value, between two boards
that extend the input. -/
def GoodWrite (g : Board_t Int) (e : Board_t Int × field_t) : Prop :=
  Extends g e.1 ∧ InRange e.2.1 ∧ Board_t.get e.1 e.2.1 = 0 ∧ e.2.2 ≠ 0 ∧
    Extends g (Board_t.set e.1 e.2.1 e.2.2)

/-- Invariant of a session started on the input board `g`. -/
def SessionInv (g : Board_t Int) (s : Session) : Prop :=
  Consistent s.copy s.m_current_possibilities ∧ History g s.written s.copy ∧
    Extends g s.copy ∧ ∀ e ∈ s.written, GoodWrite g e

/-- A completed grid of the data model: nine by nine, every cell a digit of 1..9, no
two equal values in a row, column or box. -/
def IsSolution (S : Board_t Int) : Prop :=
  Is9x9 S ∧ (∀ p, InRange p → Board_t.get S p ∈ target) ∧ NoConflict S

/-- The board `b` agrees with `S` on its non-empty cells. -/
def AgreesWith (S b : Board_t Int) : Prop :=
  ∀ p, InRange p → Board_t.get b p ≠ 0 → Board_t.get b p = Board_t.get S p

/-- The board and the candidates are compatible with the completed grid `S`: filled cells
hold the value of `S`, and empty cells still list the value of `S`. -/
def Sound (S b : Board_t Int) (P : PossibilitiesBoard_t) : Prop :=
  AgreesWith S b ∧ ∀ p, InRange p → Board_t.get b p = 0 → Board_t.get S p ∈ Board_t.get P p

/-- Invariant of a session whose input can be completed to `S`. -/
def SoundInv (S : Board_t Int) (s : Session) : Prop :=
  Consistent s.copy s.m_current_possibilities ∧ Sound S s.copy s.m_current_possibilities ∧
    ∀ e ∈ s.written, e.2.2 = Board_t.get S e.2.1

/-- The test made by the cleaner on local column `i` of the box centered at `x`: the full
column of the board holds `goal`, or the three cells of the column inside the box are filled. -/
def columnExcluded (board : Board_t Int) (goal : Int) (x : pos_t) (i : Nat) : Bool :=
  utils.contains (Board_t.getColumn board ((i + x.1 - 1) % 256)) goal ||
    utils.isFull (Board_t.getColumn (Board_t.copyNeighborhood board x) i)

/-- A move on a cell whose candidate set is exactly the value of the move. -/
def OnlyMove (P : PossibilitiesBoard_t) (f : field_t) : Prop :=
  InRange f.1 ∧ Board_t.get P f.1 = [f.2]

/-- A move on the one cell of a box that still lists a digit missing from the box. -/
def BoxMove (b : Board_t Int) (P : PossibilitiesBoard_t) (f : field_t) : Prop :=
  ∃ c ∈ Board_t.centersFor9x9Board,
    f.2 ∈ target ∧ f.2 ∉ Board_t.getNeighborhood b c ∧ f.1 ∈ boxCells c ∧
    f.2 ∈ Board_t.get P f.1 ∧ ∀ q ∈ boxCells c, f.2 ∈ Board_t.get P q → q = f.1

/-- The state of a session right after the constructor `BoardSolver_t(g)`: the working
board is `g`, the candidates are the ones built by the constructor, nothing is logged. -/
def Session.initial (g : Board_t Int) : Session :=
  { copy := g, m_current_possibilities := BoardSolver_t.constructPossibilities g, written := [] }

/-- One operation of a session on its state. `insertion` is one pass of the innermost loop
of `solve`; `hypothesis` is the call `scenario_solver.postprocessInsertion(field)` that
opens a nested session; `smartclean` is one call of the cleaner and `cleaning` the whole
pass `smartcleanPossibilitiesBoard`; `refuted` is the erasure made by the bruteforce
runner for one hypothesis and `bruteforce` a whole call of the runner. -/
inductive SessionStep : Session → Session → Prop
  | insertion (s : Session) (f : field_t) :
      f ∈ BoardSolver_t.getFieldsToBeFilled s.m_current_possibilities s.copy →
      SessionStep s (BoardSolver_t.commit s f)
  | hypothesis (s : Session) (f : field_t) : InRange f.1 →
      SessionStep s { s with m_current_possibilities :=
        BoardSolver_t.postprocessInsertion s.m_current_possibilities f }
  | smartclean (s : Session) (d : Int) :
      SessionStep s { s with m_current_possibilities :=
        SmartCleaner_t.smartclean s.copy s.m_current_possibilities d }
  | cleaning (s : Session) (P : PossibilitiesBoard_t) :
      BoardSolver_t.smartcleanPossibilitiesBoard s.copy s.m_current_possibilities = Except.ok P →
      SessionStep s { s with m_current_possibilities := P }
  | refuted (s : Session) (f : field_t) :
      SessionStep s { s with m_current_possibilities :=
        BoardSolver_t.eraseFrompossibilities_board s.m_current_possibilities f.1 f.2 }
  | bruteforce (s : Session) : SessionStep s (BoardSolver_t.bruteforceStrategyRunner s).state

/-- The nested session run by `bruteforceStrategyRunner` for one hypothesis: a solver is
constructed for the scenario, `postprocessInsertion(field)` is applied and `solve(false)`
is called (the expression evaluated by `runScenarios` for the head of the list). -/
def scenario_solved (scenario : Board_t Int) (field : field_t) : Outcome :=
  BoardSolver_t.solveNested
    (BoardSolver_t.fuelFor
      (BoardSolver_t.postprocessInsertion (BoardSolver_t.constructPossibilities scenario) field))
    { copy := scenario,
      m_current_possibilities :=
        BoardSolver_t.postprocessInsertion (BoardSolver_t.constructPossibilities scenario) field,
      written := [] }

/-- The run ended with the thrown `std::exception`. -/
def Outcome.isRaised : Outcome → Bool
  | .raised _ => true
  | _ => false

/-- The nine cells `(i, j)` with `i` in `3*(x/3) .. 3*(x/3)+2` and `j` in
`3*(y/3) .. 3*(y/3)+2`: the 3x3 box containing `p = (x, y)`. -/
def boxOf (p : pos_t) : List pos_t :=
  [0, 1, 2].flatMap (fun i => [0, 1, 2].map (fun j => (3 * (p.1 / 3) + i, 3 * (p.2 / 3) + j)))

/-- The position `p` addresses a cell of the board: `m_board[p.first][p.second]` exists. -/
def Board_t.HasCell {α : Type} (b : Board_t α) (p : pos_t) : Prop :=
  p.1 < b.length ∧ p.2 < (b.getD p.1 []).length

instance {α : Type} (b : Board_t α) (p : pos_t) : Decidable (Board_t.HasCell b p) := by
  unfold Board_t.HasCell; exact inferInstance

/-- A board of at most 255 columns of at most 255 cells each, so that every index fits
the 8-bit coordinates of `pos_t` without reaching the sentinel 255. -/
def Board_t.Small {α : Type} (b : Board_t α) : Prop :=
  b.length ≤ 255 ∧ ∀ col ∈ b, col.length ≤ 255

instance {α : Type} (b : Board_t α) : Decidable (Board_t.Small b) := by
  unfold Board_t.Small; exact inferInstance

/-- The hypotheses of `retrieveNextMoves` in the order of the calls `result.insert`: box
by box in the order of `centersFor9x9Board`, within a box value by value in the order of
`target`, within a value position by position in the order of the set returned by
`findAll`. -/
def generationOrder (possibilities : PossibilitiesBoard_t) (board : Board_t Int) : List field_t :=
  Board_t.centersFor9x9Board.flatMap (fun pos =>
    target.flatMap (fun val =>
      if (Board_t.getNeighborhood board pos).contains val then []
      else if Board_t.count (fun (container : List Int) => container.contains val)
          (Board_t.copyNeighborhood possibilities pos) ≤ 2 ∧
          Board_t.count (fun (container : List Int) => container.contains val)
            (Board_t.copyNeighborhood possibilities pos) > 1 then
        ((Board_t.findAll (fun (value_container : List Int) => value_container.contains val)
            possibilities).filter (fun possibility =>
          decide ((utils.getLocalCenter possibility).1 = pos.1 ∧
            (utils.getLocalCenter possibility).2 = pos.2))).map (fun possibility => (possibility, val))
      else []))

/-- The condition of the forced-column rule for the cell `(col, row)` and the digit `d`: a
box (given by its center `c`) holds no `d`, exactly one of its three local columns is
not excluded, `col` is the absolute index of that column, and `(col, row)` lies outside
the box. -/
def ForcedColumn (b : Board_t Int) (d : Int) (col row : Nat) : Prop :=
  ∃ c ∈ Board_t.centersFor9x9Board,
    (∀ q ∈ boxCells c, Board_t.get b q ≠ d) ∧
    ∃ i ∈ [0, 1, 2], columnExcluded b d c i = false ∧
      (∀ k ∈ [0, 1, 2], k ≠ i → columnExcluded b d c k = true) ∧
      col = c.1 + i - 1 ∧ (col, row) ∉ boxCells c

instance (b : Board_t Int) (d : Int) (col row : Nat) : Decidable (ForcedColumn b d col row) := by
  unfold ForcedColumn; exact inferInstance

/-- Number of cells of the grid that hold the value `v`. -/
def occurrencesOf (b : Board_t Int) (v : Int) : Nat :=
  b.flatten.count v

/-- A completed valid grid (listed column by column). -/
def exampleFull : Board_t Int :=
  [[1, 2, 3, 4, 5, 6, 7, 8, 9], [4, 5, 6, 7, 8, 9, 1, 2, 3], [7, 8, 9, 1, 2, 3, 4, 5, 6],
   [2, 3, 4, 5, 6, 7, 8, 9, 1], [5, 6, 7, 8, 9, 1, 2, 3, 4], [8, 9, 1, 2, 3, 4, 5, 6, 7],
   [3, 4, 5, 6, 7, 8, 9, 1, 2], [6, 7, 8, 9, 1, 2, 3, 4, 5], [9, 1, 2, 3, 4, 5, 6, 7, 8]]

/-- The grid `exampleFull` with the cell `(4, 7)` emptied. -/
def exampleOneEmpty : Board_t Int :=
  [[1, 2, 3, 4, 5, 6, 7, 8, 9], [4, 5, 6, 7, 8, 9, 1, 2, 3], [7, 8, 9, 1, 2, 3, 4, 5, 6],
   [2, 3, 4, 5, 6, 7, 8, 9, 1], [5, 6, 7, 8, 9, 1, 2, 0, 4], [8, 9, 1, 2, 3, 4, 5, 6, 7],
   [3, 4, 5, 6, 7, 8, 9, 1, 2], [6, 7, 8, 9, 1, 2, 3, 4, 5], [9, 1, 2, 3, 4, 5, 6, 7, 8]]

/-- The grid `exampleFull` with the cells `(0, 0)` and `(4, 7)` emptied. -/
def exampleTwoEmpty : Board_t Int :=
  [[0, 2, 3, 4, 5, 6, 7, 8, 9], [4, 5, 6, 7, 8, 9, 1, 2, 3], [7, 8, 9, 1, 2, 3, 4, 5, 6],
   [2, 3, 4, 5, 6, 7, 8, 9, 1], [5, 6, 7, 8, 9, 1, 2, 0, 4], [8, 9, 1, 2, 3, 4, 5, 6, 7],
   [3, 4, 5, 6, 7, 8, 9, 1, 2], [6, 7, 8, 9, 1, 2, 3, 4, 5], [9, 1, 2, 3, 4, 5, 6, 7, 8]]

/-- The grid `exampleFull` with the cells `(0, 0)`, `(0, 1)` and `(8, 1)` emptied. -/
def exampleThreeEmpty : Board_t Int :=
  [[0, 0, 3, 4, 5, 6, 7, 8, 9], [4, 5, 6, 7, 8, 9, 1, 2, 3], [7, 8, 9, 1, 2, 3, 4, 5, 6],
   [2, 3, 4, 5, 6, 7, 8, 9, 1], [5, 6, 7, 8, 9, 1, 2, 3, 4], [8, 9, 1, 2, 3, 4, 5, 6, 7],
   [3, 4, 5, 6, 7, 8, 9, 1, 2], [6, 7, 8, 9, 1, 2, 3, 4, 5], [9, 0, 2, 3, 4, 5, 6, 7, 8]]

/-- The grid `exampleFull` with the rows 0, 1, 3, 4, 6 and 7 of the columns 0 and 1 emptied. -/
def exampleTwelveEmpty : Board_t Int :=
  [[0, 0, 3, 0, 0, 6, 0, 0, 9], [0, 0, 6, 0, 0, 9, 0, 0, 3], [7, 8, 9, 1, 2, 3, 4, 5, 6],
   [2, 3, 4, 5, 6, 7, 8, 9, 1], [5, 6, 7, 8, 9, 1, 2, 3, 4], [8, 9, 1, 2, 3, 4, 5, 6, 7],
   [3, 4, 5, 6, 7, 8, 9, 1, 2], [6, 7, 8, 9, 1, 2, 3, 4, 5], [9, 1, 2, 3, 4, 5, 6, 7, 8]]

/-- The grid `exampleTwelveEmpty` with the cell `(8, 8)` overwritten by 7, which
repeats the 7 of the cell `(8, 7)` in its column. -/
def exampleConflict : Board_t Int :=
  [[0, 0, 3, 0, 0, 6, 0, 0, 9], [0, 0, 6, 0, 0, 9, 0, 0, 3], [7, 8, 9, 1, 2, 3, 4, 5, 6],
   [2, 3, 4, 5, 6, 7, 8, 9, 1], [5, 6, 7, 8, 9, 1, 2, 3, 4], [8, 9, 1, 2, 3, 4, 5, 6, 7],
   [3, 4, 5, 6, 7, 8, 9, 1, 2], [6, 7, 8, 9, 1, 2, 3, 4, 5], [9, 1, 2, 3, 4, 5, 6, 7, 7]]

/-- A valid grid in which the box centered at `(7, 1)` cannot take a 5: the columns 6
and 7 hold a 5 further down and the three cells of column 8 inside the box are filled. -/
def exampleStuck : Board_t Int :=
  [[0, 0, 0, 0, 0, 0, 0, 0, 0], [0, 0, 0, 0, 0, 0, 0, 0, 0], [0, 0, 0, 0, 0, 0, 0, 0, 0],
   [0, 0, 0, 0, 0, 0, 0, 0, 0], [0, 0, 0, 0, 0, 0, 0, 0, 0], [0, 0, 0, 0, 0, 0, 0, 0, 0],
   [0, 0, 0, 5, 0, 0, 0, 0, 0], [0, 0, 0, 0, 0, 0, 5, 0, 0], [1, 2, 3, 0, 0, 0, 0, 0, 0]]

/-- A grid of 16 columns of 16 cells, every cell holding 1. -/
def exampleWide : Board_t Int :=
  List.replicate 16 (List.replicate 16 1)

/-- A grid of two columns of three cells. -/
def exampleTwoByThree : Board_t Int :=
  [[1, 2, 3], [4, 5, 6]]

/-- A candidate board of empty sets. -/
def emptyPossibilities : PossibilitiesBoard_t :=
  List.replicate 9 (List.replicate 9 [])

/-- A candidate board with exactly two non-empty sets: `{7}` at column 0, row 1 and `{3}`
at column 1, row 0. -/
def exampleTies : PossibilitiesBoard_t :=
  Board_t.set (Board_t.set emptyPossibilities (0, 1) [7]) (1, 0) [3]

/-- The cells met by the final loop of `smartclean` for the digit `d` and the box centered
at `x`: none when the box holds `d` or no column is allowed, else the nine cells of the
allowed column except the ones whose local center is `x`. The list is computed from the
grid and the digit; the candidate board is not read. -/
def cleanedCellsOf (b : Board_t Int) (d : Int) (x : pos_t) : List pos_t :=
  if Board_t.find (fun v => v == d) (Board_t.copyNeighborhood b x) ≠ (255, 255) then []
  else if SmartCleaner_t.allowedColumn
      (SmartCleaner_t.determineLocalRulesForColumns b d x (Board_t.copyNeighborhood b x)) x > -1 then
    ((List.range 9).filter (fun i =>
      !decide ((utils.getLocalCenter
          ((SmartCleaner_t.allowedColumn
            (SmartCleaner_t.determineLocalRulesForColumns b d x (Board_t.copyNeighborhood b x)) x).toNat % 256,
            i % 256)).1 = x.1 ∧
        (utils.getLocalCenter
          ((SmartCleaner_t.allowedColumn
            (SmartCleaner_t.determineLocalRulesForColumns b d x (Board_t.copyNeighborhood b x)) x).toNat % 256,
            i % 256)).2 = x.2))).map (fun i =>
      ((SmartCleaner_t.allowedColumn
        (SmartCleaner_t.determineLocalRulesForColumns b d x (Board_t.copyNeighborhood b x)) x).toNat % 256,
        i % 256))
  else []

/-- The cells met by the final loops of one call `smartclean(b, P, d)`, box after box: none
when `d` occurs nine times or not at all in the grid. -/
def cleanedCells (b : Board_t Int) (d : Int) : List pos_t :=
  if Board_t.count (fun v => v == d) b = 9 ∨ Board_t.count (fun v => v == d) b = 0 then []
  else Board_t.centersFor9x9Board.flatMap (cleanedCellsOf b d)

/-- A grid of the data model: nine by nine, every cell an integer of 0..9. -/
def IsGrid (b : Board_t Int) : Prop :=
  Is9x9 b ∧ ∀ p ∈ allCells, 0 ≤ Board_t.get b p ∧ Board_t.get b p ≤ 9

instance (b : Board_t Int) : Decidable (IsGrid b) := by
  unfold IsGrid; exact inferInstance

/-- No cell of the candidate board `P` lists a digit that a cell of its row, of its column
or of its box holds in the grid `b`. -/
def AvoidsPresent (b : Board_t Int) (P : PossibilitiesBoard_t) : Prop :=
  ∀ p ∈ allCells, ∀ v ∈ Board_t.get P p, v ∉ unitValues b p

instance (b : Board_t Int) (P : PossibilitiesBoard_t) : Decidable (AvoidsPresent b P) := by
  unfold AvoidsPresent; exact inferInstance

end malcolm


/-!
## Basic facts about boards
-/

namespace malcolm

section BoardLemmas

variable {α : Type}

theorem Is9x9.getD_length {b : Board_t α} (h : Is9x9 b) {x : Nat} (hx : x < 9) :
    (b.getD x []).length = 9 := by
  have hx2 : x < b.length := by rw [h.1]; exact hx
  rw [List.getD_eq_getElem _ _ hx2]
  exact h.2 _ (List.getElem_mem _)

theorem Is9x9.headD_length {b : Board_t α} (h : Is9x9 b) : (b.headD []).length = 9 := by
  cases b with
  | nil => simp [Is9x9] at h
  | cons c t => exact h.2 c (List.mem_cons_self _ _)

variable [Inhabited α]

omit [Inhabited α] in
theorem Is9x9.getSize {b : Board_t α} (h : Is9x9 b) : Board_t.getSize b = (9, 9) := by
  unfold Board_t.getSize
  rw [h.headD_length, h.1]
  rfl

omit [Inhabited α] in
theorem Is9x9.set {b : Board_t α} (h : Is9x9 b) (p : pos_t) (v : α) : Is9x9 (Board_t.set b p v) := by
  refine ⟨by simp [Board_t.set, h.1], ?_⟩
  intro col hcol
  simp only [Board_t.set] at hcol
  rcases List.mem_or_eq_of_mem_set hcol with h1 | h1
  · exact h.2 _ h1
  · subst h1
    by_cases hp : p.1 < 9
    · rw [List.length_set]
      exact h.getD_length hp
    · have : b.length ≤ p.1 := by rw [h.1]; omega
      rw [List.set_eq_of_length_le this] at hcol
      exact h.2 _ hcol

theorem Board_t.get_set_ne (b : Board_t α) {p q : pos_t} (v : α) (hne : q ≠ p) :
    Board_t.get (Board_t.set b p v) q = Board_t.get b q := by
  unfold Board_t.get Board_t.set
  simp only [List.getD_eq_getElem?_getD, List.getElem?_set]
  by_cases hx : p.1 = q.1
  · have hy : p.2 ≠ q.2 := by
      intro hy; exact hne (Prod.ext hx.symm hy.symm)
    by_cases hlt : p.1 < b.length
    · have hlt2 : q.1 < b.length := hx ▸ hlt
      simp [hx, hlt2, hy, List.getElem?_set]
    · have hlt2 : ¬ q.1 < b.length := hx ▸ hlt
      have hnone : b[q.1]? = none := List.getElem?_eq_none (by omega)
      simp [hx, hlt2, hnone]
  · simp [hx]

theorem Board_t.get_set_self {b : Board_t α} (h : Is9x9 b) {p : pos_t} (hp : InRange p) (v : α) :
    Board_t.get (Board_t.set b p v) p = v := by
  have hlt : p.1 < b.length := by rw [h.1]; exact hp.1
  have hlen : (b[p.1]).length = 9 := h.2 _ (List.getElem_mem _)
  have hy : p.2 < (b[p.1]).length := by rw [hlen]; exact hp.2
  unfold Board_t.get Board_t.set
  simp [List.getD_eq_getElem?_getD, List.getElem?_set, hlt, hy]

theorem Board_t.get_set {b : Board_t α} (h : Is9x9 b) {p : pos_t} (hp : InRange p) (v : α) (q : pos_t) :
    Board_t.get (Board_t.set b p v) q = if q = p then v else Board_t.get b q := by
  by_cases hq : q = p
  · subst hq; simp [Board_t.get_set_self h hp]
  · simp [hq, Board_t.get_set_ne b v hq]

omit [Inhabited α] in
/-- Writing outside a 9x9 board changes nothing. -/
theorem Board_t.set_of_not_inRange {b : Board_t α} (h : Is9x9 b) {p : pos_t} (hp : ¬ InRange p) (v : α) :
    Board_t.set b p v = b := by
  unfold Board_t.set
  by_cases hx : p.1 < 9
  · have hy : 9 ≤ p.2 := by
      unfold InRange at hp; omega
    have hlen := h.getD_length hx
    have hlt : p.1 < b.length := by rw [h.1]; exact hx
    have e1 : (b.getD p.1 []).set p.2 v = b.getD p.1 [] :=
      List.set_eq_of_length_le (by rw [hlen]; exact hy)
    rw [e1, List.getD_eq_getElem _ _ hlt]
    apply List.ext_getElem (by simp)
    intro i h1 h2
    rw [List.getElem_set]
    split
    · next hi => subst hi; rfl
    · rfl
  · exact List.set_eq_of_length_le (by rw [h.1]; omega)

/-- Two 9x9 boards with the same cells are equal. -/
theorem Board_t.ext9 {a b : Board_t α} (ha : Is9x9 a) (hb : Is9x9 b)
    (h : ∀ p, InRange p → Board_t.get a p = Board_t.get b p) : a = b := by
  apply List.ext_getElem (by rw [ha.1, hb.1])
  intro x hx1 hx2
  have hx : x < 9 := by rw [ha.1] at hx1; exact hx1
  have la : (a[x]).length = 9 := ha.2 _ (List.getElem_mem _)
  have lb : (b[x]).length = 9 := hb.2 _ (List.getElem_mem _)
  apply List.ext_getElem (by rw [la, lb])
  intro y hy1 hy2
  have hy : y < 9 := by rw [la] at hy1; exact hy1
  have := h (x, y) ⟨hx, hy⟩
  simp only [Board_t.get] at this
  rw [List.getD_eq_getElem _ _ hx1, List.getD_eq_getElem _ _ hx2,
    List.getD_eq_getElem _ _ hy1, List.getD_eq_getElem _ _ hy2] at this
  exact this

theorem Board_t.getRow_eq {b : Board_t α} (h : Is9x9 b) (y : Nat) :
    Board_t.getRow b y = (List.range 9).map (fun x => Board_t.get b (x, y)) := by
  unfold Board_t.getRow
  apply List.ext_getElem (by simp [h.1])
  intro i h1 h2
  have hi : i < b.length := by simpa using h1
  simp [Board_t.get, hi]

theorem Board_t.getColumn_eq {b : Board_t α} (h : Is9x9 b) (x : Nat) :
    Board_t.getColumn b x = (List.range 9).map (fun y => Board_t.get b (x, y)) := by
  unfold Board_t.getColumn
  rw [h.headD_length]

theorem Board_t.box_container (b : Board_t α) {c : pos_t} (hc : c ∈ Board_t.centersFor9x9Board) :
    ((Board_t.copyNeighborhood b c).toContainer).map Prod.snd = (boxCells c).map (Board_t.get b) := by
  simp only [Board_t.centersFor9x9Board, List.mem_cons, List.mem_singleton, List.mem_nil_iff, or_false] at hc
  rcases hc with h | h | h | h | h | h | h | h | h <;> subst h <;> rfl

omit [Inhabited α] in
theorem mem_boxCells {c q : pos_t} (h1 : 1 ≤ c.1) (h2 : 1 ≤ c.2) :
    q ∈ boxCells c ↔ (c.1 - 1 ≤ q.1 ∧ q.1 ≤ c.1 + 1) ∧ (c.2 - 1 ≤ q.2 ∧ q.2 ≤ c.2 + 1) := by
  obtain ⟨cx, cy⟩ := c
  obtain ⟨qx, qy⟩ := q
  simp only [boxCells, List.mem_cons, Prod.mk.injEq, List.mem_singleton, List.mem_nil_iff, or_false]
  simp only at h1 h2
  constructor
  · rintro (⟨r1, r2⟩ | ⟨r1, r2⟩ | ⟨r1, r2⟩ | ⟨r1, r2⟩ | ⟨r1, r2⟩ | ⟨r1, r2⟩ | ⟨r1, r2⟩ | ⟨r1, r2⟩ | ⟨r1, r2⟩) <;>
      exact ⟨⟨by omega, by omega⟩, ⟨by omega, by omega⟩⟩
  · rintro ⟨⟨a1, a2⟩, ⟨b1, b2⟩⟩
    have hx : qx = cx - 1 ∨ qx = cx ∨ qx = cx + 1 := by omega
    have hy : qy = cy - 1 ∨ qy = cy ∨ qy = cy + 1 := by omega
    rcases hx with hx | hx | hx <;> rcases hy with hy | hy | hy <;> simp [hx, hy]

omit [Inhabited α] in
theorem getLocalCenter_fst (p : pos_t) : (utils.getLocalCenter p).1 = 3 * (p.1 / 3) + 1 := by
  simp only [utils.getLocalCenter]
  split
  · omega
  · split <;> omega

omit [Inhabited α] in
theorem getLocalCenter_snd (p : pos_t) : (utils.getLocalCenter p).2 = 3 * (p.2 / 3) + 1 := by
  simp only [utils.getLocalCenter]
  split
  · omega
  · split <;> omega

omit [Inhabited α] in
theorem mem_boxCells_center {p q : pos_t} :
    q ∈ boxCells (utils.getLocalCenter p) ↔ SameBox p q := by
  rw [mem_boxCells (by rw [getLocalCenter_fst]; omega) (by rw [getLocalCenter_snd]; omega),
    getLocalCenter_fst, getLocalCenter_snd]
  unfold SameBox
  omega

omit [Inhabited α] in
theorem getLocalCenter_mem_centers {p : pos_t} (hp : InRange p) :
    utils.getLocalCenter p ∈ Board_t.centersFor9x9Board := by
  have e : utils.getLocalCenter p = (3 * (p.1 / 3) + 1, 3 * (p.2 / 3) + 1) :=
    Prod.ext (getLocalCenter_fst p) (getLocalCenter_snd p)
  rw [e]
  have ha : p.1 / 3 < 3 := by have := hp.1; omega
  have hb : p.2 / 3 < 3 := by have := hp.2; omega
  generalize p.1 / 3 = a at ha
  generalize p.2 / 3 = b at hb
  interval_cases a <;> interval_cases b <;> decide

omit [Inhabited α] in
theorem getLocalCenter_of_mem_centers {c : pos_t} (hc : c ∈ Board_t.centersFor9x9Board) :
    utils.getLocalCenter c = c ∧ InRange c := by
  simp only [Board_t.centersFor9x9Board, List.mem_cons, List.mem_singleton, List.mem_nil_iff, or_false] at hc
  rcases hc with h | h | h | h | h | h | h | h | h <;> subst h <;> decide

omit [Inhabited α] in
theorem SameBox.inRange {p q : pos_t} (h : SameBox p q) (hp : InRange p) : InRange q := by
  unfold SameBox at h
  unfold InRange at *
  omega

theorem Board_t.neighborhoodAround_eq {b : Board_t α} (h : Is9x9 b) {x y : Nat}
    (hx : 1 ≤ x ∧ x ≤ 7) (hy : 1 ≤ y ∧ y ≤ 7) :
    Board_t.neighborhoodAround b x y =
      [(x, y), (x - 1, y), (x + 1, y), (x, y - 1), (x, y + 1), (x - 1, y - 1), (x + 1, y - 1),
       (x - 1, y + 1), (x + 1, y + 1)].map (Board_t.get b) := by
  have hlen := h.getD_length (x := x) (by omega)
  have c1 : x > 0 := by omega
  have c2 : x < b.length - 1 := by rw [h.1]; omega
  have c3 : y > 0 := by omega
  have c4 : y < (b.getD x []).length - 1 := by rw [hlen]; omega
  simp only [Board_t.neighborhoodAround]
  rw [if_pos c1, if_pos c2, if_pos c3, if_pos c4, if_pos (And.intro c1 c3), if_pos (And.intro c2 c3),
    if_pos (And.intro c1 c4), if_pos (And.intro c2 c4)]
  rfl

theorem Board_t.mem_getNeighborhood {b : Board_t α} (h : Is9x9 b) {p : pos_t} (hp : InRange p) (v : α) :
    v ∈ Board_t.getNeighborhood b p ↔ ∃ q, SameBox p q ∧ Board_t.get b q = v := by
  have hx := getLocalCenter_fst p
  have hy := getLocalCenter_snd p
  have hp1 := hp.1
  have hp2 := hp.2
  have e : Board_t.getNeighborhood b p =
      Board_t.neighborhoodAround b (utils.getLocalCenter p).1 (utils.getLocalCenter p).2 := rfl
  rw [e, Board_t.neighborhoodAround_eq h (by omega) (by omega), List.mem_map]
  have key : ∀ q : pos_t, q ∈ [((utils.getLocalCenter p).1, (utils.getLocalCenter p).2),
        ((utils.getLocalCenter p).1 - 1, (utils.getLocalCenter p).2),
        ((utils.getLocalCenter p).1 + 1, (utils.getLocalCenter p).2),
        ((utils.getLocalCenter p).1, (utils.getLocalCenter p).2 - 1),
        ((utils.getLocalCenter p).1, (utils.getLocalCenter p).2 + 1),
        ((utils.getLocalCenter p).1 - 1, (utils.getLocalCenter p).2 - 1),
        ((utils.getLocalCenter p).1 + 1, (utils.getLocalCenter p).2 - 1),
        ((utils.getLocalCenter p).1 - 1, (utils.getLocalCenter p).2 + 1),
        ((utils.getLocalCenter p).1 + 1, (utils.getLocalCenter p).2 + 1)] ↔
      q ∈ boxCells (utils.getLocalCenter p) := by
    intro q
    simp only [boxCells, List.mem_cons, List.mem_singleton, List.mem_nil_iff, or_false]
    tauto
  constructor
  · rintro ⟨q, hq, rfl⟩
    exact ⟨q, mem_boxCells_center.1 ((key q).1 hq), rfl⟩
  · rintro ⟨q, hq, rfl⟩
    exact ⟨q, (key q).2 (mem_boxCells_center.2 hq), rfl⟩

end BoardLemmas

end malcolm


/-!
## The validator
-/

namespace malcolm

theorem hasDuplicates_eq_false_iff (v : List Int) :
    utils.hasDuplicates v [0] = false ↔ v.Pairwise (fun a b => a = b → a = 0) := by
  induction v with
  | nil => simp [utils.hasDuplicates]
  | cons a t ih =>
    rw [utils.hasDuplicates, Bool.or_eq_false_iff, ih, List.pairwise_cons]
    apply and_congr_left
    intro _
    rw [List.any_eq_false]
    constructor
    · intro h b hb hab
      have := h b hb
      by_contra h0
      apply this
      simp [hab, h0]
      intro h1; exact h0 (hab.trans h1)
    · intro h b hb
      have := h b hb
      simp only [Bool.and_eq_true, beq_iff_eq, Bool.not_eq_true', not_and, Bool.not_eq_false]
      intro hab
      simp [this hab]

/-- The duplicate check on the values of a duplicate-free list of cells. -/
theorem hasDuplicates_cells (g : Board_t Int) {cells : List pos_t} (hnd : cells.Nodup) :
    utils.hasDuplicates (cells.map (Board_t.get g)) [0] = false ↔
      ∀ p ∈ cells, ∀ q ∈ cells, p ≠ q → Board_t.get g p = Board_t.get g q → Board_t.get g p = 0 := by
  rw [hasDuplicates_eq_false_iff, List.pairwise_map]
  constructor
  · intro h p hp q hq hne
    have hsymm : Symmetric (fun p q : pos_t => Board_t.get g p = Board_t.get g q → Board_t.get g p = 0) := by
      intro a b hab hba
      rw [hba]; exact hab hba.symm
    exact h.forall hsymm hp hq hne
  · intro h
    exact hnd.pairwise_of_forall_ne (fun p hp q hq hne => h p hp q hq hne)

theorem boxCells_nodup {c : pos_t} (h1 : 1 ≤ c.1) (h2 : 1 ≤ c.2) : (boxCells c).Nodup := by
  obtain ⟨x, y⟩ := c
  simp only at h1 h2
  simp only [boxCells, List.nodup_cons, List.mem_cons, Prod.mk.injEq, List.mem_singleton,
    List.mem_nil_iff, or_false, List.not_mem_nil, not_false_eq_true, List.nodup_nil, and_true]
  omega

theorem validateBoard_eq_true_iff {g : Board_t Int} (hg : Is9x9 g) (extra : Board_t Int → Bool) :
    validateBoard g extra = true ↔ NoConflict g ∧ extra g = true := by
  have rows : (List.range 9).any (fun i => utils.hasDuplicates (Board_t.getRow g i) [0]) = false ↔
      RowsDistinct g := by
    rw [List.any_eq_false]
    constructor
    · intro h y hy x1 hx1 x2 hx2 hne
      have h1 := h y (List.mem_range.2 hy)
      rw [Bool.not_eq_true, Board_t.getRow_eq hg, hasDuplicates_eq_false_iff, List.pairwise_map] at h1
      have hsymm : Symmetric (fun a b : Nat => Board_t.get g (a, y) = Board_t.get g (b, y) →
          Board_t.get g (a, y) = 0) := by
        intro a b hab hba
        rw [hba]; exact hab hba.symm
      exact h1.forall hsymm (List.mem_range.2 hx1) (List.mem_range.2 hx2) hne
    · intro h y hy
      rw [Bool.not_eq_true, Board_t.getRow_eq hg, hasDuplicates_eq_false_iff, List.pairwise_map]
      apply (List.nodup_range 9).pairwise_of_forall_ne
      intro a ha b hb hne
      exact h y (List.mem_range.1 hy) a (List.mem_range.1 ha) b (List.mem_range.1 hb) hne
  have cols : (List.range 9).any (fun i => utils.hasDuplicates (Board_t.getColumn g i) [0]) = false ↔
      ColumnsDistinct g := by
    rw [List.any_eq_false]
    constructor
    · intro h x hx y1 hy1 y2 hy2 hne
      have h1 := h x (List.mem_range.2 hx)
      rw [Bool.not_eq_true, Board_t.getColumn_eq hg, hasDuplicates_eq_false_iff, List.pairwise_map] at h1
      have hsymm : Symmetric (fun a b : Nat => Board_t.get g (x, a) = Board_t.get g (x, b) →
          Board_t.get g (x, a) = 0) := by
        intro a b hab hba
        rw [hba]; exact hab hba.symm
      exact h1.forall hsymm (List.mem_range.2 hy1) (List.mem_range.2 hy2) hne
    · intro h x hx
      rw [Bool.not_eq_true, Board_t.getColumn_eq hg, hasDuplicates_eq_false_iff, List.pairwise_map]
      apply (List.nodup_range 9).pairwise_of_forall_ne
      intro a ha b hb hne
      exact h x (List.mem_range.1 hx) a (List.mem_range.1 ha) b (List.mem_range.1 hb) hne
  have boxes : Board_t.centersFor9x9Board.any (fun pos =>
      utils.hasDuplicates (((Board_t.copyNeighborhood g pos).toContainer).map Prod.snd) [0]) = false ↔
      BoxesDistinct g := by
    rw [List.any_eq_false]
    constructor
    · intro h p q hp hq hne hbox
      have hc := getLocalCenter_mem_centers hp
      have h1 := h _ hc
      have c1 : 1 ≤ (utils.getLocalCenter p).1 := by rw [getLocalCenter_fst]; omega
      have c2 : 1 ≤ (utils.getLocalCenter p).2 := by rw [getLocalCenter_snd]; omega
      rw [Bool.not_eq_true, Board_t.box_container g hc, hasDuplicates_cells g (boxCells_nodup c1 c2)] at h1
      exact h1 p (mem_boxCells_center.2 ⟨rfl, rfl⟩) q (mem_boxCells_center.2 hbox) hne
    · intro h c hc
      have hcc := getLocalCenter_of_mem_centers hc
      have c1 : 1 ≤ c.1 := by
        have := getLocalCenter_fst c; rw [hcc.1] at this; omega
      have c2 : 1 ≤ c.2 := by
        have := getLocalCenter_snd c; rw [hcc.1] at this; omega
      rw [Bool.not_eq_true, Board_t.box_container g hc, hasDuplicates_cells g (boxCells_nodup c1 c2)]
      intro p hp q hq hne
      rw [← hcc.1] at hp hq
      have bp := mem_boxCells_center.1 hp
      have bq := mem_boxCells_center.1 hq
      have rp := bp.inRange hcc.2
      have rq := bq.inRange hcc.2
      refine h p q rp rq hne ?_
      unfold SameBox at *
      omega
  unfold validateBoard
  simp only [hg.getSize]
  unfold NoConflict
  rw [← rows, ← cols, ← boxes]
  cases (List.range 9).any (fun i => utils.hasDuplicates (Board_t.getRow g i) [0]) <;>
    cases (List.range 9).any (fun i => utils.hasDuplicates (Board_t.getColumn g i) [0]) <;>
    cases Board_t.centersFor9x9Board.any (fun pos =>
      utils.hasDuplicates (((Board_t.copyNeighborhood g pos).toContainer).map Prod.snd) [0]) <;>
    simp

end malcolm


/-!
## Sets kept as sorted lists, counting and searching
-/

namespace malcolm

theorem mem_setInsert {α : Type} (lt : α → α → Bool)
    (htotal : ∀ a b, lt a b = false → lt b a = false → a = b) (a x : α) (l : List α) :
    x ∈ setInsert lt a l ↔ x = a ∨ x ∈ l := by
  induction l with
  | nil => simp [setInsert]
  | cons b t ih =>
    unfold setInsert
    by_cases h1 : lt a b = true
    · simp [h1]
    · by_cases h2 : lt b a = true
      · simp only [h1, h2, ite_true, ite_false, List.mem_cons, ih, Bool.false_eq_true]
        tauto
      · have hab : a = b := htotal a b (by simpa using h1) (by simpa using h2)
        simp only [h1, h2, ite_false, List.mem_cons, Bool.false_eq_true]
        subst hab
        tauto

theorem posLt_total (a b : pos_t) (h1 : posLt a b = false) (h2 : posLt b a = false) : a = b := by
  obtain ⟨a1, a2⟩ := a
  obtain ⟨b1, b2⟩ := b
  simp only [posLt, Bool.or_eq_false_iff, decide_eq_false_iff_not, Bool.and_eq_false_iff,
    decide_eq_false_iff_not] at h1 h2
  simp only [Prod.mk.injEq]
  omega

theorem fieldLt_total (a b : field_t) (h1 : fieldLt a b = false) (h2 : fieldLt b a = false) : a = b := by
  obtain ⟨a1, a2⟩ := a
  obtain ⟨b1, b2⟩ := b
  simp only [fieldLt, Bool.or_eq_false_iff, Bool.and_eq_false_iff, decide_eq_false_iff_not] at h1 h2
  have e : a1 = b1 := posLt_total a1 b1 h1.1 h2.1
  subst e
  simp only [Prod.mk.injEq, true_and]
  have c1 := h1.2
  have c2 := h2.2
  simp only [not_true_eq_false, false_or, not_lt] at c1 c2
  omega

theorem mem_foldl_setInsert {α : Type} (lt : α → α → Bool)
    (htotal : ∀ a b, lt a b = false → lt b a = false → a = b) (x : α) (l init : List α) :
    x ∈ l.foldl (fun result p => setInsert lt p result) init ↔ x ∈ l ∨ x ∈ init := by
  induction l generalizing init with
  | nil => simp
  | cons a t ih =>
    rw [List.foldl_cons, ih, mem_setInsert lt htotal, List.mem_cons]
    tauto

/-- The 8-bit counter of `count` does not overflow on boards of fewer than 256 cells. -/
theorem Board_t.count_eq {α : Type} (predicate : α → Bool) (b : Board_t α) :
    Board_t.count predicate b = (b.flatten.countP predicate) % 256 := by
  have inner : ∀ (col : List α) (r : Nat),
      col.foldl (fun result y => (result + (if predicate y then 1 else 0)) % 256) r % 256
        = (r + col.countP predicate) % 256 := by
    intro col
    induction col with
    | nil => intro r; simp
    | cons y t ih =>
      intro r
      rw [List.foldl_cons, ih, List.countP_cons]
      split <;> omega
  have outer : ∀ (b : Board_t α) (r : Nat),
      b.foldl (fun result x =>
        x.foldl (fun result y => (result + (if predicate y then 1 else 0)) % 256) result) r % 256
        = (r + b.flatten.countP predicate) % 256 := by
    intro b
    induction b with
    | nil => intro r; simp
    | cons c t ih =>
      intro r
      rw [List.foldl_cons, ih, List.flatten_cons, List.countP_append]
      have := inner c r
      omega
  have small : ∀ (b : Board_t α) (r : Nat), r < 256 →
      b.foldl (fun result x =>
        x.foldl (fun result y => (result + (if predicate y then 1 else 0)) % 256) result) r < 256 := by
    intro b
    induction b with
    | nil => intro r hr; simpa using hr
    | cons c t ih =>
      intro r hr
      rw [List.foldl_cons]
      apply ih
      have : ∀ (col : List α) (r : Nat), r < 256 →
          col.foldl (fun result y => (result + (if predicate y then 1 else 0)) % 256) r < 256 := by
        intro col
        induction col with
        | nil => intro r hr; simpa using hr
        | cons y t ih2 =>
          intro r _
          rw [List.foldl_cons]
          apply ih2
          exact Nat.mod_lt _ (by norm_num)
      exact this c r hr
  unfold Board_t.count
  have h1 := outer b 0
  have h2 := small b 0 (by norm_num)
  rw [Nat.mod_eq_of_lt h2] at h1
  simpa using h1

theorem mem_allCells (p : pos_t) : p ∈ allCells ↔ InRange p := by
  obtain ⟨x, y⟩ := p
  simp only [allCells, List.mem_flatMap, List.mem_range, List.mem_map, Prod.mk.injEq, InRange]
  constructor
  · rintro ⟨a, ha, b, hb, rfl, rfl⟩
    exact ⟨ha, hb⟩
  · rintro ⟨hx, hy⟩
    exact ⟨x, hx, y, hy, rfl, rfl⟩

theorem allCells_nodup : allCells.Nodup := by decide

theorem allCells_length : allCells.length = 81 := by decide

theorem Board_t.eq_map_range {α : Type} [Inhabited α] {b : Board_t α} (h : Is9x9 b) :
    b = (List.range 9).map (fun x => (List.range 9).map (fun y => Board_t.get b (x, y))) := by
  have h9 : Is9x9 ((List.range 9).map (fun x => (List.range 9).map (fun y => Board_t.get b (x, y)))) := by
    refine ⟨by simp, ?_⟩
    intro col hcol
    simp only [List.mem_map, List.mem_range] at hcol
    obtain ⟨x, _, rfl⟩ := hcol
    simp
  apply Board_t.ext9 h h9
  intro p hp
  obtain ⟨x, y⟩ := p
  have hx : x < 9 := hp.1
  have hy : y < 9 := hp.2
  unfold Board_t.get
  simp [List.getD_eq_getElem?_getD, hx, hy]

theorem Board_t.flatten_eq {α : Type} [Inhabited α] {b : Board_t α} (h : Is9x9 b) :
    b.flatten = allCells.map (Board_t.get b) := by
  conv_lhs => rw [Board_t.eq_map_range h]
  simp [allCells, List.flatten, List.flatMap, List.map_flatten, Function.comp_def]

theorem Board_t.count_9x9 {α : Type} [Inhabited α] (predicate : α → Bool) {b : Board_t α} (h : Is9x9 b) :
    Board_t.count predicate b = allCells.countP (fun p => predicate (Board_t.get b p)) := by
  rw [Board_t.count_eq, Board_t.flatten_eq h, List.countP_map]
  apply Nat.mod_eq_of_lt
  have := List.countP_le_length (fun p => predicate (Board_t.get b p)) (l := allCells)
  rw [allCells_length] at this
  simp only [Function.comp_def]
  omega

theorem Board_t.count_eq_zero_iff {α : Type} [Inhabited α] (predicate : α → Bool) {b : Board_t α}
    (h : Is9x9 b) :
    Board_t.count predicate b = 0 ↔ ∀ p, InRange p → predicate (Board_t.get b p) = false := by
  rw [Board_t.count_9x9 predicate h, List.countP_eq_zero]
  constructor
  · intro hh p hp
    simpa using hh p ((mem_allCells p).2 hp)
  · intro hh p hp
    simpa using hh p ((mem_allCells p).1 hp)

theorem Board_t.copyNeighborhood_flatten {α : Type} [Inhabited α] (b : Board_t α) (c : pos_t) :
    (Board_t.copyNeighborhood b c).flatten = (boxCells (utils.getLocalCenter c)).map (Board_t.get b) := by
  rfl

theorem Board_t.count_copyNeighborhood {α : Type} [Inhabited α] (predicate : α → Bool) (b : Board_t α)
    (c : pos_t) :
    Board_t.count predicate (Board_t.copyNeighborhood b c) =
      (boxCells (utils.getLocalCenter c)).countP (fun p => predicate (Board_t.get b p)) := by
  rw [Board_t.count_eq, Board_t.copyNeighborhood_flatten, List.countP_map]
  apply Nat.mod_eq_of_lt
  have := List.countP_le_length (fun p => predicate (Board_t.get b p)) (l := boxCells (utils.getLocalCenter c))
  have hl : (boxCells (utils.getLocalCenter c)).length = 9 := rfl
  rw [hl] at this
  simp only [Function.comp_def]
  omega

theorem Board_t.findFrom_spec {α : Type} [Inhabited α] (predicate : α → Bool) (b : Board_t α) (i : Nat) :
    ((∀ col ∈ b, col.any predicate = false) ∧ Board_t.findFrom predicate b i = (255, 255)) ∨
    ∃ k j, k < b.length ∧ j < (b.getD k []).length ∧ predicate (Board_t.get b (k, j)) = true ∧
      Board_t.findFrom predicate b i = ((i + k) % 256, j % 256) := by
  induction b generalizing i with
  | nil => left; simp [Board_t.findFrom]
  | cons col rest ih =>
    unfold Board_t.findFrom
    by_cases hc : col.any predicate = true
    · right
      refine ⟨0, col.findIdx predicate, by simp, ?_, ?_, by simp [hc]⟩
      · simp only [List.getD_cons_zero]
        apply List.findIdx_lt_length_of_exists
        simpa using hc
      · have hlt : col.findIdx predicate < col.length := by
          apply List.findIdx_lt_length_of_exists
          simpa using hc
        simp only [Board_t.get, List.getD_cons_zero]
        rw [List.getD_eq_getElem _ _ hlt]
        exact List.findIdx_getElem
    · rcases ih (i + 1) with ⟨h1, h2⟩ | ⟨k, j, hk, hj, hp, he⟩
      · left
        refine ⟨?_, by simp [hc, h2]⟩
        intro c hcm
        rcases List.mem_cons.1 hcm with r | r
        · subst r; simpa using hc
        · exact h1 c r
      · right
        refine ⟨k + 1, j, by simpa using hk, by simpa using hj, by simpa [Board_t.get] using hp, ?_⟩
        simp only [hc, Bool.false_eq_true, ite_false, he]
        congr 2
        omega

end malcolm


/-!
## Updates of the candidate board
-/

namespace malcolm

open BoardSolver_t

theorem mem_setErase (s : List Int) (v x : Int) : x ∈ setErase s v ↔ x ∈ s ∧ x ≠ v := by
  simp [setErase]

theorem setErase_idem (s : List Int) (v : Int) : setErase (setErase s v) v = setErase s v := by
  simp [setErase, List.filter_filter]

theorem Board_t.get_of_not_inRange {α : Type} [Inhabited α] {b : Board_t α} (h : Is9x9 b) {q : pos_t}
    (hq : ¬ InRange q) : Board_t.get b q = default := by
  unfold Board_t.get
  by_cases hx : q.1 < 9
  · have hy : 9 ≤ q.2 := by
      unfold InRange at hq; omega
    have hlen := h.getD_length hx
    rw [List.getD_eq_default _ _ (by rw [hlen]; exact hy)]
  · have : b.getD q.1 [] = [] := List.getD_eq_default _ _ (by rw [h.1]; omega)
    rw [this]
    rfl

theorem foldl_flatMap_eq {α β γ : Type} (f : α → List β) (g : γ → β → γ) (l : List α) (init : γ) :
    (l.flatMap f).foldl g init = l.foldl (fun acc x => (f x).foldl g acc) init := by
  induction l generalizing init with
  | nil => rfl
  | cons a t ih => simp [List.flatMap_cons, List.foldl_append, ih]

theorem eraseFrom_9x9 {P : PossibilitiesBoard_t} (h : Is9x9 P) (c : pos_t) (v : Int) :
    Is9x9 (eraseFrompossibilities_board P c v) :=
  h.set _ _

theorem eraseFrom_get {P : PossibilitiesBoard_t} (h : Is9x9 P) (c : pos_t) (v : Int) (q : pos_t) :
    Board_t.get (eraseFrompossibilities_board P c v) q =
      if q = c then setErase (Board_t.get P q) v else Board_t.get P q := by
  unfold eraseFrompossibilities_board
  by_cases hc : InRange c
  · rw [Board_t.get_set h hc]
    split
    · next e => rw [e]
    · rfl
  · rw [Board_t.set_of_not_inRange h hc]
    split
    · next e =>
      subst e
      rw [Board_t.get_of_not_inRange h hc]
      rfl
    · rfl

theorem foldl_erase {P : PossibilitiesBoard_t} (h : Is9x9 P) (cs : List pos_t) (v : Int) :
    Is9x9 (cs.foldl (fun P c => eraseFrompossibilities_board P c v) P) ∧
    ∀ q, Board_t.get (cs.foldl (fun P c => eraseFrompossibilities_board P c v) P) q =
      if q ∈ cs then setErase (Board_t.get P q) v else Board_t.get P q := by
  induction cs generalizing P with
  | nil => exact ⟨h, fun q => by simp⟩
  | cons c t ih =>
    have h1 := eraseFrom_9x9 h c v
    obtain ⟨i1, i2⟩ := ih h1
    refine ⟨i1, ?_⟩
    intro q
    rw [List.foldl_cons, i2 q, eraseFrom_get h]
    by_cases hqc : q = c
    · subst hqc
      simp [setErase_idem]
    · simp [hqc]

theorem mem_postCells {pos : pos_t} (hpos : InRange pos) (q : pos_t) :
    q ∈ postCells pos ↔ InRange q ∧ (q.1 = pos.1 ∨ q.2 = pos.2 ∨ SameBox pos q) := by
  have hb : (∃ i ∈ [0, 1, 2], ∃ j ∈ [0, 1, 2],
      ((utils.getLocalCenter pos).1 + j - 1, (utils.getLocalCenter pos).2 + i - 1) = q) ↔
      q ∈ boxCells (utils.getLocalCenter pos) := by
    rw [mem_boxCells (by rw [getLocalCenter_fst]; omega) (by rw [getLocalCenter_snd]; omega)]
    obtain ⟨qx, qy⟩ := q
    simp only [Prod.mk.injEq]
    constructor
    · rintro ⟨i, hi, j, hj, e1, e2⟩
      simp only [List.mem_cons, List.mem_singleton, List.mem_nil_iff, or_false] at hi hj
      omega
    · intro hh
      refine ⟨qy + 1 - (utils.getLocalCenter pos).2, ?_, qx + 1 - (utils.getLocalCenter pos).1, ?_, ?_, ?_⟩
      · simp only [List.mem_cons, List.mem_singleton, List.mem_nil_iff, or_false]; omega
      · simp only [List.mem_cons, List.mem_singleton, List.mem_nil_iff, or_false]; omega
      · omega
      · omega
  simp only [postCells, List.mem_append, List.mem_flatMap, List.mem_range, List.mem_map,
    List.mem_cons, List.mem_singleton, List.mem_nil_iff, or_false] at hb ⊢
  rw [hb, mem_boxCells_center]
  obtain ⟨qx, qy⟩ := q
  have p1 := hpos.1
  have p2 := hpos.2
  simp only [Prod.mk.injEq, InRange]
  constructor
  · rintro (⟨i, hi, (⟨e1, e2⟩ | ⟨e1, e2⟩)⟩ | hbox)
    · exact ⟨⟨by omega, by omega⟩, Or.inl e1⟩
    · exact ⟨⟨by omega, by omega⟩, Or.inr (Or.inl e2)⟩
    · exact ⟨hbox.inRange hpos, Or.inr (Or.inr hbox)⟩
  · rintro ⟨⟨h1, h2⟩, (e | e | e)⟩
    · exact Or.inl ⟨qy, h2, Or.inl ⟨e, rfl⟩⟩
    · exact Or.inl ⟨qx, h1, Or.inr ⟨rfl, e⟩⟩
    · exact Or.inr e

theorem postprocessInsertion_eq (P : PossibilitiesBoard_t) (pos : pos_t) (v : Int) :
    postprocessInsertion P (pos, v) =
      Board_t.set ((postCells pos).foldl (fun P c => eraseFrompossibilities_board P c v) P) pos [] := by
  simp only [postprocessInsertion, postCells, List.foldl_append, foldl_flatMap_eq, List.foldl_map,
    List.foldl_cons, List.foldl_nil]

theorem postprocessInsertion_9x9 {P : PossibilitiesBoard_t} (h : Is9x9 P) (f : field_t) :
    Is9x9 (postprocessInsertion P f) := by
  obtain ⟨pos, v⟩ := f
  rw [postprocessInsertion_eq]
  exact ((foldl_erase h _ v).1).set _ _

/-- Candidate update after a move: the cell of the move is cleared, the value is erased
at its peers, other cells keep their candidates. -/
theorem postprocessInsertion_get {P : PossibilitiesBoard_t} (h : Is9x9 P) {pos : pos_t} (hpos : InRange pos)
    (v : Int) {q : pos_t} (hq : InRange q) :
    Board_t.get (postprocessInsertion P (pos, v)) q =
      if q = pos then [] else if Peers pos q then setErase (Board_t.get P q) v else Board_t.get P q := by
  rw [postprocessInsertion_eq]
  obtain ⟨i1, i2⟩ := foldl_erase h (postCells pos) v
  rw [Board_t.get_set i1 hpos]
  by_cases hqp : q = pos
  · simp [hqp]
  · rw [if_neg hqp, if_neg hqp, i2 q]
    have : q ∈ postCells pos ↔ Peers pos q := by
      rw [mem_postCells hpos]
      unfold Peers
      constructor
      · rintro ⟨_, hh⟩
        refine ⟨fun e => hqp e.symm, ?_⟩
        rcases hh with e | e | e
        · exact Or.inl e.symm
        · exact Or.inr (Or.inl e.symm)
        · exact Or.inr (Or.inr e)
      · rintro ⟨_, hh⟩
        refine ⟨hq, ?_⟩
        rcases hh with e | e | e
        · exact Or.inl e.symm
        · exact Or.inr (Or.inl e.symm)
        · exact Or.inr (Or.inr e)
    by_cases hm : q ∈ postCells pos
    · rw [if_pos hm, if_pos (this.1 hm)]
    · rw [if_neg hm, if_neg (fun hh => hm (this.2 hh))]

end malcolm


/-!
## The initial candidate board
-/

namespace malcolm

open BoardSolver_t

theorem foldl_set_get {α : Type} [Inhabited α] {P : Board_t α} (h : Is9x9 P) (f : pos_t → α)
    (cs : List pos_t) (hcs : ∀ c ∈ cs, InRange c) :
    Is9x9 (cs.foldl (fun P c => Board_t.set P c (f c)) P) ∧
    ∀ q, Board_t.get (cs.foldl (fun P c => Board_t.set P c (f c)) P) q =
      if q ∈ cs then f q else Board_t.get P q := by
  induction cs generalizing P with
  | nil => exact ⟨h, fun q => by simp⟩
  | cons c t ih =>
    have hc : InRange c := hcs c (List.mem_cons_self _ _)
    obtain ⟨i1, i2⟩ := ih (h.set c (f c)) (fun x hx => hcs x (List.mem_cons_of_mem _ hx))
    refine ⟨i1, ?_⟩
    intro q
    rw [List.foldl_cons, i2 q, Board_t.get_set h hc]
    by_cases hqt : q ∈ t
    · simp [hqt]
    · by_cases hqc : q = c
      · subst hqc; simp
      · simp [hqt, hqc]

theorem retrievePossibilitiesBoard_eq {g : Board_t Int} (hg : Is9x9 g) (P : PossibilitiesBoard_t) :
    retrievePossibilitiesBoard g P =
      allCells.foldl (fun P c => Board_t.set P c (getPossibleValues g c)) P := by
  simp only [retrievePossibilitiesBoard, hg.getSize, allCells, foldl_flatMap_eq, List.foldl_map]

theorem constructPossibilities_spec {g : Board_t Int} (hg : Is9x9 g) :
    Is9x9 (constructPossibilities g) ∧
    ∀ p, InRange p → Board_t.get (constructPossibilities g) p = getPossibleValues g p := by
  unfold constructPossibilities
  simp only [hg.getSize]
  rw [retrievePossibilitiesBoard_eq hg]
  have h0 : Is9x9 ((List.range 9).map (fun i => (List.range 9).map (fun j =>
      if Board_t.get g (i, j) = 0 then target else []))) := by
    refine ⟨by simp, ?_⟩
    intro col hcol
    simp only [List.mem_map, List.mem_range] at hcol
    obtain ⟨x, _, rfl⟩ := hcol
    simp
  obtain ⟨i1, i2⟩ := foldl_set_get h0 (getPossibleValues g) allCells (fun c hc => (mem_allCells c).1 hc)
  refine ⟨i1, ?_⟩
  intro p hp
  rw [i2 p, if_pos ((mem_allCells p).2 hp)]

theorem mem_unitValues (g : Board_t Int) (p : pos_t) (d : Int) :
    d ∈ unitValues g p ↔
      ∃ q, InRange q ∧ (q.1 = p.1 ∨ q.2 = p.2 ∨ SameBox p q) ∧ Board_t.get g q = d := by
  simp only [unitValues, List.mem_map, List.mem_filter, mem_allCells, decide_eq_true_eq]
  constructor
  · rintro ⟨q, ⟨h1, h2⟩, h3⟩
    exact ⟨q, h1, h2, h3⟩
  · rintro ⟨q, h1, h2, h3⟩
    exact ⟨q, ⟨h1, h2⟩, h3⟩

theorem getPossibleValues_eq {g : Board_t Int} (hg : Is9x9 g) {p : pos_t} (hp : InRange p) :
    getPossibleValues g p =
      if Board_t.get g p ≠ 0 then [] else target.filter (fun d => decide (d ∉ unitValues g p)) := by
  unfold getPossibleValues
  split
  · rfl
  · apply List.filter_congr
    intro d _
    have key : d ∈ Board_t.getNeighborhood g p ++ Board_t.getColumn g p.1 ++ Board_t.getRow g p.2 ↔
        d ∈ unitValues g p := by
      rw [mem_unitValues, List.mem_append, List.mem_append, Board_t.mem_getNeighborhood hg hp,
        Board_t.getColumn_eq hg, Board_t.getRow_eq hg]
      simp only [List.mem_map, List.mem_range]
      constructor
      · rintro ((⟨q, h1, h2⟩ | ⟨y, h1, h2⟩) | ⟨x, h1, h2⟩)
        · exact ⟨q, h1.inRange hp, Or.inr (Or.inr h1), h2⟩
        · exact ⟨(p.1, y), ⟨hp.1, h1⟩, Or.inl rfl, h2⟩
        · exact ⟨(x, p.2), ⟨h1, hp.2⟩, Or.inr (Or.inl rfl), h2⟩
      · rintro ⟨⟨qx, qy⟩, h1, (h2 | h2 | h2), h3⟩
        · simp only at h2; subst h2
          exact Or.inl (Or.inr ⟨qy, h1.2, h3⟩)
        · simp only at h2; subst h2
          exact Or.inr ⟨qx, h1.1, h3⟩
        · exact Or.inl (Or.inl ⟨_, h2, h3⟩)
    have e : (Board_t.getNeighborhood g p ++ Board_t.getColumn g p.1 ++ Board_t.getRow g p.2).contains d
        = decide (d ∈ unitValues g p) := by
      rw [Bool.eq_iff_iff, decide_eq_true_eq, ← key]
      simp
    rw [e]
    simp

theorem mem_target (d : Int) : d ∈ target ↔ 1 ≤ d ∧ d ≤ 9 := by
  simp only [target, List.mem_cons, List.mem_singleton, List.mem_nil_iff, or_false]
  omega

/-- The board built by the constructor is consistent with the input board. -/
theorem constructPossibilities_consistent {g : Board_t Int} (hg : Is9x9 g) :
    Consistent g (constructPossibilities g) := by
  obtain ⟨i1, i2⟩ := constructPossibilities_spec hg
  refine ⟨hg, i1, ?_, ?_, ?_⟩
  · intro p hp hne
    rw [i2 p hp, getPossibleValues_eq hg hp] at hne
    by_contra h0
    exact hne (if_pos h0)
  · intro p hp v hv
    rw [i2 p hp, getPossibleValues_eq hg hp] at hv
    split at hv
    · simp at hv
    · exact (List.mem_filter.1 hv).1
  · intro p q hp hq hpq hmem
    rw [i2 p hp, getPossibleValues_eq hg hp] at hmem
    split at hmem
    · simp at hmem
    · have := (List.mem_filter.1 hmem).2
      simp only [decide_eq_true_eq] at this
      apply this
      rw [mem_unitValues]
      refine ⟨q, hq, ?_, rfl⟩
      rcases hpq.2 with e | e | e
      · exact Or.inl e.symm
      · exact Or.inr (Or.inl e.symm)
      · exact Or.inr (Or.inr e)

end malcolm


/-!
## The deterministic strategies
-/

namespace malcolm

open BoardSolver_t

theorem Board_t.find_of_exists {α : Type} [Inhabited α] (predicate : α → Bool) {b : Board_t α}
    (h : Is9x9 b) (hex : ∃ p, InRange p ∧ predicate (Board_t.get b p) = true) :
    InRange (Board_t.find predicate b) ∧ predicate (Board_t.get b (Board_t.find predicate b)) = true := by
  unfold Board_t.find
  rcases Board_t.findFrom_spec predicate b 0 with ⟨h1, _⟩ | ⟨k, j, hk, hj, hp, he⟩
  · exfalso
    obtain ⟨p, hp, hpred⟩ := hex
    have hlt : p.1 < b.length := by rw [h.1]; exact hp.1
    have hmem : b.getD p.1 [] ∈ b := by
      rw [List.getD_eq_getElem _ _ hlt]; exact List.getElem_mem _
    have hlen := h.getD_length hp.1
    have := h1 _ hmem
    rw [List.any_eq_false] at this
    have hy : p.2 < (b.getD p.1 []).length := by rw [hlen]; exact hp.2
    apply this ((b.getD p.1 []).getD p.2 default)
    · rw [List.getD_eq_getElem _ _ hy]; exact List.getElem_mem _
    · exact hpred
  · have hk9 : k < 9 := by rw [h.1] at hk; exact hk
    have hj9 : j < 9 := by rw [h.getD_length hk9] at hj; exact hj
    have e : Board_t.findFrom predicate b 0 = (k, j) := by
      rw [he]
      simp only [Nat.zero_add, Prod.mk.injEq]
      omega
    rw [e]
    exact ⟨⟨hk9, hj9⟩, hp⟩

theorem Board_t.count_pos_iff {α : Type} [Inhabited α] (predicate : α → Bool) {b : Board_t α}
    (h : Is9x9 b) :
    Board_t.count predicate b > 0 ↔ ∃ p, InRange p ∧ predicate (Board_t.get b p) = true := by
  rw [Board_t.count_9x9 predicate h, gt_iff_lt, List.countP_pos_iff]
  constructor
  · rintro ⟨p, hp, hpred⟩
    exact ⟨p, (mem_allCells p).1 hp, hpred⟩
  · rintro ⟨p, hp, hpred⟩
    exact ⟨p, (mem_allCells p).2 hp, hpred⟩

theorem onlyPossibility_spec {P : PossibilitiesBoard_t} (hP : Is9x9 P) (b : Board_t Int)
    (h : (TheOnlyPossibilityStrategy_t.retrieveNextMove P b).2 ≠ 0) :
    OnlyMove P (TheOnlyPossibilityStrategy_t.retrieveNextMove P b) := by
  unfold TheOnlyPossibilityStrategy_t.retrieveNextMove at h ⊢
  simp only at h ⊢
  split at h
  · next hc =>
    rw [if_pos hc]
    rw [Board_t.count_pos_iff _ hP] at hc
    obtain ⟨h1, h2⟩ := Board_t.find_of_exists (fun (val : List Int) => val.length == 1) hP hc
    refine ⟨h1, ?_⟩
    simp only [beq_iff_eq] at h2
    obtain ⟨a, ha⟩ := List.length_eq_one.1 h2
    simp only [ha, List.headD_cons]
  · exact absurd rfl h

theorem countP_eq_one_unique {α : Type} (p : α → Bool) {l : List α}
    (h1 : l.countP p = 1) {a b : α} (ha : a ∈ l) (hb : b ∈ l) (pa : p a = true) (pb : p b = true) :
    a = b := by
  rw [List.countP_eq_length_filter, List.length_eq_one] at h1
  obtain ⟨x, hx⟩ := h1
  have m1 : a ∈ l.filter p := List.mem_filter.2 ⟨ha, pa⟩
  have m2 : b ∈ l.filter p := List.mem_filter.2 ⟨hb, pb⟩
  rw [hx, List.mem_singleton] at m1 m2
  rw [m1, m2]

theorem Board_t.get_copyNeighborhood {α : Type} [Inhabited α] (b : Board_t α) (c : pos_t) {k j : Nat}
    (hk : k < 3) (hj : j < 3) :
    Board_t.get (Board_t.copyNeighborhood b c) (k, j) =
      Board_t.get b ((utils.getLocalCenter c).1 + k - 1, (utils.getLocalCenter c).2 + j - 1) := by
  interval_cases k <;> interval_cases j <;> rfl

/-- The search in the 3x3 copy of a box finds a cell of the box that satisfies the predicate. -/
theorem Board_t.find_copyNeighborhood {α : Type} [Inhabited α] (predicate : α → Bool) (b : Board_t α)
    (c : pos_t) :
    (Board_t.find predicate (Board_t.copyNeighborhood b c) = (255, 255) ∧
      ∀ q ∈ boxCells (utils.getLocalCenter c), predicate (Board_t.get b q) = false) ∨
    ∃ k j, k < 3 ∧ j < 3 ∧ Board_t.find predicate (Board_t.copyNeighborhood b c) = (k, j) ∧
      predicate (Board_t.get b ((utils.getLocalCenter c).1 + k - 1, (utils.getLocalCenter c).2 + j - 1)) = true := by
  unfold Board_t.find
  rcases Board_t.findFrom_spec predicate (Board_t.copyNeighborhood b c) 0 with ⟨h1, h2⟩ | ⟨k, j, hk, hj, hp, he⟩
  · left
    refine ⟨h2, ?_⟩
    intro q hq
    have hm : Board_t.get b q ∈ (Board_t.copyNeighborhood b c).flatten := by
      rw [Board_t.copyNeighborhood_flatten]
      exact List.mem_map_of_mem _ hq
    obtain ⟨col, hcol, hin⟩ := List.mem_flatten.1 hm
    have := h1 col hcol
    rw [List.any_eq_false] at this
    simpa using this _ hin
  · right
    have hk3 : k < 3 := hk
    have hj3 : j < 3 := by
      have hl : ∀ k, k < 3 → ((Board_t.copyNeighborhood b c).getD k []).length = 3 := by
        intro k hk; interval_cases k <;> rfl
      rw [hl k hk3] at hj; exact hj
    refine ⟨k, j, hk3, hj3, ?_, ?_⟩
    · rw [he]
      simp only [Nat.zero_add, Prod.mk.injEq]
      omega
    · rw [← Board_t.get_copyNeighborhood b c hk3 hj3]
      exact hp

theorem contains_eq_true_iff (l : List Int) (d : Int) : l.contains d = true ↔ d ∈ l := by
  simp

theorem fillSubboards_spec (P : PossibilitiesBoard_t) (b : Board_t Int)
    (h : (FillSubboardsStrategy_t.retrieveNextMove P b).2 ≠ 0) :
    BoxMove b P (FillSubboardsStrategy_t.retrieveNextMove P b) := by
  unfold FillSubboardsStrategy_t.retrieveNextMove at h ⊢
  simp only at h ⊢
  split at h
  · next field hfound =>
    obtain ⟨c, hc, hinner⟩ := List.exists_of_findSome?_eq_some hfound
    obtain ⟨goal, hgoal, hbody⟩ := List.exists_of_findSome?_eq_some hinner
    have hcc := getLocalCenter_of_mem_centers hc
    split at hbody
    · exact absurd hbody (by simp)
    · next hnc =>
      split at hbody
      · next hcount =>
        rw [Board_t.count_copyNeighborhood, hcc.1] at hcount
        simp only [Option.some.injEq] at hbody
        rcases Board_t.find_copyNeighborhood (fun (container : List Int) => container.contains goal) P c with
          ⟨_, hnone⟩ | ⟨k, j, hk, hj, hfind, hpred⟩
        · exfalso
          rw [hcc.1] at hnone
          have : (boxCells c).countP (fun p => (Board_t.get P p).contains goal) = 0 := by
            rw [List.countP_eq_zero]
            intro q hq
            simpa using hnone q hq
          omega
        · rw [hfind] at hbody
          rw [hcc.1] at hpred
          have c1 : 1 ≤ c.1 := by
            have := getLocalCenter_fst c; rw [hcc.1] at this; omega
          have c2 : 1 ≤ c.2 := by
            have := getLocalCenter_snd c; rw [hcc.1] at this; omega
          have r1 := hcc.2.1
          have r2 := hcc.2.2
          have e1 : (k + c.1 - 1) % 256 = c.1 + k - 1 := by omega
          have e2 : (j + c.2 - 1) % 256 = c.2 + j - 1 := by omega
          simp only [e1, e2] at hbody
          subst hbody
          have hin : (c.1 + k - 1, c.2 + j - 1) ∈ boxCells c := by
            rw [mem_boxCells c1 c2]
            simp only
            omega
          refine ⟨c, hc, hgoal, ?_, hin, ?_, ?_⟩
          · simpa using hnc
          · exact (contains_eq_true_iff _ _).1 hpred
          · intro q hq hmem
            exact countP_eq_one_unique (fun p => (Board_t.get P p).contains goal) hcount hq hin
              ((contains_eq_true_iff _ _).2 hmem) hpred
      · exact absurd hbody (by simp)
  · exact absurd rfl h

theorem mem_getFieldsToBeFilled {P : PossibilitiesBoard_t} (hP : Is9x9 P) (b : Board_t Int) (f : field_t)
    (h : f ∈ getFieldsToBeFilled P b) : OnlyMove P f ∨ BoxMove b P f := by
  unfold getFieldsToBeFilled m_strategies at h
  simp only [List.foldl_cons, List.foldl_nil] at h
  have m := mem_setInsert fieldLt fieldLt_total
  by_cases h1 : (TheOnlyPossibilityStrategy_t.retrieveNextMove P b).2 ≠ 0
  · by_cases h2 : (FillSubboardsStrategy_t.retrieveNextMove P b).2 ≠ 0
    · rw [if_pos h1, if_pos h2, m, m] at h
      rcases h with e | e | e
      · right; rw [e]; exact fillSubboards_spec P b h2
      · left; rw [e]; exact onlyPossibility_spec hP b h1
      · exact absurd e (List.not_mem_nil _)
    · rw [if_pos h1, if_neg h2, m] at h
      rcases h with e | e
      · left; rw [e]; exact onlyPossibility_spec hP b h1
      · exact absurd e (List.not_mem_nil _)
  · by_cases h2 : (FillSubboardsStrategy_t.retrieveNextMove P b).2 ≠ 0
    · rw [if_neg h1, if_pos h2, m] at h
      rcases h with e | e
      · right; rw [e]; exact fillSubboards_spec P b h2
      · exact absurd e (List.not_mem_nil _)
    · rw [if_neg h1, if_neg h2] at h
      exact absurd h (List.not_mem_nil _)

end malcolm


/-!
## Shrinking candidate boards: the cleaner, the measure, consistency
-/

namespace malcolm

open BoardSolver_t

theorem Shrinks.same {P : PossibilitiesBoard_t} (h : Is9x9 P) : Shrinks P P :=
  ⟨h, fun _ _ _ hv => hv⟩

theorem Shrinks.andThen {P1 P2 P3 : PossibilitiesBoard_t} (h1 : Shrinks P1 P2) (h2 : Shrinks P2 P3) :
    Shrinks P1 P3 :=
  ⟨h2.1, fun q hq v hv => h1.2 q hq v (h2.2 q hq v hv)⟩

theorem ErasesOnly.unchanged (goal : Int) {P : PossibilitiesBoard_t} (h : Is9x9 P) : ErasesOnly goal P P :=
  ⟨h, fun _ => Or.inl rfl⟩

theorem ErasesOnly.followedBy {goal : Int} {P1 P2 P3 : PossibilitiesBoard_t} (h1 : ErasesOnly goal P1 P2)
    (h2 : ErasesOnly goal P2 P3) : ErasesOnly goal P1 P3 := by
  refine ⟨h2.1, ?_⟩
  intro q
  rcases h2.2 q with e2 | e2 <;> rcases h1.2 q with e1 | e1
  · left; rw [e2, e1]
  · right; rw [e2, e1]
  · right; rw [e2, e1]
  · right; rw [e2, e1, setErase_idem]

theorem ErasesOnly.shrinks {goal : Int} {P1 P2 : PossibilitiesBoard_t} (h : ErasesOnly goal P1 P2) :
    Shrinks P1 P2 := by
  refine ⟨h.1, ?_⟩
  intro q _ v hv
  rcases h.2 q with e | e
  · rw [e] at hv; exact hv
  · rw [e] at hv; exact ((mem_setErase _ _ _).1 hv).1

theorem eraseFrom_erasesOnly {P : PossibilitiesBoard_t} (h : Is9x9 P) (c : pos_t) (goal : Int) :
    ErasesOnly goal P (eraseFrompossibilities_board P c goal) := by
  refine ⟨eraseFrom_9x9 h c goal, ?_⟩
  intro q
  rw [eraseFrom_get h]
  split
  · right; rfl
  · left; rfl

theorem foldl_erasesOnly {α : Type} (goal : Int) (step : PossibilitiesBoard_t → α → PossibilitiesBoard_t)
    (hstep : ∀ P a, Is9x9 P → ErasesOnly goal P (step P a)) (l : List α) {P : PossibilitiesBoard_t}
    (h : Is9x9 P) : ErasesOnly goal P (l.foldl step P) := by
  induction l generalizing P with
  | nil => exact ErasesOnly.unchanged goal h
  | cons a t ih =>
    have h1 := hstep P a h
    exact h1.followedBy (ih h1.1)

theorem eraseInAllowedColumn_erasesOnly {P : PossibilitiesBoard_t} (h : Is9x9 P) (goal : Int) (x : pos_t)
    (allowed_column : Int) :
    ErasesOnly goal P (SmartCleaner_t.eraseInAllowedColumn P goal x allowed_column) := by
  unfold SmartCleaner_t.eraseInAllowedColumn
  apply foldl_erasesOnly goal _ _ _ h
  intro P a hP
  simp only
  split
  · exact ErasesOnly.unchanged goal hP
  · split
    · exact eraseFrom_erasesOnly hP _ goal
    · exact ErasesOnly.unchanged goal hP

theorem smartcleanCenter_erasesOnly (board : Board_t Int) (goal : Int) {P : PossibilitiesBoard_t}
    (h : Is9x9 P) (x : pos_t) : ErasesOnly goal P (SmartCleaner_t.smartcleanCenter board goal P x) := by
  unfold SmartCleaner_t.smartcleanCenter
  simp only
  split
  · exact ErasesOnly.unchanged goal h
  · split
    · exact eraseInAllowedColumn_erasesOnly h goal x _
    · exact ErasesOnly.unchanged goal h

theorem smartclean_erasesOnly (board : Board_t Int) {P : PossibilitiesBoard_t} (h : Is9x9 P) (goal : Int) :
    ErasesOnly goal P (SmartCleaner_t.smartclean board P goal) := by
  unfold SmartCleaner_t.smartclean
  simp only
  split
  · exact ErasesOnly.unchanged goal h
  · exact foldl_erasesOnly goal _ (fun P a hP => smartcleanCenter_erasesOnly board goal hP a) _ h

theorem foldl_shrinks {α : Type} (step : PossibilitiesBoard_t → α → PossibilitiesBoard_t)
    (hstep : ∀ P a, Is9x9 P → Shrinks P (step P a)) (l : List α) {P : PossibilitiesBoard_t}
    (h : Is9x9 P) : Shrinks P (l.foldl step P) := by
  induction l generalizing P with
  | nil => exact Shrinks.same h
  | cons a t ih =>
    have h1 := hstep P a h
    exact h1.andThen (ih h1.1)

theorem smartcleanPossibilitiesBoard_shrinks (board : Board_t Int) {P P2 : PossibilitiesBoard_t}
    (h : Is9x9 P) (hok : smartcleanPossibilitiesBoard board P = Except.ok P2) : Shrinks P P2 := by
  unfold smartcleanPossibilitiesBoard at hok
  split at hok
  · exact absurd hok (by simp)
  · simp only [Except.ok.injEq] at hok
    rw [← hok]
    exact foldl_shrinks _ (fun P a hP => (smartclean_erasesOnly board hP a).shrinks) _ h

theorem postprocessInsertion_shrinks {P : PossibilitiesBoard_t} (h : Is9x9 P) {f : field_t}
    (hf : InRange f.1) : Shrinks P (postprocessInsertion P f) := by
  obtain ⟨pos, v⟩ := f
  refine ⟨postprocessInsertion_9x9 h _, ?_⟩
  intro q hq x hx
  rw [postprocessInsertion_get h hf v hq] at hx
  split at hx
  · simp at hx
  · split at hx
    · exact ((mem_setErase _ _ _).1 hx).1
    · exact hx

theorem Consistent.of_shrinks {b : Board_t Int} {P P2 : PossibilitiesBoard_t} (h : Consistent b P)
    (hs : Shrinks P P2) : Consistent b P2 := by
  refine ⟨h.board9, hs.1, ?_, ?_, ?_⟩
  · intro p hp hne
    apply h.atEmpty p hp
    obtain ⟨v, hv⟩ := List.exists_mem_of_ne_nil _ hne
    exact List.ne_nil_of_mem (hs.2 p hp v hv)
  · intro p hp v hv
    exact h.digits p hp v (hs.2 p hp v hv)
  · intro p q hp hq hpq hmem
    exact h.fresh p q hp hq hpq (hs.2 p hp _ hmem)

theorem Peers.symm {p q : pos_t} (h : Peers p q) : Peers q p := by
  unfold Peers SameBox at *
  refine ⟨fun e => h.1 e.symm, ?_⟩
  rcases h.2 with e | e | e
  · exact Or.inl e.symm
  · exact Or.inr (Or.inl e.symm)
  · exact Or.inr (Or.inr ⟨e.1.symm, e.2.symm⟩)

/-- A proposed move lies in range and its value is a candidate of its cell. -/
theorem move_mem {b : Board_t Int} {P : PossibilitiesBoard_t} {f : field_t}
    (h : OnlyMove P f ∨ BoxMove b P f) : InRange f.1 ∧ f.2 ∈ Board_t.get P f.1 := by
  rcases h with ⟨h1, h2⟩ | ⟨c, hc, _, _, hin, hmem, _⟩
  · exact ⟨h1, by rw [h2]; exact List.mem_singleton_self _⟩
  · have hcc := getLocalCenter_of_mem_centers hc
    rw [← hcc.1] at hin
    exact ⟨(mem_boxCells_center.1 hin).inRange hcc.2, hmem⟩

theorem Consistent.afterCommit {b : Board_t Int} {P : PossibilitiesBoard_t} (h : Consistent b P) {f : field_t}
    (hf : InRange f.1) (hmem : f.2 ∈ Board_t.get P f.1) :
    Consistent (Board_t.set b f.1 f.2) (postprocessInsertion P f) := by
  obtain ⟨pos, v⟩ := f
  simp only at hf hmem
  have hs := postprocessInsertion_shrinks h.poss9 (f := (pos, v)) hf
  refine ⟨h.board9.set _ _, hs.1, ?_, ?_, ?_⟩
  · intro p hp hne
    have hpp : p ≠ pos := by
      intro e
      rw [postprocessInsertion_get h.poss9 hf v hp, if_pos e] at hne
      exact hne rfl
    rw [Board_t.get_set_ne _ _ hpp]
    apply h.atEmpty p hp
    obtain ⟨x, hx⟩ := List.exists_mem_of_ne_nil _ hne
    exact List.ne_nil_of_mem (hs.2 p hp x hx)
  · intro p hp x hx
    exact h.digits p hp x (hs.2 p hp x hx)
  · intro p q hp hq hpq hm
    rw [postprocessInsertion_get h.poss9 hf v hp] at hm
    split at hm
    · simp at hm
    · next hpp =>
      by_cases hqp : q = pos
      · subst hqp
        rw [Board_t.get_set_self h.board9 hf, if_pos hpq.symm] at hm
        exact ((mem_setErase _ _ _).1 hm).2 rfl
      · rw [Board_t.get_set_ne _ _ hqp] at hm
        apply h.fresh p q hp hq hpq
        split at hm
        · exact ((mem_setErase _ _ _).1 hm).1
        · exact hm

theorem countP_lt_of_imp {α : Type} (p q : α → Bool) (l : List α) (himp : ∀ x ∈ l, q x = true → p x = true)
    (hex : ∃ x ∈ l, p x = true ∧ q x = false) : l.countP q < l.countP p := by
  induction l with
  | nil => obtain ⟨x, hx, _⟩ := hex; simp at hx
  | cons a t ih =>
    obtain ⟨x, hx, px, qx⟩ := hex
    have hle : t.countP q ≤ t.countP p :=
      List.countP_mono_left (fun y hy hq => himp y (List.mem_cons_of_mem _ hy) hq)
    rcases List.mem_cons.1 hx with e | e
    · subst e
      rw [List.countP_cons_of_pos _ _ px, List.countP_cons_of_neg _ _ (by simp [qx])]
      omega
    · have := ih (fun y hy hq => himp y (List.mem_cons_of_mem _ hy) hq) ⟨x, e, px, qx⟩
      have ha := himp a (List.mem_cons_self _ _)
      rw [List.countP_cons, List.countP_cons]
      by_cases hqa : q a = true
      · simp [hqa, ha hqa]; omega
      · simp [hqa]; split <;> omega

theorem openCells_eq {P : PossibilitiesBoard_t} (h : Is9x9 P) :
    openCells P = allCells.countP (fun p => !(Board_t.get P p).isEmpty) := by
  unfold openCells
  rw [← List.countP_flatten, Board_t.flatten_eq h, List.countP_map]
  rfl

theorem openCells_le_of_shrinks {P P2 : PossibilitiesBoard_t} (h : Is9x9 P) (hs : Shrinks P P2) :
    openCells P2 ≤ openCells P := by
  rw [openCells_eq h, openCells_eq hs.1]
  apply List.countP_mono_left
  intro p hp hne
  have hp2 := (mem_allCells p).1 hp
  simp only [Bool.not_eq_true', List.isEmpty_eq_false] at hne ⊢
  obtain ⟨v, hv⟩ := List.exists_mem_of_ne_nil _ hne
  exact List.ne_nil_of_mem (hs.2 p hp2 v hv)

theorem openCells_lt_of_shrinks {P P2 : PossibilitiesBoard_t} (h : Is9x9 P) (hs : Shrinks P P2)
    {p : pos_t} (hp : InRange p) (h1 : Board_t.get P p ≠ []) (h2 : Board_t.get P2 p = []) :
    openCells P2 < openCells P := by
  rw [openCells_eq h, openCells_eq hs.1]
  apply countP_lt_of_imp
  · intro q hq hne
    have hq2 := (mem_allCells q).1 hq
    simp only [Bool.not_eq_true', List.isEmpty_eq_false] at hne ⊢
    obtain ⟨v, hv⟩ := List.exists_mem_of_ne_nil _ hne
    exact List.ne_nil_of_mem (hs.2 q hq2 v hv)
  · refine ⟨p, (mem_allCells p).2 hp, ?_, ?_⟩
    · simpa using h1
    · simp [h2]

theorem openCells_commit_lt {P : PossibilitiesBoard_t} (h : Is9x9 P) {f : field_t} (hf : InRange f.1)
    (hmem : f.2 ∈ Board_t.get P f.1) : openCells (postprocessInsertion P f) < openCells P := by
  apply openCells_lt_of_shrinks h (postprocessInsertion_shrinks h hf) hf (List.ne_nil_of_mem hmem)
  obtain ⟨pos, v⟩ := f
  rw [postprocessInsertion_get h hf v hf, if_pos rfl]

end malcolm


/-!
## The loops of `solve`

Each loop is run with an iteration bound. The theorems of this section show that a
bound above the number of open cells is never used up, and that an invariant of the
session state survives the loops.
-/

namespace malcolm

open BoardSolver_t

theorem commit_possibilities (s : Session) (f : field_t) :
    (commit s f).m_current_possibilities = postprocessInsertion s.m_current_possibilities f := by
  simp only [commit]

theorem commit_copy (s : Session) (f : field_t) :
    (commit s f).copy = Board_t.set s.copy f.1 f.2 := by
  simp only [commit]

theorem commit_written (s : Session) (f : field_t) :
    (commit s f).written = (s.copy, f) :: s.written := by
  simp only [commit]

theorem commit_decreases {Inv : Session → Prop} (LI : LoopInvariant Inv) {s : Session} (hs : Inv s)
    {f : field_t} (hf : f ∈ getFieldsToBeFilled s.m_current_possibilities s.copy) :
    openCells (BoardSolver_t.commit s f).m_current_possibilities < openCells s.m_current_possibilities := by
  have hc := LI.consistent s hs
  have hm := move_mem (mem_getFieldsToBeFilled hc.poss9 s.copy f hf)
  rw [commit_possibilities]
  exact openCells_commit_lt hc.poss9 hm.1 hm.2

theorem innerLoop_spec {Inv : Session → Prop} (LI : LoopInvariant Inv) (n : Nat) :
    ∀ (s : Session) (queue : List field_t), Inv s →
      queue = getFieldsToBeFilled s.m_current_possibilities s.copy →
      openCells s.m_current_possibilities < n →
      ∃ s2, innerLoop n s queue = Outcome.returned s2 ∧ Inv s2 ∧
        getFieldsToBeFilled s2.m_current_possibilities s2.copy = [] ∧
        openCells s2.m_current_possibilities ≤ openCells s.m_current_possibilities ∧
        (queue ≠ [] → openCells s2.m_current_possibilities < openCells s.m_current_possibilities) := by
  induction n with
  | zero => intro s queue _ _ h; omega
  | succ n ih =>
    intro s queue hs hq hlt
    cases queue with
    | nil =>
      refine ⟨s, ?_, hs, hq.symm, le_refl _, fun h => absurd rfl h⟩
      simp [innerLoop]
    | cons f rest =>
      have hf : f ∈ getFieldsToBeFilled s.m_current_possibilities s.copy := by
        rw [← hq]; exact List.mem_cons_self _ _
      have hdec := commit_decreases LI hs hf
      obtain ⟨s2, e, i2, g2, m2, _⟩ := ih (commit s f) _ (LI.commit s f hs hf) rfl (by omega)
      refine ⟨s2, ?_, i2, g2, by omega, fun _ => by omega⟩
      simp only [innerLoop]
      exact e

theorem middleLoop_spec {Inv : Session → Prop} (LI : LoopInvariant Inv) (allow : Bool) (bound : Nat)
    (n : Nat) :
    ∀ (s : Session) (queue : List field_t), Inv s →
      queue = getFieldsToBeFilled s.m_current_possibilities s.copy →
      openCells s.m_current_possibilities < bound →
      openCells s.m_current_possibilities < n →
      (∀ t, middleLoop allow bound n s queue ≠ Outcome.exhausted t) ∧
      Inv (middleLoop allow bound n s queue).state ∧
      openCells (middleLoop allow bound n s queue).state.m_current_possibilities ≤
        openCells s.m_current_possibilities ∧
      ∀ s2, middleLoop allow bound n s queue = Outcome.returned s2 →
        getFieldsToBeFilled s2.m_current_possibilities s2.copy = [] ∧
        (queue ≠ [] → openCells s2.m_current_possibilities < openCells s.m_current_possibilities) := by
  induction n with
  | zero => intro s queue _ _ _ h; omega
  | succ n ih =>
    intro s queue hs hq hb hlt
    cases queue with
    | nil =>
      simp only [middleLoop]
      refine ⟨fun t => by simp, hs, le_refl _, ?_⟩
      intro s2 e
      simp only [Outcome.returned.injEq] at e
      subst e
      exact ⟨hq.symm, fun h => absurd rfl h⟩
    | cons f rest =>
      obtain ⟨s1, e1, i1, g1, m1, d1⟩ := innerLoop_spec LI bound s (f :: rest) hs hq hb
      have d1 := d1 (by simp)
      simp only [middleLoop, e1]
      cases allow with
      | false =>
        simp only [Bool.false_eq_true, ite_false]
        obtain ⟨a1, a2, a3, a4⟩ :=
          ih { s1 with m_current_possibilities := s1.m_current_possibilities } _ i1 rfl
            (by simp only; omega) (by simp only; omega)
        simp only at a3
        refine ⟨a1, a2, by omega, ?_⟩
        intro s2 e
        obtain ⟨b1, _⟩ := a4 s2 e
        refine ⟨b1, fun _ => ?_⟩
        have : openCells (Outcome.returned s2).state.m_current_possibilities ≤
            openCells s1.m_current_possibilities := by rw [← e]; exact a3
        simp only [Outcome.state] at this
        omega
      | true =>
        simp only [ite_true]
        cases hc : smartcleanPossibilitiesBoard s1.copy s1.m_current_possibilities with
        | error P =>
          simp only
          refine ⟨fun t => by simp, i1, by simp only [Outcome.state]; omega, ?_⟩
          intro s2 e
          simp at e
        | ok P =>
          simp only
          have hsh := smartcleanPossibilitiesBoard_shrinks s1.copy (LI.consistent s1 i1).poss9 hc
          have hle := openCells_le_of_shrinks (LI.consistent s1 i1).poss9 hsh
          obtain ⟨a1, a2, a3, a4⟩ := ih { s1 with m_current_possibilities := P } _ (LI.clean s1 P i1 hc) rfl
            (by simp only; omega) (by simp only; omega)
          simp only at a3
          refine ⟨a1, a2, by omega, ?_⟩
          intro s2 e
          obtain ⟨b1, _⟩ := a4 s2 e
          refine ⟨b1, fun _ => ?_⟩
          have : openCells (Outcome.returned s2).state.m_current_possibilities ≤
              openCells P := by rw [← e]; exact a3
          simp only [Outcome.state] at this
          omega

theorem smartcleanPossibilitiesBoard_ok_zero {board : Board_t Int} {P P2 : PossibilitiesBoard_t}
    (hok : smartcleanPossibilitiesBoard board P = Except.ok P2) :
    Board_t.count (fun v => v == 0) board ≠ 0 := by
  unfold smartcleanPossibilitiesBoard at hok
  split at hok
  · exact absurd hok (by simp)
  · assumption

theorem outerLoop_spec {Inv : Session → Prop} (LI : LoopInvariant Inv) {runner : Session → Outcome}
    (RO : RunnerOk Inv runner) (allow : Bool) (bound : Nat) (n : Nat) :
    ∀ (s : Session) (queue : List field_t), Inv s →
      queue = getFieldsToBeFilled s.m_current_possibilities s.copy →
      openCells s.m_current_possibilities < bound →
      openCells s.m_current_possibilities < n →
      (∀ t, outerLoop runner allow bound n s queue ≠ Outcome.exhausted t) ∧
      Inv (outerLoop runner allow bound n s queue).state ∧
      ∀ s2, outerLoop runner allow bound n s queue = Outcome.returned s2 →
        getFieldsToBeFilled s2.m_current_possibilities s2.copy = [] ∧
        ((queue = [] ∧ s2 = s) ∨ Board_t.count (fun v => v == 0) s2.copy ≠ 0) := by
  induction n with
  | zero => intro s queue _ _ _ h; omega
  | succ n ih =>
    intro s queue hs hq hb hlt
    cases queue with
    | nil =>
      simp only [outerLoop]
      refine ⟨fun t => by simp, hs, ?_⟩
      intro s2 e
      simp only [Outcome.returned.injEq] at e
      subst e
      exact ⟨hq.symm, Or.inl ⟨trivial, rfl⟩⟩
    | cons f rest =>
      obtain ⟨a1, a2, a3, a4⟩ := middleLoop_spec LI allow bound bound s (f :: rest) hs hq hb hb
      simp only [outerLoop]
      cases hm : middleLoop allow bound bound s (f :: rest) with
      | exhausted t => exact absurd hm (a1 t)
      | raised t =>
        simp only
        rw [hm] at a2
        exact ⟨fun t => by simp, a2, fun s2 e => by simp at e⟩
      | returned s1 =>
        simp only
        rw [hm] at a2 a3
        simp only [Outcome.state] at a2 a3
        have d1 := (a4 s1 hm).2 (by simp)
        -- the bruteforce pass
        have key : ∀ s2, Inv s2 → openCells s2.m_current_possibilities < openCells s.m_current_possibilities →
            (∀ t, (match smartcleanPossibilitiesBoard s2.copy s2.m_current_possibilities with
              | Except.error _ => Outcome.raised s2
              | Except.ok P => outerLoop runner allow bound n { s2 with m_current_possibilities := P }
                  (getFieldsToBeFilled P s2.copy)) ≠ Outcome.exhausted t) ∧
            Inv (match smartcleanPossibilitiesBoard s2.copy s2.m_current_possibilities with
              | Except.error _ => Outcome.raised s2
              | Except.ok P => outerLoop runner allow bound n { s2 with m_current_possibilities := P }
                  (getFieldsToBeFilled P s2.copy)).state ∧
            ∀ s3, (match smartcleanPossibilitiesBoard s2.copy s2.m_current_possibilities with
              | Except.error _ => Outcome.raised s2
              | Except.ok P => outerLoop runner allow bound n { s2 with m_current_possibilities := P }
                  (getFieldsToBeFilled P s2.copy)) = Outcome.returned s3 →
              getFieldsToBeFilled s3.m_current_possibilities s3.copy = [] ∧
              ((f :: rest = [] ∧ s3 = s) ∨ Board_t.count (fun v => v == 0) s3.copy ≠ 0) := by
          intro s2 i2 m2
          cases hc : smartcleanPossibilitiesBoard s2.copy s2.m_current_possibilities with
          | error P =>
            simp only
            exact ⟨fun t => by simp, i2, fun s3 e => by simp at e⟩
          | ok P =>
            simp only
            have hsh := smartcleanPossibilitiesBoard_shrinks s2.copy (LI.consistent s2 i2).poss9 hc
            have hle := openCells_le_of_shrinks (LI.consistent s2 i2).poss9 hsh
            have hz := smartcleanPossibilitiesBoard_ok_zero hc
            obtain ⟨b1, b2, b3⟩ := ih { s2 with m_current_possibilities := P } _ (LI.clean s2 P i2 hc) rfl
              (by simp only; omega) (by simp only; omega)
            refine ⟨b1, b2, ?_⟩
            intro s3 e
            obtain ⟨c1, c2⟩ := b3 s3 e
            refine ⟨c1, Or.inr ?_⟩
            rcases c2 with ⟨_, c2⟩ | c2
            · rw [c2]; exact hz
            · exact c2
        cases allow with
        | false =>
          simp only [Bool.false_eq_true, ite_false]
          exact key s1 a2 d1
        | true =>
          simp only [ite_true]
          have r1 := RO.notExhausted s1 a2
          have r2 := RO.inv s1 a2
          have r4 := RO.measure_le s1 a2
          cases hr : runner s1 with
          | exhausted t => exact absurd hr (r1 t)
          | raised t =>
            simp only
            rw [hr] at r2
            exact ⟨fun t => by simp, r2, fun s2 e => by simp at e⟩
          | returned s2 =>
            simp only
            rw [hr] at r2 r4
            simp only [Outcome.state] at r2 r4
            exact key s2 r2 (by omega)

theorem solveWith_spec {Inv : Session → Prop} (LI : LoopInvariant Inv) {runner : Session → Outcome}
    (RO : RunnerOk Inv runner) (allow : Bool) (bound : Nat) (s : Session) (hs : Inv s)
    (hb : openCells s.m_current_possibilities < bound) :
    (∀ t, solveWith runner allow bound s ≠ Outcome.exhausted t) ∧
    Inv (solveWith runner allow bound s).state ∧
    ∀ s2, solveWith runner allow bound s = Outcome.returned s2 →
      getFieldsToBeFilled s2.m_current_possibilities s2.copy = [] ∧
      ((allow = false ∧ s2 = s) ∨ Board_t.count (fun v => v == 0) s2.copy ≠ 0) := by
  unfold solveWith
  cases allow with
  | false =>
    simp only [Bool.false_eq_true, ite_false]
    obtain ⟨a1, a2, a3⟩ := outerLoop_spec LI RO false bound bound s _ hs rfl hb hb
    refine ⟨a1, a2, ?_⟩
    intro s2 e
    obtain ⟨b1, b2⟩ := a3 s2 e
    refine ⟨b1, ?_⟩
    rcases b2 with ⟨_, b2⟩ | b2
    · exact Or.inl ⟨trivial, b2⟩
    · exact Or.inr b2
  | true =>
    simp only [ite_true]
    cases hc : smartcleanPossibilitiesBoard s.copy s.m_current_possibilities with
    | error P =>
      simp only
      exact ⟨fun t => by simp, hs, fun s2 e => by simp at e⟩
    | ok P =>
      simp only
      have hsh := smartcleanPossibilitiesBoard_shrinks s.copy (LI.consistent s hs).poss9 hc
      have hle := openCells_le_of_shrinks (LI.consistent s hs).poss9 hsh
      have hz := smartcleanPossibilitiesBoard_ok_zero hc
      have i1 := LI.clean s P hs hc
      have r1 := RO.notExhausted _ i1
      have r2 := RO.inv _ i1
      have r3 := RO.copy_eq _ i1
      have r4 := RO.measure_le _ i1
      cases hr : runner { s with m_current_possibilities := P } with
      | exhausted t => exact absurd hr (r1 t)
      | raised t =>
        simp only
        rw [hr] at r2
        exact ⟨fun t => by simp, r2, fun s2 e => by simp at e⟩
      | returned s2 =>
        simp only
        rw [hr] at r2 r3 r4
        simp only [Outcome.state] at r2 r3 r4
        obtain ⟨a1, a2, a3⟩ := outerLoop_spec LI RO true bound bound s2 _ r2 rfl (by omega) (by omega)
        refine ⟨a1, a2, ?_⟩
        intro s3 e
        obtain ⟨b1, b2⟩ := a3 s3 e
        refine ⟨b1, Or.inr ?_⟩
        rcases b2 with ⟨_, b2⟩ | b2
        · rw [b2, r3]; exact hz
        · exact b2

end malcolm


/-!
## The bruteforce pass
-/

namespace malcolm

open BoardSolver_t

theorem foldl_preserves {α β : Type} (I : β → Prop) (step : β → α → β) (l : List α)
    (hstep : ∀ acc a, a ∈ l → I acc → I (step acc a)) {init : β} (h : I init) : I (l.foldl step init) := by
  induction l generalizing init with
  | nil => exact h
  | cons a t ih =>
    rw [List.foldl_cons]
    exact ih (fun acc x hx hacc => hstep acc x (List.mem_cons_of_mem _ hx) hacc)
      (hstep init a (List.mem_cons_self _ _) h)

theorem exists_other_of_countP {α : Type} (p : α → Bool) {l : List α} (hnd : l.Nodup)
    (hc : 1 < l.countP p) (a : α) : ∃ b ∈ l, b ≠ a ∧ p b = true := by
  by_contra hno
  have hall : ∀ x ∈ l.filter p, x = a := by
    intro x hx
    by_contra hxa
    exact hno ⟨x, (List.mem_filter.1 hx).1, hxa, (List.mem_filter.1 hx).2⟩
  have hnd2 : (l.filter p).Nodup := hnd.filter _
  rw [List.countP_eq_length_filter] at hc
  match hf : l.filter p, hc, hall, hnd2 with
  | [], hc, _, _ => simp at hc
  | [_], hc, _, _ => simp at hc
  | x :: y :: _, _, hall, hnd2 =>
    have e1 := hall x (by simp)
    have e2 := hall y (by simp)
    rw [e1, e2] at hnd2
    simp at hnd2

theorem mem_findAll {P : PossibilitiesBoard_t} (hP : Is9x9 P) (predicate : List Int → Bool) (p : pos_t)
    (h : p ∈ Board_t.findAll predicate P) : InRange p ∧ predicate (Board_t.get P p) = true := by
  unfold Board_t.findAll at h
  rw [mem_foldl_setInsert posLt posLt_total] at h
  rcases h with h | h
  · unfold Board_t.findAllScan at h
    simp only [List.mem_flatMap, List.mem_range, List.mem_map, List.mem_filter] at h
    obtain ⟨i, hi, j, ⟨hj, hpred⟩, rfl⟩ := h
    have hi9 : i < 9 := by rw [hP.1] at hi; exact hi
    have hj9 : j < 9 := by rw [hP.getD_length hi9] at hj; exact hj
    have e1 : i % 256 = i := by omega
    have e2 : j % 256 = j := by omega
    rw [e1, e2]
    exact ⟨⟨hi9, hj9⟩, hpred⟩
  · exact absurd h (List.not_mem_nil _)

/-- Every hypothesis generated by the bruteforce strategy is a digit listed in the
candidates of its cell and of one more cell. -/
theorem mem_retrieveNextMoves {P : PossibilitiesBoard_t} (hP : Is9x9 P) (b : Board_t Int) :
    ∀ f ∈ BruteforceStrategy_t.retrieveNextMoves P b, TwoWay P f := by
  unfold BruteforceStrategy_t.retrieveNextMoves
  apply foldl_preserves (fun result : List field_t => ∀ f ∈ result, TwoWay P f)
  · intro acc pos hpos hacc
    apply foldl_preserves (fun result : List field_t => ∀ f ∈ result, TwoWay P f) _ _ _ hacc
    intro acc val hval hacc
    simp only
    split
    · exact hacc
    · split
      · next hcount =>
        apply foldl_preserves (fun result : List field_t => ∀ f ∈ result, TwoWay P f) _ _ _ hacc
        intro acc possibility hposs hacc
        split
        · next hcenter =>
          intro f hf
          rw [mem_setInsert fieldLt fieldLt_total] at hf
          rcases hf with e | e
          · subst e
            have hm := mem_findAll hP _ _ hposs
            have hcc := getLocalCenter_of_mem_centers hpos
            have c1 : 1 ≤ pos.1 := by
              have := getLocalCenter_fst pos; rw [hcc.1] at this; omega
            have c2 : 1 ≤ pos.2 := by
              have := getLocalCenter_snd pos; rw [hcc.1] at this; omega
            rw [Board_t.count_copyNeighborhood, hcc.1] at hcount
            obtain ⟨q, hq, hne, hpq⟩ := exists_other_of_countP
              (fun p => (Board_t.get P p).contains val) (boxCells_nodup c1 c2) (by omega) possibility
            refine ⟨hm.1, hval, (contains_eq_true_iff _ _).1 hm.2, q, hne, ?_,
              (contains_eq_true_iff _ _).1 hpq⟩
            rw [← hcc.1] at hq
            exact (mem_boxCells_center.1 hq).inRange hcc.2
          · exact hacc f e
        · exact hacc
      · exact hacc
  · intro f hf
    exact absurd hf (List.not_mem_nil _)

/-- Consistency alone is an invariant of the loops. -/
theorem consistent_loopInvariant :
    LoopInvariant (fun s => Consistent s.copy s.m_current_possibilities) := by
  refine ⟨fun s h => h, ?_, ?_⟩
  · intro s f hs hf
    have hm := move_mem (mem_getFieldsToBeFilled hs.poss9 s.copy f hf)
    rw [commit_possibilities, commit_copy]
    exact hs.afterCommit hm.1 hm.2
  · intro s P hs hc
    exact hs.of_shrinks (smartcleanPossibilitiesBoard_shrinks s.copy hs.poss9 hc)

theorem returned_runnerOk (Inv : Session → Prop) : RunnerOk Inv Outcome.returned :=
  ⟨fun _ _ _ => by simp, fun _ h => h, fun _ _ => rfl, fun _ _ => le_refl _⟩

/-- A nested session on a scenario with an empty cell never returns a full board and
never uses up its iteration bound. -/
theorem solveNested_scenario {b : Board_t Int} (hb : Is9x9 b) {sc : Board_t Int × field_t}
    (hsc : ScenarioOk b sc) (P : PossibilitiesBoard_t)
    (hP : P = postprocessInsertion (constructPossibilities sc.1) sc.2) :
    (∀ t, solveNested (fuelFor P) { copy := sc.1, m_current_possibilities := P, written := [] }
      ≠ Outcome.exhausted t) ∧
    ∀ r, solveNested (fuelFor P) { copy := sc.1, m_current_possibilities := P, written := [] }
      = Outcome.returned r → Board_t.count (fun v => v == 0) r.copy ≠ 0 := by
  obtain ⟨h1, h2, h3, q, hq1, hq2, hq3⟩ := hsc
  have s9 : Is9x9 sc.1 := by rw [h1]; exact hb.set _ _
  have hc0 := constructPossibilities_consistent s9
  have hc : Consistent sc.1 P := by
    rw [hP]; exact hc0.of_shrinks (postprocessInsertion_shrinks hc0.poss9 h2)
  have hz : Board_t.count (fun v => v == 0) sc.1 ≠ 0 := by
    intro h0
    rw [Board_t.count_eq_zero_iff _ s9] at h0
    have := h0 q hq2
    rw [h1, Board_t.get_set_ne _ _ hq1, hq3] at this
    simp at this
  generalize hs0 : ({ copy := sc.1, m_current_possibilities := P, written := [] } : Session) = s0
  have e1 : s0.copy = sc.1 := by rw [← hs0]
  have e2 : s0.m_current_possibilities = P := by rw [← hs0]
  have hc2 : Consistent s0.copy s0.m_current_possibilities := by rw [e1, e2]; exact hc
  have hlt : openCells s0.m_current_possibilities < fuelFor P := by
    rw [e2]; unfold fuelFor; omega
  obtain ⟨a1, _, a3⟩ := solveWith_spec consistent_loopInvariant
    (returned_runnerOk _) false (fuelFor P) s0 hc2 hlt
  refine ⟨a1, ?_⟩
  intro r hr
  rcases (a3 r hr).2 with ⟨_, e⟩ | e
  · rw [e, e1]; exact hz
  · exact e

/-- On a consistent state the loop over the scenarios only erases candidates. -/
theorem runScenarios_spec (scenarios : List (Board_t Int × field_t)) :
    ∀ s : Session, Consistent s.copy s.m_current_possibilities →
      (∀ sc ∈ scenarios, ScenarioOk s.copy sc) →
      (∀ t, runScenarios scenarios s ≠ Outcome.exhausted t) ∧
      ∃ P, Shrinks s.m_current_possibilities P ∧
        (runScenarios scenarios s).state = { s with m_current_possibilities := P } := by
  induction scenarios with
  | nil =>
    intro s hs _
    exact ⟨fun t => by simp [runScenarios], s.m_current_possibilities, Shrinks.same hs.poss9, rfl⟩
  | cons sc rest ih =>
    intro s hs hall
    obtain ⟨scenario, field⟩ := sc
    have hsc := hall (scenario, field) (List.mem_cons_self _ _)
    obtain ⟨n1, n2⟩ := solveNested_scenario hs.board9 hsc _ rfl
    simp only at n1 n2
    simp only [runScenarios]
    cases hn : solveNested (fuelFor (postprocessInsertion (constructPossibilities scenario) field))
        { copy := scenario,
          m_current_possibilities := postprocessInsertion (constructPossibilities scenario) field,
          written := [] } with
    | exhausted t => exact absurd hn (n1 t)
    | raised t =>
      simp only
      exact ⟨fun t => by simp, s.m_current_possibilities, Shrinks.same hs.poss9, rfl⟩
    | returned r =>
      simp only
      have hz := n2 r hn
      have hrest : ∀ sc ∈ rest, ScenarioOk s.copy sc := fun sc h => hall sc (List.mem_cons_of_mem _ h)
      split
      · have hsh := (eraseFrom_erasesOnly hs.poss9 field.1 field.2).shrinks
        obtain ⟨b1, P, b2, b3⟩ := ih
          ({ copy := s.copy,
             m_current_possibilities := eraseFrompossibilities_board s.m_current_possibilities field.1 field.2,
             written := s.written } : Session)
          (hs.of_shrinks hsh) hrest
        exact ⟨b1, P, hsh.andThen b2, b3⟩
      · split
        · next hfull => exact absurd hfull.1 hz
        · exact ih s hs hrest

theorem bruteforceStrategyRunner_spec (s : Session) (hs : Consistent s.copy s.m_current_possibilities) :
    (∀ t, bruteforceStrategyRunner s ≠ Outcome.exhausted t) ∧
    ∃ P, Shrinks s.m_current_possibilities P ∧
      (bruteforceStrategyRunner s).state = { s with m_current_possibilities := P } := by
  unfold bruteforceStrategyRunner
  simp only
  split
  · exact ⟨fun t => by simp, s.m_current_possibilities, Shrinks.same hs.poss9, rfl⟩
  · apply runScenarios_spec _ s hs
    intro sc hsc
    rw [List.mem_map] at hsc
    obtain ⟨f, hf, rfl⟩ := hsc
    obtain ⟨h1, h2, h3, q, hq1, hq2, hq3⟩ := mem_retrieveNextMoves hs.poss9 s.copy f hf
    refine ⟨rfl, h1, ?_, q, hq1, hq2, hs.atEmpty q hq2 (List.ne_nil_of_mem hq3)⟩
    have := (mem_target _).1 h2
    simp only
    omega

end malcolm


/-!
## The session invariant: history, non-regression and validity
-/

namespace malcolm

open BoardSolver_t

theorem noConflict_iff_peers (g : Board_t Int) :
    NoConflict g ↔ ∀ p q, InRange p → InRange q → Peers p q →
      Board_t.get g p = Board_t.get g q → Board_t.get g p = 0 := by
  constructor
  · rintro ⟨hr, hc, hb⟩ ⟨px, py⟩ ⟨qx, qy⟩ hp hq ⟨hne, hh⟩ heq
    rcases hh with e | e | e
    · simp only at e
      subst e
      refine hc px hp.1 py hp.2 qy hq.2 ?_ heq
      intro e2; exact hne (by rw [e2])
    · simp only at e
      subst e
      refine hr py hp.2 px hp.1 qx hq.1 ?_ heq
      intro e2; exact hne (by rw [e2])
    · exact hb _ _ hp hq hne e heq
  · intro h
    refine ⟨?_, ?_, ?_⟩
    · intro y hy x1 hx1 x2 hx2 hne heq
      exact h (x1, y) (x2, y) ⟨hx1, hy⟩ ⟨hx2, hy⟩
        ⟨fun e => hne (by simpa using congrArg Prod.fst e), Or.inr (Or.inl rfl)⟩ heq
    · intro x hx y1 hy1 y2 hy2 hne heq
      exact h (x, y1) (x, y2) ⟨hx, hy1⟩ ⟨hx, hy2⟩
        ⟨fun e => hne (by simpa using congrArg Prod.snd e), Or.inl rfl⟩ heq
    · intro p q hp hq hne hbox heq
      exact h p q hp hq ⟨hne, Or.inr (Or.inr hbox)⟩ heq

/-- Writing a candidate of an empty cell keeps the board free of conflicts. -/
theorem noConflict_set {b : Board_t Int} {P : PossibilitiesBoard_t} (hc : Consistent b P)
    (hn : NoConflict b) {f : field_t} (hf : InRange f.1) (hmem : f.2 ∈ Board_t.get P f.1) :
    NoConflict (Board_t.set b f.1 f.2) := by
  rw [noConflict_iff_peers] at hn ⊢
  intro p q hp hq hpq heq
  have hv0 : f.2 ≠ 0 := by
    have := (mem_target _).1 (hc.digits f.1 hf f.2 hmem)
    omega
  by_cases e1 : p = f.1
  · exfalso
    have e2 : q ≠ f.1 := fun e => hpq.1 (e1.trans e.symm)
    rw [e1, Board_t.get_set_self hc.board9 hf, Board_t.get_set_ne _ _ e2] at heq
    apply hc.fresh f.1 q hf hq (e1 ▸ hpq)
    rw [← heq]; exact hmem
  · by_cases e2 : q = f.1
    · exfalso
      rw [e2, Board_t.get_set_self hc.board9 hf, Board_t.get_set_ne _ _ e1] at heq
      apply hc.fresh f.1 p hf hp (e2 ▸ hpq.symm)
      rw [heq]; exact hmem
    · rw [Board_t.get_set_ne _ _ e1, Board_t.get_set_ne _ _ e2] at heq
      rw [Board_t.get_set_ne _ _ e1]
      exact hn p q hp hq hpq heq

theorem Extends.afterWrite {g b : Board_t Int} {P : PossibilitiesBoard_t} (he : Extends g b)
    (hc : Consistent b P) {f : field_t} (hf : InRange f.1) (hmem : f.2 ∈ Board_t.get P f.1) :
    Extends g (Board_t.set b f.1 f.2) := by
  refine ⟨he.1.set _ _, ?_, fun hg => noConflict_set hc (he.2.2 hg) hf hmem⟩
  intro q hq hgq
  have h0 := hc.atEmpty f.1 hf (List.ne_nil_of_mem hmem)
  have hne : q ≠ f.1 := by
    intro e
    apply hgq
    rw [← he.2.1 q hq hgq, e]
    exact h0
  rw [Board_t.get_set_ne _ _ hne]
  exact he.2.1 q hq hgq

theorem sessionInv_loopInvariant (g : Board_t Int) : LoopInvariant (SessionInv g) := by
  refine ⟨fun s h => h.1, ?_, ?_⟩
  · rintro s f ⟨hc, hh, he, hw⟩ hf
    have hm := move_mem (mem_getFieldsToBeFilled hc.poss9 s.copy f hf)
    have h0 := hc.atEmpty f.1 hm.1 (List.ne_nil_of_mem hm.2)
    have hv0 : f.2 ≠ 0 := by
      have := (mem_target _).1 (hc.digits f.1 hm.1 f.2 hm.2)
      omega
    have he2 := he.afterWrite hc hm.1 hm.2
    unfold SessionInv
    rw [commit_possibilities, commit_copy, commit_written]
    refine ⟨hc.afterCommit hm.1 hm.2, ⟨rfl, hh⟩, he2, ?_⟩
    intro e hmem
    rcases List.mem_cons.1 hmem with r | r
    · subst r
      exact ⟨he, hm.1, h0, hv0, he2⟩
    · exact hw e r
  · rintro s P ⟨hc, hh, he, hw⟩ hok
    exact ⟨hc.of_shrinks (smartcleanPossibilitiesBoard_shrinks s.copy hc.poss9 hok), hh, he, hw⟩

theorem sessionInv_runnerOk (g : Board_t Int) : RunnerOk (SessionInv g) bruteforceStrategyRunner := by
  refine ⟨?_, ?_, ?_, ?_⟩
  · intro s hs
    exact (bruteforceStrategyRunner_spec s hs.1).1
  · rintro s ⟨hc, hh, he, hw⟩
    obtain ⟨_, P, hsh, e⟩ := bruteforceStrategyRunner_spec s hc
    rw [e]
    exact ⟨hc.of_shrinks hsh, hh, he, hw⟩
  · intro s hs
    obtain ⟨_, P, hsh, e⟩ := bruteforceStrategyRunner_spec s hs.1
    rw [e]
  · intro s hs
    obtain ⟨_, P, hsh, e⟩ := bruteforceStrategyRunner_spec s hs.1
    rw [e]
    exact openCells_le_of_shrinks hs.1.poss9 hsh

theorem sessionInv_initial {g : Board_t Int} (hg : Is9x9 g) :
    SessionInv g { copy := g, m_current_possibilities := constructPossibilities g, written := [] } :=
  ⟨constructPossibilities_consistent hg, rfl, ⟨hg, fun _ _ _ => rfl, fun h => h⟩,
    fun _ he => absurd he (List.not_mem_nil _)⟩

/-- Main theorem on a session: `solve` never uses up its iteration bound, the invariant
holds in the state it ends with, and a returned board has an empty cell unless nothing
was done at all (possible only with `_allow_recursive_usage = false`). -/
theorem solve_spec {g : Board_t Int} (hg : Is9x9 g) (allow : Bool) :
    (∀ t, solve g allow ≠ Outcome.exhausted t) ∧
    SessionInv g (solve g allow).state ∧
    ∀ r, solve g allow = Outcome.returned r →
      getFieldsToBeFilled r.m_current_possibilities r.copy = [] ∧
      ((allow = false ∧ r.copy = g ∧ r.written = []) ∨ Board_t.count (fun v => v == 0) r.copy ≠ 0) := by
  unfold solve
  simp only
  generalize hs0 : Session.mk g (constructPossibilities g) [] = s0
  have e2 : s0.m_current_possibilities = constructPossibilities g := by rw [← hs0]
  have hi : SessionInv g s0 := by rw [← hs0]; exact sessionInv_initial hg
  have hlt : openCells s0.m_current_possibilities < fuelFor (constructPossibilities g) := by
    rw [e2]; unfold fuelFor; omega
  obtain ⟨a1, a2, a3⟩ := solveWith_spec (sessionInv_loopInvariant g) (sessionInv_runnerOk g) allow
    (fuelFor (constructPossibilities g)) s0 hi hlt
  refine ⟨a1, a2, ?_⟩
  intro r hr
  obtain ⟨b1, b2⟩ := a3 r hr
  refine ⟨b1, ?_⟩
  rcases b2 with ⟨c1, c2⟩ | c2
  · left
    rw [c2, ← hs0]
    exact ⟨c1, rfl, rfl⟩
  · exact Or.inr c2

end malcolm


/-!
## Soundness with respect to a completed grid: moves
-/

namespace malcolm

open BoardSolver_t

theorem IsSolution.ne_zero {S : Board_t Int} (hS : IsSolution S) {p : pos_t} (hp : InRange p) :
    Board_t.get S p ≠ 0 := by
  have := (mem_target _).1 (hS.2.1 p hp)
  omega

/-- In a completed grid two cells sharing a unit hold different values. -/
theorem IsSolution.peers_ne {S : Board_t Int} (hS : IsSolution S) {p q : pos_t} (hp : InRange p)
    (hq : InRange q) (hpq : Peers p q) : Board_t.get S p ≠ Board_t.get S q := by
  intro e
  exact hS.ne_zero hp ((noConflict_iff_peers S).1 hS.2.2 p q hp hq hpq e)

/-- Every digit occurs in every box of a completed grid. -/
theorem IsSolution.box_has {S : Board_t Int} (hS : IsSolution S) {c : pos_t}
    (hc : c ∈ Board_t.centersFor9x9Board) {d : Int} (hd : d ∈ target) :
    ∃ r ∈ boxCells c, Board_t.get S r = d := by
  have hcc := getLocalCenter_of_mem_centers hc
  have c1 : 1 ≤ c.1 := by
    have := getLocalCenter_fst c; rw [hcc.1] at this; omega
  have c2 : 1 ≤ c.2 := by
    have := getLocalCenter_snd c; rw [hcc.1] at this; omega
  have hin : ∀ r ∈ boxCells c, InRange r ∧ SameBox c r := by
    intro r hr
    rw [← hcc.1] at hr
    have := mem_boxCells_center.1 hr
    exact ⟨this.inRange hcc.2, this⟩
  have hnd : ((boxCells c).map (Board_t.get S)).Nodup := by
    rw [List.nodup_map_iff_inj_on (boxCells_nodup c1 c2)]
    intro p hp q hq e
    by_contra hne
    obtain ⟨rp, bp⟩ := hin p hp
    obtain ⟨rq, bq⟩ := hin q hq
    refine hS.peers_ne rp rq ⟨hne, Or.inr (Or.inr ?_)⟩ e
    unfold SameBox at *
    omega
  have hsub : (boxCells c).map (Board_t.get S) ⊆ target := by
    intro v hv
    obtain ⟨r, hr, rfl⟩ := List.mem_map.1 hv
    exact hS.2.1 r (hin r hr).1
  have hperm := (List.subperm_of_subset hnd hsub).perm_of_length_le (by simp [boxCells, target])
  have := hperm.mem_iff.2 hd
  obtain ⟨r, hr, e⟩ := List.mem_map.1 this
  exact ⟨r, hr, e⟩

/-- A proposed move writes the value of the completed grid. -/
theorem move_sound {S b : Board_t Int} {P : PossibilitiesBoard_t} (hS : IsSolution S)
    (hc : Consistent b P) (hs : Sound S b P) {f : field_t} (hf : OnlyMove P f ∨ BoxMove b P f) :
    f.2 = Board_t.get S f.1 := by
  rcases hf with ⟨h1, h2⟩ | ⟨c, hcen, hd, hnot, hin, hmem, huniq⟩
  · have h0 := hc.atEmpty f.1 h1 (by rw [h2]; simp)
    have := hs.2 f.1 h1 h0
    rw [h2, List.mem_singleton] at this
    exact this.symm
  · obtain ⟨r, hr, e⟩ := hS.box_has hcen hd
    have hcc := getLocalCenter_of_mem_centers hcen
    have hrr : InRange r ∧ SameBox c r := by
      rw [← hcc.1] at hr
      have := mem_boxCells_center.1 hr
      exact ⟨this.inRange hcc.2, this⟩
    have hb0 : Board_t.get b r = 0 := by
      by_contra hne
      have := hs.1 r hrr.1 hne
      apply hnot
      rw [Board_t.mem_getNeighborhood hc.board9 hcc.2]
      exact ⟨r, hrr.2, by rw [this, e]⟩
    have hm := hs.2 r hrr.1 hb0
    rw [e] at hm
    have := huniq r hr hm
    rw [← this, e]

theorem Sound.afterMove {S b : Board_t Int} {P : PossibilitiesBoard_t} (hS : IsSolution S)
    (hc : Consistent b P) (hs : Sound S b P) {f : field_t} (hf : InRange f.1)
    (hv : f.2 = Board_t.get S f.1) :
    Sound S (Board_t.set b f.1 f.2) (postprocessInsertion P f) := by
  obtain ⟨pos, v⟩ := f
  simp only at hf hv
  constructor
  · intro p hp hne
    by_cases e : p = pos
    · rw [e, Board_t.get_set_self hc.board9 hf, hv]
    · rw [Board_t.get_set_ne _ _ e] at hne ⊢
      exact hs.1 p hp hne
  · intro p hp h0
    have e : p ≠ pos := by
      intro e
      rw [e, Board_t.get_set_self hc.board9 hf, hv] at h0
      exact hS.ne_zero hf h0
    rw [Board_t.get_set_ne _ _ e] at h0
    have hm := hs.2 p hp h0
    rw [postprocessInsertion_get hc.poss9 hf v hp, if_neg e]
    split
    · next hpeer =>
      rw [mem_setErase]
      refine ⟨hm, ?_⟩
      rw [hv]
      exact (hS.peers_ne hf hp hpeer).symm
    · exact hm

theorem Sound.of_erase_other {S b : Board_t Int} {P : PossibilitiesBoard_t} (hP : Is9x9 P)
    (hs : Sound S b P) {c : pos_t} {v : Int} (hne : InRange c → Board_t.get b c = 0 → Board_t.get S c ≠ v) :
    Sound S b (eraseFrompossibilities_board P c v) := by
  refine ⟨hs.1, ?_⟩
  intro p hp h0
  rw [eraseFrom_get hP]
  split
  · next e =>
    rw [mem_setErase]
    exact ⟨hs.2 p hp h0, by rw [e]; exact hne (e ▸ hp) (e ▸ h0)⟩
  · exact hs.2 p hp h0

end malcolm


/-!
## Soundness with respect to a completed grid: the cleaner
-/

namespace malcolm

open BoardSolver_t SmartCleaner_t

theorem determineLocalRules_eq (b : Board_t Int) (goal : Int) (x : pos_t) :
    determineLocalRulesForColumns b goal x (Board_t.copyNeighborhood b x) =
      (if columnExcluded b goal x 0 then [(relation_type_t.MUST_NOT_BE_IN_COLUMN, 1)] else []) ++
      (if columnExcluded b goal x 1 then [(relation_type_t.MUST_NOT_BE_IN_COLUMN, 2)] else []) ++
      (if columnExcluded b goal x 2 then [(relation_type_t.MUST_NOT_BE_IN_COLUMN, 3)] else []) := by
  have hsz : (Board_t.getSize (Board_t.copyNeighborhood b x)).1 = 3 := rfl
  have hr : List.range 3 = [0, 1, 2] := rfl
  have hstep : ∀ (rules : List rule_t) (i : Nat),
      (if utils.contains (Board_t.getColumn b ((i + x.1 - 1) % 256)) goal = true then
        rules ++ [(relation_type_t.MUST_NOT_BE_IN_COLUMN, i + 1)]
      else if utils.isFull (Board_t.getColumn (Board_t.copyNeighborhood b x) i) = true then
        rules ++ [(relation_type_t.MUST_NOT_BE_IN_COLUMN, i + 1)]
      else rules) =
      rules ++ (if columnExcluded b goal x i = true then [(relation_type_t.MUST_NOT_BE_IN_COLUMN, i + 1)]
        else []) := by
    intro rules i
    unfold columnExcluded
    by_cases h1 : utils.contains (Board_t.getColumn b ((i + x.1 - 1) % 256)) goal = true
    · simp [h1]
    · by_cases h2 : utils.isFull (Board_t.getColumn (Board_t.copyNeighborhood b x) i) = true
      · simp [h1, h2]
      · simp [h1, h2]
  unfold determineLocalRulesForColumns
  rw [hsz, hr]
  simp only [hstep, List.foldl_cons, List.foldl_nil, List.nil_append]

/-- The value of `allowedColumn` when local column `k` is not excluded: no column is
allowed, or it is the board column of local column `k`. -/
theorem allowedColumn_of_free (b : Board_t Int) (goal : Int) (x : pos_t) {k : Nat} (hk : k < 3)
    (hfree : columnExcluded b goal x k = false) :
    allowedColumn (determineLocalRulesForColumns b goal x (Board_t.copyNeighborhood b x)) x = -5 ∨
    allowedColumn (determineLocalRulesForColumns b goal x (Board_t.copyNeighborhood b x)) x
      = (k : Int) - 1 + (x.1 : Int) := by
  rw [determineLocalRules_eq]
  interval_cases k <;>
  cases h0 : columnExcluded b goal x 0 <;>
  cases h1 : columnExcluded b goal x 1 <;>
  cases h2 : columnExcluded b goal x 2 <;>
  simp_all [allowedColumn]

theorem utils_contains_iff (v : List Int) (val : Int) : utils.contains v val = true ↔ val ∈ v := by
  unfold utils.contains
  rw [List.any_eq_true]
  constructor
  · rintro ⟨x, hx, e⟩
    rw [beq_iff_eq] at e
    rw [← e]; exact hx
  · intro h
    exact ⟨val, h, by simp⟩

theorem Sound.of_erasesOnly_ne {S b : Board_t Int} {P P2 : PossibilitiesBoard_t} {goal : Int}
    (hs : Sound S b P) (he : ErasesOnly goal P P2) (hne : ∀ q, InRange q → Board_t.get S q ≠ goal) :
    Sound S b P2 := by
  refine ⟨hs.1, ?_⟩
  intro p hp h0
  rcases he.2 p with e | e
  · rw [e]; exact hs.2 p hp h0
  · rw [e, mem_setErase]; exact ⟨hs.2 p hp h0, hne p hp⟩

/-- The column in which the completed grid places `goal` inside a box without `goal` is
not excluded by the cleaner. -/
theorem columnExcluded_solution {S b : Board_t Int} (hS : IsSolution S) (hb : Is9x9 b)
    (ha : AgreesWith S b) {goal : Int} {x r : pos_t} (hx : x ∈ Board_t.centersFor9x9Board)
    (hr : r ∈ boxCells x) (hrS : Board_t.get S r = goal) (hr0 : Board_t.get b r = 0) :
    columnExcluded b goal x (r.1 + 1 - x.1) = false := by
  have hcc := getLocalCenter_of_mem_centers hx
  have c1 : 1 ≤ x.1 := by
    have := getLocalCenter_fst x; rw [hcc.1] at this; omega
  have c2 : 1 ≤ x.2 := by
    have := getLocalCenter_snd x; rw [hcc.1] at this; omega
  have hm := (mem_boxCells c1 c2).1 hr
  have hrr : InRange r := by
    rw [← hcc.1] at hr
    exact (mem_boxCells_center.1 hr).inRange hcc.2
  have x1 := hcc.2.1
  have x2 := hcc.2.2
  have g0 : goal ≠ 0 := by rw [← hrS]; exact hS.ne_zero hrr
  unfold columnExcluded
  rw [Bool.or_eq_false_iff]
  constructor
  · rw [Bool.eq_false_iff]
    intro hcon
    rw [utils_contains_iff] at hcon
    have e : (r.1 + 1 - x.1 + x.1 - 1) % 256 = r.1 := by omega
    rw [e, Board_t.getColumn_eq hb, List.mem_map] at hcon
    obtain ⟨y, hy, hv⟩ := hcon
    rw [List.mem_range] at hy
    have hq : InRange (r.1, y) := ⟨hrr.1, hy⟩
    have hSq : Board_t.get S (r.1, y) = goal := by
      rw [← ha (r.1, y) hq (by rw [hv]; exact g0), hv]
    have hne : r ≠ (r.1, y) := by
      intro e2
      rw [← e2, hr0] at hv
      exact g0 hv.symm
    exact hS.peers_ne hrr hq ⟨hne, Or.inl rfl⟩ (by rw [hrS, hSq])
  · unfold utils.isFull
    rw [Bool.not_eq_false', utils_contains_iff]
    have hk : r.1 + 1 - x.1 < 3 := by omega
    have hj : r.2 + 1 - x.2 < 3 := by omega
    have hlen : ((Board_t.copyNeighborhood b x).headD []).length = 3 := rfl
    unfold Board_t.getColumn
    rw [hlen, List.mem_map]
    refine ⟨r.2 + 1 - x.2, List.mem_range.2 hj, ?_⟩
    rw [Board_t.get_copyNeighborhood b x hk hj, hcc.1]
    have e1 : x.1 + (r.1 + 1 - x.1) - 1 = r.1 := by omega
    have e2 : x.2 + (r.2 + 1 - x.2) - 1 = r.2 := by omega
    rw [e1, e2]
    exact hr0

theorem eraseInAllowedColumn_sound {S b : Board_t Int} (hS : IsSolution S) {P : PossibilitiesBoard_t}
    (hP : Is9x9 P) (hs : Sound S b P) {goal : Int} {x r : pos_t}
    (hx : x ∈ Board_t.centersFor9x9Board) (hr : r ∈ boxCells x) (hrS : Board_t.get S r = goal) :
    Sound S b (eraseInAllowedColumn P goal x (r.1 : Int)) := by
  have hcc := getLocalCenter_of_mem_centers hx
  have hrb : SameBox x r := by
    rw [← hcc.1] at hr
    exact mem_boxCells_center.1 hr
  have hrr : InRange r := hrb.inRange hcc.2
  have hrc : utils.getLocalCenter r = x := by
    apply Prod.ext
    · rw [getLocalCenter_fst, ← hcc.1, getLocalCenter_fst]
      have := hrb.1; omega
    · rw [getLocalCenter_snd, ← hcc.1, getLocalCenter_snd]
      have := hrb.2; omega
  unfold eraseInAllowedColumn
  have key := foldl_preserves (fun P2 : PossibilitiesBoard_t => Is9x9 P2 ∧ Sound S b P2)
    (fun P i =>
      let current_position : pos_t := ((r.1 : Int).toNat % 256, i % 256)
      if (utils.getLocalCenter current_position).1 = x.1 ∧ (utils.getLocalCenter current_position).2 = x.2 then P
      else if (Board_t.get P current_position).count goal > 0 then
        Board_t.set P current_position (setErase (Board_t.get P current_position) goal)
      else P)
    (List.range (Board_t.getSize P).2) ?_ ⟨hP, hs⟩
  · exact key.2
  · intro acc i _ hacc
    simp only
    split
    · exact hacc
    · next hcen =>
      split
      · refine ⟨hacc.1.set _ _, ?_⟩
        apply Sound.of_erase_other hacc.1 hacc.2
        intro hc _
        have e1 : (r.1 : Int).toNat % 256 = r.1 := by
          have := hrr.1
          simp only [Int.toNat_ofNat]
          omega
        rw [e1] at hc hcen ⊢
        have hne : r ≠ (r.1, i % 256) := by
          intro e
          rw [← e, hrc] at hcen
          exact hcen ⟨rfl, rfl⟩
        rw [← hrS]
        exact (hS.peers_ne hrr hc ⟨hne, Or.inl rfl⟩).symm
      · exact hacc

theorem smartcleanCenter_sound {S b : Board_t Int} (hS : IsSolution S) (hb : Is9x9 b)
    {P : PossibilitiesBoard_t} (hP : Is9x9 P) (hs : Sound S b P) (goal : Int) {x : pos_t}
    (hx : x ∈ Board_t.centersFor9x9Board) : Sound S b (smartcleanCenter b goal P x) := by
  by_cases hg : goal ∈ target
  · unfold smartcleanCenter
    simp only
    split
    · exact hs
    · next hfind =>
      have hcc := getLocalCenter_of_mem_centers hx
      have hbox : ∀ q ∈ boxCells x, Board_t.get b q ≠ goal := by
        rcases Board_t.find_copyNeighborhood (fun v => v == goal) b x with ⟨_, h2⟩ | ⟨k, j, hk, _, e, _⟩
        · intro q hq
          rw [hcc.1] at h2
          simpa using h2 q hq
        · exfalso
          apply hfind
          simp only [ne_eq, Decidable.not_not] at hfind
          rw [hfind] at e
          simp only [Prod.mk.injEq] at e
          omega
      obtain ⟨r, hr, hrS⟩ := hS.box_has hx hg
      have hrr : InRange r := by
        have := hr
        rw [← hcc.1] at this
        exact (mem_boxCells_center.1 this).inRange hcc.2
      have hr0 : Board_t.get b r = 0 := by
        by_contra hne
        exact hbox r hr (by rw [hs.1 r hrr hne, hrS])
      have c1 : 1 ≤ x.1 := by
        have := getLocalCenter_fst x; rw [hcc.1] at this; omega
      have hm := (mem_boxCells c1 (by
        have := getLocalCenter_snd x; rw [hcc.1] at this; omega)).1 hr
      have hk : r.1 + 1 - x.1 < 3 := by omega
      have hfree := columnExcluded_solution hS hb hs.1 hx hr hrS hr0
      rcases allowedColumn_of_free b goal x hk hfree with e | e
      · rw [e]
        rw [if_neg (by decide)]
        exact hs
      · rw [e]
        have e2 : ((r.1 + 1 - x.1 : Nat) : Int) - 1 + (x.1 : Int) = (r.1 : Int) := by omega
        rw [e2]
        split
        · exact eraseInAllowedColumn_sound hS hP hs hx hr hrS
        · exact hs
  · apply hs.of_erasesOnly_ne (smartcleanCenter_erasesOnly b goal hP x)
    intro q hq e
    exact hg (e ▸ hS.2.1 q hq)

/-- The cleaner keeps the value of the completed grid among the candidates of every
empty cell. -/
theorem smartclean_sound {S b : Board_t Int} (hS : IsSolution S) (hb : Is9x9 b)
    {P : PossibilitiesBoard_t} (hP : Is9x9 P) (hs : Sound S b P) (goal : Int) :
    Sound S b (smartclean b P goal) := by
  unfold smartclean
  simp only
  split
  · exact hs
  · have key := foldl_preserves (fun P2 : PossibilitiesBoard_t => Is9x9 P2 ∧ Sound S b P2)
      (smartcleanCenter b goal) Board_t.centersFor9x9Board
      (fun acc x hx hacc => ⟨(smartcleanCenter_erasesOnly b goal hacc.1 x).1,
        smartcleanCenter_sound hS hb hacc.1 hacc.2 goal hx⟩) ⟨hP, hs⟩
    exact key.2

theorem smartcleanPossibilitiesBoard_sound {S b : Board_t Int} (hS : IsSolution S) (hb : Is9x9 b)
    {P P2 : PossibilitiesBoard_t} (hP : Is9x9 P) (hs : Sound S b P)
    (hok : smartcleanPossibilitiesBoard b P = Except.ok P2) : Sound S b P2 := by
  unfold smartcleanPossibilitiesBoard at hok
  split at hok
  · exact absurd hok (by simp)
  · simp only [Except.ok.injEq] at hok
    rw [← hok]
    have key := foldl_preserves (fun P3 : PossibilitiesBoard_t => Is9x9 P3 ∧ Sound S b P3)
      (fun P (x : Int) => smartclean b P x) [1, 2, 3, 4, 5, 6, 7, 8, 9]
      (fun acc x _ hacc => ⟨(smartclean_erasesOnly b hacc.1 x).1,
        smartclean_sound hS hb hacc.1 hacc.2 x⟩) ⟨hP, hs⟩
    exact key.2

end malcolm


/-!
## Soundness with respect to a completed grid: the session
-/

namespace malcolm

open BoardSolver_t

/-- A board that agrees with a completed grid on its filled cells has no conflict. -/
theorem AgreesWith.noConflict {S b : Board_t Int} (hS : IsSolution S) (ha : AgreesWith S b) :
    NoConflict b := by
  rw [noConflict_iff_peers]
  intro p q hp hq hpq heq
  by_contra h0
  have hq0 : Board_t.get b q ≠ 0 := by rw [← heq]; exact h0
  apply hS.peers_ne hp hq hpq
  rw [← ha p hp h0, ← ha q hq hq0, heq]

/-- The initial candidates of an empty cell contain the value of the completed grid. -/
theorem constructPossibilities_sound {S g : Board_t Int} (hS : IsSolution S) (hg : Is9x9 g)
    (ha : AgreesWith S g) : Sound S g (constructPossibilities g) := by
  refine ⟨ha, ?_⟩
  intro p hp h0
  rw [(constructPossibilities_spec hg).2 p hp, getPossibleValues_eq hg hp, if_neg (by simp [h0]),
    List.mem_filter]
  refine ⟨hS.2.1 p hp, ?_⟩
  simp only [decide_eq_true_eq]
  intro hmem
  rw [mem_unitValues] at hmem
  obtain ⟨q, hq, hu, hv⟩ := hmem
  have hq0 : Board_t.get g q ≠ 0 := by rw [hv]; exact hS.ne_zero hp
  have hne : p ≠ q := by
    intro e
    rw [← e] at hq0
    exact hq0 h0
  have hpeer : Peers p q := by
    refine ⟨hne, ?_⟩
    rcases hu with e | e | e
    · exact Or.inl e.symm
    · exact Or.inr (Or.inl e.symm)
    · exact Or.inr (Or.inr e)
  apply hS.peers_ne hp hq hpeer
  rw [← ha q hq hq0, hv]

theorem Sound.post {S b : Board_t Int} {P : PossibilitiesBoard_t} (hS : IsSolution S) (hP : Is9x9 P)
    (hs : Sound S b P) {f : field_t} (hf : InRange f.1) (hv : f.2 = Board_t.get S f.1)
    (hb : Board_t.get b f.1 ≠ 0) : Sound S b (postprocessInsertion P f) := by
  obtain ⟨pos, v⟩ := f
  simp only at hf hv hb
  refine ⟨hs.1, ?_⟩
  intro p hp h0
  have e : p ≠ pos := by
    intro e
    rw [e] at h0
    exact hb h0
  have hm := hs.2 p hp h0
  rw [postprocessInsertion_get hP hf v hp, if_neg e]
  split
  · next hpeer =>
    rw [mem_setErase]
    refine ⟨hm, ?_⟩
    rw [hv]
    exact (hS.peers_ne hf hp hpeer).symm
  · exact hm

theorem soundInv_loopInvariant {S : Board_t Int} (hS : IsSolution S) : LoopInvariant (SoundInv S) := by
  refine ⟨fun s h => h.1, ?_, ?_⟩
  · rintro s f ⟨hc, hs, hw⟩ hf
    have hmv := mem_getFieldsToBeFilled hc.poss9 s.copy f hf
    have hm := move_mem hmv
    have hv := move_sound hS hc hs hmv
    unfold SoundInv
    rw [commit_possibilities, commit_copy, commit_written]
    refine ⟨hc.afterCommit hm.1 hm.2, hs.afterMove hS hc hm.1 hv, ?_⟩
    intro e hmem
    rcases List.mem_cons.1 hmem with r | r
    · subst r; exact hv
    · exact hw e r
  · rintro s P ⟨hc, hs, hw⟩ hok
    exact ⟨hc.of_shrinks (smartcleanPossibilitiesBoard_shrinks s.copy hc.poss9 hok),
      smartcleanPossibilitiesBoard_sound hS hc.board9 hc.poss9 hs hok, hw⟩

/-- A nested session on a hypothesis that the completed grid confirms returns only boards
accepted by the validator. -/
theorem solveNested_valid {S b : Board_t Int} (hS : IsSolution S) (hb : Is9x9 b) (ha : AgreesWith S b)
    {sc : Board_t Int × field_t} (hsc : ScenarioOk b sc) (hv : sc.2.2 = Board_t.get S sc.2.1)
    (P : PossibilitiesBoard_t) (hP : P = postprocessInsertion (constructPossibilities sc.1) sc.2) :
    ∀ r, solveNested (fuelFor P) { copy := sc.1, m_current_possibilities := P, written := [] }
      = Outcome.returned r → validateBoard r.copy defaultChecks = true := by
  obtain ⟨h1, h2, h3, _⟩ := hsc
  have s9 : Is9x9 sc.1 := by rw [h1]; exact hb.set _ _
  have hself : Board_t.get sc.1 sc.2.1 = sc.2.2 := by
    rw [h1]; exact Board_t.get_set_self hb h2 _
  have hag : AgreesWith S sc.1 := by
    intro p hp hne
    by_cases e : p = sc.2.1
    · rw [e, hself, hv]
    · rw [h1, Board_t.get_set_ne _ _ e] at hne ⊢
      exact ha p hp hne
  have hc0 := constructPossibilities_consistent s9
  have hs0 := constructPossibilities_sound hS s9 hag
  have hc : Consistent sc.1 P := by
    rw [hP]; exact hc0.of_shrinks (postprocessInsertion_shrinks hc0.poss9 h2)
  have hs : Sound S sc.1 P := by
    rw [hP]; exact hs0.post hS hc0.poss9 h2 hv (by rw [hself]; exact h3)
  generalize hs0 : ({ copy := sc.1, m_current_possibilities := P, written := [] } : Session) = s0
  have e1 : s0.copy = sc.1 := by rw [← hs0]
  have e2 : s0.m_current_possibilities = P := by rw [← hs0]
  have e3 : s0.written = [] := by rw [← hs0]
  have hi : SoundInv S s0 := by
    refine ⟨by rw [e1, e2]; exact hc, by rw [e1, e2]; exact hs, ?_⟩
    intro e he
    rw [e3] at he
    exact absurd he (List.not_mem_nil _)
  have hlt : openCells s0.m_current_possibilities < fuelFor P := by
    rw [e2]; unfold fuelFor; omega
  obtain ⟨_, a2, _⟩ := solveWith_spec (soundInv_loopInvariant hS)
    (returned_runnerOk _) false (fuelFor P) s0 hi hlt
  intro r hr
  unfold solveNested at hr
  rw [hr] at a2
  simp only [Outcome.state] at a2
  rw [validateBoard_eq_true_iff a2.1.board9]
  exact ⟨a2.2.1.1.noConflict hS, rfl⟩

/-- The loop over the scenarios never erases the value of the completed grid. -/
theorem runScenarios_sound {S : Board_t Int} (hS : IsSolution S) (scenarios : List (Board_t Int × field_t)) :
    ∀ s : Session, Consistent s.copy s.m_current_possibilities →
      Sound S s.copy s.m_current_possibilities →
      (∀ sc ∈ scenarios, ScenarioOk s.copy sc) →
      Sound S s.copy (runScenarios scenarios s).state.m_current_possibilities := by
  induction scenarios with
  | nil =>
    intro s _ hs _
    exact hs
  | cons sc rest ih =>
    intro s hc hs hall
    obtain ⟨scenario, field⟩ := sc
    have hsc := hall (scenario, field) (List.mem_cons_self _ _)
    have hrest : ∀ sc ∈ rest, ScenarioOk s.copy sc := fun sc h => hall sc (List.mem_cons_of_mem _ h)
    have hval := fun hv => solveNested_valid hS hc.board9 hs.1 hsc hv _ rfl
    simp only at hval
    simp only [runScenarios]
    cases hn : solveNested (fuelFor (postprocessInsertion (constructPossibilities scenario) field))
        { copy := scenario,
          m_current_possibilities := postprocessInsertion (constructPossibilities scenario) field,
          written := [] } with
    | exhausted t => exact hs
    | raised t => exact hs
    | returned r =>
      simp only
      split
      · next hcontra =>
        have hne : Board_t.get S field.1 ≠ field.2 := by
          intro e
          have := hval e.symm r hn
          rw [this] at hcontra
          exact absurd hcontra.2 (by simp)
        have hsh := (eraseFrom_erasesOnly hc.poss9 field.1 field.2).shrinks
        exact ih
          ({ copy := s.copy,
             m_current_possibilities := eraseFrompossibilities_board s.m_current_possibilities field.1 field.2,
             written := s.written } : Session)
          (hc.of_shrinks hsh) (Sound.of_erase_other hc.poss9 hs (fun _ _ => hne)) hrest
      · split
        · next hfull =>
          exfalso
          exact (solveNested_scenario hc.board9 hsc _ rfl).2 r hn hfull.1
        · exact ih s hc hs hrest

theorem soundInv_runnerOk {S : Board_t Int} (hS : IsSolution S) :
    RunnerOk (SoundInv S) bruteforceStrategyRunner := by
  have hsound : ∀ s, SoundInv S s →
      Sound S s.copy (bruteforceStrategyRunner s).state.m_current_possibilities := by
    rintro s ⟨hc, hs, _⟩
    unfold bruteforceStrategyRunner
    simp only
    split
    · exact hs
    · apply runScenarios_sound hS _ s hc hs
      intro sc hsc
      rw [List.mem_map] at hsc
      obtain ⟨f, hf, rfl⟩ := hsc
      obtain ⟨h1, h2, h3, q, hq1, hq2, hq3⟩ := mem_retrieveNextMoves hc.poss9 s.copy f hf
      refine ⟨rfl, h1, ?_, q, hq1, hq2, hc.atEmpty q hq2 (List.ne_nil_of_mem hq3)⟩
      have := (mem_target _).1 h2
      simp only
      omega
  refine ⟨?_, ?_, ?_, ?_⟩
  · intro s hs
    exact (bruteforceStrategyRunner_spec s hs.1).1
  · intro s hi
    have h2 := hsound s hi
    obtain ⟨hc, hs, hw⟩ := hi
    obtain ⟨_, P, hsh, e⟩ := bruteforceStrategyRunner_spec s hc
    rw [e] at h2 ⊢
    exact ⟨hc.of_shrinks hsh, h2, hw⟩
  · intro s hs
    obtain ⟨_, P, hsh, e⟩ := bruteforceStrategyRunner_spec s hs.1
    rw [e]
  · intro s hs
    obtain ⟨_, P, hsh, e⟩ := bruteforceStrategyRunner_spec s hs.1
    rw [e]
    exact openCells_le_of_shrinks hs.1.poss9 hsh

/-- Every state of a session on an input that `S` completes is sound for `S`. -/
theorem solve_sound {S g : Board_t Int} (hS : IsSolution S) (hg : Is9x9 g) (ha : AgreesWith S g)
    (allow : Bool) : SoundInv S (solve g allow).state := by
  unfold solve
  simp only
  generalize hs0 : Session.mk g (constructPossibilities g) [] = s0
  have e1 : s0.copy = g := by rw [← hs0]
  have e2 : s0.m_current_possibilities = constructPossibilities g := by rw [← hs0]
  have e3 : s0.written = [] := by rw [← hs0]
  have hi : SoundInv S s0 := by
    refine ⟨by rw [e1, e2]; exact constructPossibilities_consistent hg,
      by rw [e1, e2]; exact constructPossibilities_sound hS hg ha, ?_⟩
    intro e he
    rw [e3] at he
    exact absurd he (List.not_mem_nil _)
  have hlt : openCells s0.m_current_possibilities < fuelFor (constructPossibilities g) := by
    rw [e2]; unfold fuelFor; omega
  exact (solveWith_spec (soundInv_loopInvariant hS) (soundInv_runnerOk hS) allow
    (fuelFor (constructPossibilities g)) s0 hi hlt).2.1

end malcolm


/-!
## Termination: the iteration bound does not matter
-/

namespace malcolm

open BoardSolver_t

theorem innerLoop_bound_irrelevant {Inv : Session → Prop} (LI : LoopInvariant Inv) (n : Nat) :
    ∀ (m : Nat) (s : Session) (queue : List field_t), Inv s →
      queue = getFieldsToBeFilled s.m_current_possibilities s.copy →
      openCells s.m_current_possibilities < n → openCells s.m_current_possibilities < m →
      innerLoop n s queue = innerLoop m s queue := by
  induction n with
  | zero => intro m s queue _ _ h; omega
  | succ n ih =>
    intro m s queue hs hq hn hm
    cases m with
    | zero => omega
    | succ m =>
      cases queue with
      | nil => simp [innerLoop]
      | cons f rest =>
        have hf : f ∈ getFieldsToBeFilled s.m_current_possibilities s.copy := by
          rw [← hq]; exact List.mem_cons_self _ _
        have hdec := commit_decreases LI hs hf
        simp only [innerLoop]
        exact ih m (commit s f) _ (LI.commit s f hs hf) rfl (by omega) (by omega)

theorem middleLoop_bound_irrelevant {Inv : Session → Prop} (LI : LoopInvariant Inv) (allow : Bool)
    (b1 b2 : Nat) (n : Nat) :
    ∀ (m : Nat) (s : Session) (queue : List field_t), Inv s →
      queue = getFieldsToBeFilled s.m_current_possibilities s.copy →
      openCells s.m_current_possibilities < b1 → openCells s.m_current_possibilities < b2 →
      openCells s.m_current_possibilities < n → openCells s.m_current_possibilities < m →
      middleLoop allow b1 n s queue = middleLoop allow b2 m s queue := by
  induction n with
  | zero => intro m s queue _ _ _ _ h; omega
  | succ n ih =>
    intro m s queue hs hq h1 h2 hn hm
    cases m with
    | zero => omega
    | succ m =>
      cases queue with
      | nil => simp [middleLoop]
      | cons f rest =>
        obtain ⟨s1, e1, i1, g1, m1, d1⟩ := innerLoop_spec LI b1 s (f :: rest) hs hq h1
        have d1 := d1 (by simp)
        have e2 : innerLoop b2 s (f :: rest) = Outcome.returned s1 := by
          rw [← innerLoop_bound_irrelevant LI b1 b2 s (f :: rest) hs hq h1 h2]; exact e1
        simp only [middleLoop, e1, e2]
        cases allow with
        | false =>
          simp only [Bool.false_eq_true, ite_false]
          exact ih m { s1 with m_current_possibilities := s1.m_current_possibilities } _ i1 rfl
            (by simp only; omega) (by simp only; omega) (by simp only; omega) (by simp only; omega)
        | true =>
          simp only [ite_true]
          cases hc : smartcleanPossibilitiesBoard s1.copy s1.m_current_possibilities with
          | error P => rfl
          | ok P =>
            simp only
            have hsh := smartcleanPossibilitiesBoard_shrinks s1.copy (LI.consistent s1 i1).poss9 hc
            have hle := openCells_le_of_shrinks (LI.consistent s1 i1).poss9 hsh
            exact ih m { s1 with m_current_possibilities := P } _ (LI.clean s1 P i1 hc) rfl
              (by simp only; omega) (by simp only; omega) (by simp only; omega) (by simp only; omega)

theorem outerLoop_bound_irrelevant {Inv : Session → Prop} (LI : LoopInvariant Inv)
    {runner : Session → Outcome} (RO : RunnerOk Inv runner) (allow : Bool) (b1 b2 : Nat) (n : Nat) :
    ∀ (m : Nat) (s : Session) (queue : List field_t), Inv s →
      queue = getFieldsToBeFilled s.m_current_possibilities s.copy →
      openCells s.m_current_possibilities < b1 → openCells s.m_current_possibilities < b2 →
      openCells s.m_current_possibilities < n → openCells s.m_current_possibilities < m →
      outerLoop runner allow b1 n s queue = outerLoop runner allow b2 m s queue := by
  induction n with
  | zero => intro m s queue _ _ _ _ h; omega
  | succ n ih =>
    intro m s queue hs hq h1 h2 hn hm
    cases m with
    | zero => omega
    | succ m =>
      cases queue with
      | nil => simp [outerLoop]
      | cons f rest =>
        obtain ⟨a1, a2, a3, a4⟩ := middleLoop_spec LI allow b1 b1 s (f :: rest) hs hq h1 h1
        have e2 := middleLoop_bound_irrelevant LI allow b1 b2 b1 b2 s (f :: rest) hs hq h1 h2 h1 h2
        simp only [outerLoop]
        rw [← e2]
        cases hmid : middleLoop allow b1 b1 s (f :: rest) with
        | exhausted t => rfl
        | raised t => rfl
        | returned s1 =>
          simp only
          rw [hmid] at a2 a3
          simp only [Outcome.state] at a2 a3
          have d1 := (a4 s1 hmid).2 (by simp)
          have key : ∀ s2, Inv s2 →
              openCells s2.m_current_possibilities < openCells s.m_current_possibilities →
              (match smartcleanPossibilitiesBoard s2.copy s2.m_current_possibilities with
                | Except.error _ => Outcome.raised s2
                | Except.ok P => outerLoop runner allow b1 n { s2 with m_current_possibilities := P }
                    (getFieldsToBeFilled P s2.copy)) =
              (match smartcleanPossibilitiesBoard s2.copy s2.m_current_possibilities with
                | Except.error _ => Outcome.raised s2
                | Except.ok P => outerLoop runner allow b2 m { s2 with m_current_possibilities := P }
                    (getFieldsToBeFilled P s2.copy)) := by
            intro s2 i2 m2
            cases hc : smartcleanPossibilitiesBoard s2.copy s2.m_current_possibilities with
            | error P => rfl
            | ok P =>
              simp only
              have hsh := smartcleanPossibilitiesBoard_shrinks s2.copy (LI.consistent s2 i2).poss9 hc
              have hle := openCells_le_of_shrinks (LI.consistent s2 i2).poss9 hsh
              exact ih m { s2 with m_current_possibilities := P } _ (LI.clean s2 P i2 hc) rfl
                (by simp only; omega) (by simp only; omega) (by simp only; omega) (by simp only; omega)
          cases allow with
          | false =>
            simp only [Bool.false_eq_true, ite_false]
            exact key s1 a2 d1
          | true =>
            simp only [ite_true]
            have r2 := RO.inv s1 a2
            have r4 := RO.measure_le s1 a2
            cases hr : runner s1 with
            | exhausted t => rfl
            | raised t => rfl
            | returned s2 =>
              simp only
              rw [hr] at r2 r4
              simp only [Outcome.state] at r2 r4
              exact key s2 r2 (by omega)

/-- Any iteration bound above the number of open cells gives the same run of `solve`. -/
theorem solveWith_bound_irrelevant {Inv : Session → Prop} (LI : LoopInvariant Inv)
    {runner : Session → Outcome} (RO : RunnerOk Inv runner) (allow : Bool) (b1 b2 : Nat) (s : Session)
    (hs : Inv s) (h1 : openCells s.m_current_possibilities < b1)
    (h2 : openCells s.m_current_possibilities < b2) :
    solveWith runner allow b1 s = solveWith runner allow b2 s := by
  unfold solveWith
  cases allow with
  | false =>
    simp only [Bool.false_eq_true, ite_false]
    exact outerLoop_bound_irrelevant LI RO false b1 b2 b1 b2
      { s with m_current_possibilities := s.m_current_possibilities } _ hs rfl h1 h2 h1 h2
  | true =>
    simp only [ite_true]
    cases hc : smartcleanPossibilitiesBoard s.copy s.m_current_possibilities with
    | error P => rfl
    | ok P =>
      simp only
      have hsh := smartcleanPossibilitiesBoard_shrinks s.copy (LI.consistent s hs).poss9 hc
      have hle := openCells_le_of_shrinks (LI.consistent s hs).poss9 hsh
      have i1 := LI.clean s P hs hc
      have r2 := RO.inv _ i1
      have r4 := RO.measure_le _ i1
      cases hr : runner { s with m_current_possibilities := P } with
      | exhausted t => rfl
      | raised t => rfl
      | returned s2 =>
        simp only
        rw [hr] at r2 r4
        simp only [Outcome.state] at r2 r4
        exact outerLoop_bound_irrelevant LI RO true b1 b2 b1 b2 s2 _ r2 rfl
          (by omega) (by omega) (by omega) (by omega)

/-- The number of writes plus the number of open cells never exceeds `N`. -/
theorem counting_loopInvariant (N : Nat) :
    LoopInvariant (fun s => Consistent s.copy s.m_current_possibilities ∧
      s.written.length + openCells s.m_current_possibilities ≤ N) := by
  refine ⟨fun s h => h.1, ?_, ?_⟩
  · rintro s f ⟨hc, hn⟩ hf
    have hdec := commit_decreases consistent_loopInvariant hc hf
    refine ⟨consistent_loopInvariant.commit s f hc hf, ?_⟩
    rw [commit_written]
    simp only [List.length_cons]
    omega
  · rintro s P ⟨hc, hn⟩ hok
    have hsh := smartcleanPossibilitiesBoard_shrinks s.copy hc.poss9 hok
    have hle := openCells_le_of_shrinks hc.poss9 hsh
    exact ⟨hc.of_shrinks hsh, by simp only; omega⟩

theorem counting_runnerOk (N : Nat) :
    RunnerOk (fun s => Consistent s.copy s.m_current_possibilities ∧
      s.written.length + openCells s.m_current_possibilities ≤ N) bruteforceStrategyRunner := by
  refine ⟨?_, ?_, ?_, ?_⟩
  · intro s hs
    exact (bruteforceStrategyRunner_spec s hs.1).1
  · rintro s ⟨hc, hn⟩
    obtain ⟨_, P, hsh, e⟩ := bruteforceStrategyRunner_spec s hc
    have hle := openCells_le_of_shrinks hc.poss9 hsh
    rw [e]
    exact ⟨hc.of_shrinks hsh, by simp only; omega⟩
  · intro s hs
    obtain ⟨_, P, hsh, e⟩ := bruteforceStrategyRunner_spec s hs.1
    rw [e]
  · intro s hs
    obtain ⟨_, P, hsh, e⟩ := bruteforceStrategyRunner_spec s hs.1
    rw [e]
    exact openCells_le_of_shrinks hs.1.poss9 hsh

theorem openCells_le_81 {P : PossibilitiesBoard_t} (h : Is9x9 P) : openCells P ≤ 81 := by
  rw [openCells_eq h, ← allCells_length]
  exact List.countP_le_length _

/-- The number of writes of a session is at most the number of cells that are open at
the start, hence at most 81. -/
theorem solve_written_length {g : Board_t Int} (hg : Is9x9 g) (allow : Bool) :
    (solve g allow).state.written.length ≤ openCells (constructPossibilities g) ∧
    openCells (constructPossibilities g) ≤ 81 := by
  refine ⟨?_, openCells_le_81 (constructPossibilities_spec hg).1⟩
  unfold solve
  simp only
  generalize hs0 : Session.mk g (constructPossibilities g) [] = s0
  have e1 : s0.copy = g := by rw [← hs0]
  have e2 : s0.m_current_possibilities = constructPossibilities g := by rw [← hs0]
  have e3 : s0.written = [] := by rw [← hs0]
  have hi : Consistent s0.copy s0.m_current_possibilities ∧
      s0.written.length + openCells s0.m_current_possibilities ≤ openCells (constructPossibilities g) := by
    refine ⟨by rw [e1, e2]; exact constructPossibilities_consistent hg, ?_⟩
    rw [e2, e3]
    simp
  have hlt : openCells s0.m_current_possibilities < fuelFor (constructPossibilities g) := by
    rw [e2]; unfold fuelFor; omega
  have := (solveWith_spec (counting_loopInvariant (openCells (constructPossibilities g)))
    (counting_runnerOk _) allow (fuelFor (constructPossibilities g)) s0 hi hlt).2.1
  omega

theorem solve_bound_irrelevant {g : Board_t Int} (hg : Is9x9 g) (allow : Bool) (bound : Nat)
    (hb : openCells (constructPossibilities g) < bound) :
    solveWith bruteforceStrategyRunner allow bound
      { copy := g, m_current_possibilities := constructPossibilities g, written := [] } =
    solve g allow := by
  unfold solve
  simp only
  generalize hs0 : Session.mk g (constructPossibilities g) [] = s0
  have e2 : s0.m_current_possibilities = constructPossibilities g := by rw [← hs0]
  have hi : SessionInv g s0 := by rw [← hs0]; exact sessionInv_initial hg
  exact solveWith_bound_irrelevant (sessionInv_loopInvariant g) (sessionInv_runnerOk g) allow _ _ s0 hi
    (by rw [e2]; exact hb) (by rw [e2]; unfold fuelFor; omega)

end malcolm


/-!
## Steps of a session

What one hypothesis of the bruteforce pass does to the parent session, what the whole
pass can change, and the operations of a session as a step relation.
-/

namespace malcolm

open BoardSolver_t

/-- Processing the head of the scenario list runs the nested session `scenario_solved`
and dispatches on its result. -/
theorem runScenarios_cons (scenario : Board_t Int) (field : field_t)
    (rest : List (Board_t Int × field_t)) (s : Session) :
    runScenarios ((scenario, field) :: rest) s =
      match scenario_solved scenario field with
      | Outcome.returned r =>
        if Board_t.count (fun v => v == 0) r.copy > 0 ∧ validateBoard r.copy defaultChecks = false then
          runScenarios rest { s with m_current_possibilities :=
            eraseFrompossibilities_board s.m_current_possibilities field.1 field.2 }
        else if Board_t.count (fun v => v == 0) r.copy = 0 ∧ validateBoard r.copy defaultChecks = true then
          Outcome.returned { s with copy := Board_t.set s.copy field.1 field.2,
                                    written := (s.copy, field) :: s.written }
        else runScenarios rest s
      | Outcome.raised _ => Outcome.raised s
      | Outcome.exhausted _ => Outcome.exhausted s := by
  unfold scenario_solved
  generalize ho : solveNested _ _ = o
  cases o <;> simp only [runScenarios, ho]

/-- Whatever the state, the loop over the scenarios adds no candidate, removes a
candidate only for a hypothesis of the list, and writes at most one hypothesis into the
working board. -/
theorem runScenarios_changes (scenarios : List (Board_t Int × field_t)) :
    ∀ s : Session, Is9x9 s.m_current_possibilities →
      Is9x9 (runScenarios scenarios s).state.m_current_possibilities ∧
      (∀ q v, v ∈ Board_t.get (runScenarios scenarios s).state.m_current_possibilities q →
        v ∈ Board_t.get s.m_current_possibilities q) ∧
      (∀ q v, v ∈ Board_t.get s.m_current_possibilities q →
        v ∉ Board_t.get (runScenarios scenarios s).state.m_current_possibilities q →
        ∃ sc ∈ scenarios, sc.2 = (q, v)) ∧
      ((runScenarios scenarios s).state.copy = s.copy ∨
        ∃ sc ∈ scenarios, (runScenarios scenarios s).state.copy = Board_t.set s.copy sc.2.1 sc.2.2) := by
  induction scenarios with
  | nil =>
    intro s hs
    simp only [runScenarios, Outcome.state]
    exact ⟨hs, fun _ _ h => h, fun _ _ h hn => absurd h hn, Or.inl trivial⟩
  | cons sc rest ih =>
    intro s hs
    obtain ⟨scenario, field⟩ := sc
    rw [runScenarios_cons]
    cases scenario_solved scenario field with
    | exhausted t =>
      simp only [Outcome.state]
      exact ⟨hs, fun _ _ h => h, fun _ _ h hn => absurd h hn, Or.inl trivial⟩
    | raised t =>
      simp only [Outcome.state]
      exact ⟨hs, fun _ _ h => h, fun _ _ h hn => absurd h hn, Or.inl trivial⟩
    | returned r =>
      simp only
      split
      · have h9 := eraseFrom_9x9 hs field.1 field.2
        obtain ⟨a1, a2, a3, a4⟩ := ih
          ({ copy := s.copy,
             m_current_possibilities := eraseFrompossibilities_board s.m_current_possibilities field.1 field.2,
             written := s.written } : Session) h9
        simp only at a1 a2 a3 a4
        have hget := eraseFrom_get hs field.1 field.2
        refine ⟨a1, ?_, ?_, ?_⟩
        · intro q v hv
          have := a2 q v hv
          rw [hget] at this
          split at this
          · exact ((mem_setErase _ _ _).1 this).1
          · exact this
        · intro q v hv hn
          by_cases hmid : v ∈ Board_t.get
              (eraseFrompossibilities_board s.m_current_possibilities field.1 field.2) q
          · obtain ⟨sc, hsc, e⟩ := a3 q v hmid hn
            exact ⟨sc, List.mem_cons_of_mem _ hsc, e⟩
          · rw [hget] at hmid
            split at hmid
            · next hq =>
              rw [mem_setErase] at hmid
              have hv2 : v = field.2 := by
                by_contra hne
                exact hmid ⟨hv, hne⟩
              refine ⟨(scenario, field), List.mem_cons_self _ _, ?_⟩
              simp only [hq, hv2]
            · exact absurd hv hmid
        · rcases a4 with e | ⟨sc, hsc, e⟩
          · exact Or.inl e
          · exact Or.inr ⟨sc, List.mem_cons_of_mem _ hsc, e⟩
      · split
        · simp only [Outcome.state]
          exact ⟨hs, fun _ _ h => h, fun _ _ h hn => absurd h hn,
            Or.inr ⟨(scenario, field), List.mem_cons_self _ _, rfl⟩⟩
        · obtain ⟨a1, a2, a3, a4⟩ := ih s hs
          refine ⟨a1, a2, ?_, ?_⟩
          · intro q v hv hn
            obtain ⟨sc, hsc, e⟩ := a3 q v hv hn
            exact ⟨sc, List.mem_cons_of_mem _ hsc, e⟩
          · rcases a4 with e | ⟨sc, hsc, e⟩
            · exact Or.inl e
            · exact Or.inr ⟨sc, List.mem_cons_of_mem _ hsc, e⟩

/-- Whatever the state, a call of the bruteforce runner adds no candidate, removes only
hypothesised digits from their hypothesised cells, and writes at most one hypothesis
into the working board. -/
theorem bruteforceStrategyRunner_changes (s : Session) (hs : Is9x9 s.m_current_possibilities) :
    Is9x9 (bruteforceStrategyRunner s).state.m_current_possibilities ∧
    (∀ q v, v ∈ Board_t.get (bruteforceStrategyRunner s).state.m_current_possibilities q →
      v ∈ Board_t.get s.m_current_possibilities q) ∧
    (∀ q v, v ∈ Board_t.get s.m_current_possibilities q →
      v ∉ Board_t.get (bruteforceStrategyRunner s).state.m_current_possibilities q →
      (q, v) ∈ BruteforceStrategy_t.retrieveNextMoves s.m_current_possibilities s.copy) ∧
    ((bruteforceStrategyRunner s).state.copy = s.copy ∨
      ∃ f ∈ BruteforceStrategy_t.retrieveNextMoves s.m_current_possibilities s.copy,
        (bruteforceStrategyRunner s).state.copy = Board_t.set s.copy f.1 f.2) := by
  unfold bruteforceStrategyRunner
  simp only
  split
  · simp only [Outcome.state]
    exact ⟨hs, fun _ _ h => h, fun _ _ h hn => absurd h hn, Or.inl trivial⟩
  · obtain ⟨a1, a2, a3, a4⟩ := runScenarios_changes
      ((BruteforceStrategy_t.retrieveNextMoves s.m_current_possibilities s.copy).map
        (fun f => (Board_t.set s.copy f.1 f.2, f))) s hs
    refine ⟨a1, a2, ?_, ?_⟩
    · intro q v hv hn
      obtain ⟨sc, hsc, e⟩ := a3 q v hv hn
      rw [List.mem_map] at hsc
      obtain ⟨f, hf, rfl⟩ := hsc
      simp only at e
      rw [← e]
      exact hf
    · rcases a4 with e | ⟨sc, hsc, e⟩
      · exact Or.inl e
      · rw [List.mem_map] at hsc
        obtain ⟨f, hf, rfl⟩ := hsc
        exact Or.inr ⟨f, hf, e⟩

/-- Every operation of a session leaves each candidate set inside the one it had. -/
theorem SessionStep.narrows {s t : Session} (h : SessionStep s t)
    (hs : Is9x9 s.m_current_possibilities) :
    Shrinks s.m_current_possibilities t.m_current_possibilities := by
  cases h with
  | insertion f hf =>
    rw [commit_possibilities]
    exact postprocessInsertion_shrinks hs (move_mem (mem_getFieldsToBeFilled hs s.copy f hf)).1
  | hypothesis f hf =>
    dsimp only
    exact postprocessInsertion_shrinks hs hf
  | smartclean d =>
    dsimp only
    exact (smartclean_erasesOnly s.copy hs d).shrinks
  | cleaning P hP =>
    dsimp only
    exact smartcleanPossibilitiesBoard_shrinks s.copy hs hP
  | refuted f =>
    dsimp only
    exact (eraseFrom_erasesOnly hs f.1 f.2).shrinks
  | bruteforce =>
    obtain ⟨a1, a2, _, _⟩ := bruteforceStrategyRunner_changes s hs
    exact ⟨a1, fun q _ v hv => a2 q v hv⟩

/-- Candidate sets only shrink along any sequence of operations of a session. -/
theorem steps_shrink {s t : Session} (h : Relation.ReflTransGen SessionStep s t)
    (hs : Is9x9 s.m_current_possibilities) :
    Shrinks s.m_current_possibilities t.m_current_possibilities := by
  induction h with
  | refl => exact Shrinks.same hs
  | tail _ hstep ih => exact ih.andThen (hstep.narrows ih.1)

/-- Every operation of a session keeps the working board and the candidates consistent. -/
theorem SessionStep.keepsConsistent {s t : Session} (h : SessionStep s t)
    (hs : Consistent s.copy s.m_current_possibilities) :
    Consistent t.copy t.m_current_possibilities := by
  cases h with
  | insertion f hf =>
    have hm := move_mem (mem_getFieldsToBeFilled hs.poss9 s.copy f hf)
    rw [commit_possibilities, commit_copy]
    exact hs.afterCommit hm.1 hm.2
  | hypothesis f hf =>
    dsimp only
    exact hs.of_shrinks (postprocessInsertion_shrinks hs.poss9 hf)
  | smartclean d =>
    dsimp only
    exact hs.of_shrinks (smartclean_erasesOnly s.copy hs.poss9 d).shrinks
  | cleaning P hP =>
    dsimp only
    exact hs.of_shrinks (smartcleanPossibilitiesBoard_shrinks s.copy hs.poss9 hP)
  | refuted f =>
    dsimp only
    exact hs.of_shrinks (eraseFrom_erasesOnly hs.poss9 f.1 f.2).shrinks
  | bruteforce =>
    obtain ⟨_, P, hsh, e⟩ := bruteforceStrategyRunner_spec s hs
    rw [e]
    exact hs.of_shrinks hsh

/-- Every state reached from the initial state of a session on a 9x9 grid is consistent. -/
theorem steps_consistent {g : Board_t Int} (hg : Is9x9 g) {t : Session}
    (h : Relation.ReflTransGen SessionStep (Session.initial g) t) :
    Consistent t.copy t.m_current_possibilities := by
  induction h with
  | refl => exact constructPossibilities_consistent hg
  | tail _ hstep ih => exact hstep.keepsConsistent ih

/-- Being consistent and reached by operations from `s0` is an invariant of the loops. -/
theorem steps_loopInvariant (s0 : Session) :
    LoopInvariant (fun s => Consistent s.copy s.m_current_possibilities ∧
      Relation.ReflTransGen SessionStep s0 s) := by
  refine ⟨fun s h => h.1, ?_, ?_⟩
  · intro s f hs hf
    exact ⟨(SessionStep.insertion s f hf).keepsConsistent hs.1,
      Relation.ReflTransGen.tail hs.2 (SessionStep.insertion s f hf)⟩
  · intro s P hs hc
    exact ⟨(SessionStep.cleaning s P hc).keepsConsistent hs.1,
      Relation.ReflTransGen.tail hs.2 (SessionStep.cleaning s P hc)⟩

theorem steps_runnerOk (s0 : Session) :
    RunnerOk (fun s => Consistent s.copy s.m_current_possibilities ∧
      Relation.ReflTransGen SessionStep s0 s) bruteforceStrategyRunner := by
  refine ⟨?_, ?_, ?_, ?_⟩
  · intro s hs
    exact (bruteforceStrategyRunner_spec s hs.1).1
  · intro s hs
    exact ⟨(SessionStep.bruteforce s).keepsConsistent hs.1,
      Relation.ReflTransGen.tail hs.2 (SessionStep.bruteforce s)⟩
  · intro s hs
    obtain ⟨_, P, hsh, e⟩ := bruteforceStrategyRunner_spec s hs.1
    rw [e]
  · intro s hs
    obtain ⟨_, P, hsh, e⟩ := bruteforceStrategyRunner_spec s hs.1
    rw [e]
    exact openCells_le_of_shrinks hs.1.poss9 hsh

/-- The state a top-level session ends with is reached from its initial state by
operations of the step relation. -/
theorem solve_steps {g : Board_t Int} (hg : Is9x9 g) (allow : Bool) :
    Relation.ReflTransGen SessionStep (Session.initial g) (solve g allow).state := by
  unfold solve
  simp only
  have e0 : Session.mk g (constructPossibilities g) [] = Session.initial g := rfl
  rw [e0]
  generalize hs0 : Session.initial g = s0
  have e2 : s0.m_current_possibilities = constructPossibilities g := by rw [← hs0]; rfl
  have hc : Consistent s0.copy s0.m_current_possibilities := by
    rw [← hs0]; exact constructPossibilities_consistent hg
  have hlt : openCells s0.m_current_possibilities < fuelFor (constructPossibilities g) := by
    rw [e2]; unfold fuelFor; omega
  exact (solveWith_spec (steps_loopInvariant s0) (steps_runnerOk s0) allow
    (fuelFor (constructPossibilities g)) s0 ⟨hc, Relation.ReflTransGen.refl⟩ hlt).2.1.2

/-- The state a nested session ends with is reached from the initial state of a session
on the scenario: first the step `hypothesis`, then the steps of `solve(false)`. -/
theorem scenario_solved_steps {scenario : Board_t Int} (hsc : Is9x9 scenario) {field : field_t}
    (hf : InRange field.1) :
    Relation.ReflTransGen SessionStep (Session.initial scenario) (scenario_solved scenario field).state := by
  unfold scenario_solved solveNested
  have hstep : SessionStep (Session.initial scenario)
      (Session.mk scenario (postprocessInsertion (constructPossibilities scenario) field) []) :=
    SessionStep.hypothesis (Session.initial scenario) field hf
  have hc1 := hstep.keepsConsistent (constructPossibilities_consistent hsc)
  generalize hs1 : Session.mk scenario (postprocessInsertion (constructPossibilities scenario) field) [] = s1
    at hstep hc1 ⊢
  have e2 : s1.m_current_possibilities = postprocessInsertion (constructPossibilities scenario) field := by
    rw [← hs1]
  have hlt : openCells s1.m_current_possibilities <
      fuelFor (postprocessInsertion (constructPossibilities scenario) field) := by
    rw [e2]; unfold fuelFor; omega
  exact (solveWith_spec (steps_loopInvariant (Session.initial scenario)) (returned_runnerOk _) false
    _ s1 ⟨hc1, Relation.ReflTransGen.single hstep⟩ hlt).2.1.2

end malcolm


/-!
## The strategies, case by case

When each strategy returns a move and when it returns the sentinel, and the box read
by `getNeighborhood`.
-/

namespace malcolm

open BoardSolver_t

/-- The two cases of `TheOnlyPossibilityStrategy_t::retrieveNextMove`: a cell with exactly
one candidate exists and the move is the first such cell with the first element of its
set, or no such cell exists and the sentinel is returned. -/
theorem onlyPossibility_cases {P : PossibilitiesBoard_t} (hP : Is9x9 P) (b : Board_t Int) :
    ((∃ p, InRange p ∧ (Board_t.get P p).length = 1) ∧
      InRange (TheOnlyPossibilityStrategy_t.retrieveNextMove P b).1 ∧
      Board_t.get P (TheOnlyPossibilityStrategy_t.retrieveNextMove P b).1 =
        [(TheOnlyPossibilityStrategy_t.retrieveNextMove P b).2]) ∨
    ((¬ ∃ p, InRange p ∧ (Board_t.get P p).length = 1) ∧
      TheOnlyPossibilityStrategy_t.retrieveNextMove P b = ((0, 0), 0)) := by
  have hiff := Board_t.count_pos_iff (fun (val : List Int) => val.length == 1) hP
  simp only [beq_iff_eq] at hiff
  unfold TheOnlyPossibilityStrategy_t.retrieveNextMove
  simp only
  by_cases hc : Board_t.count (fun (val : List Int) => val.length == 1) P > 0
  · left
    rw [if_pos hc]
    have hex := hiff.1 hc
    obtain ⟨h1, h2⟩ := Board_t.find_of_exists (fun (val : List Int) => val.length == 1) hP
      (by simpa using hex)
    refine ⟨hex, h1, ?_⟩
    simp only [beq_iff_eq] at h2
    obtain ⟨a, ha⟩ := List.length_eq_one.1 h2
    simp only [ha, List.headD_cons]
  · right
    rw [if_neg hc]
    exact ⟨fun hex => hc (hiff.2 hex), rfl⟩

/-- A predicate counted once on a list without repetition holds for exactly one element. -/
theorem countP_eq_one_iff {α : Type} (p : α → Bool) {l : List α} (hnd : l.Nodup) :
    l.countP p = 1 ↔ ∃ a ∈ l, p a = true ∧ ∀ x ∈ l, p x = true → x = a := by
  constructor
  · intro h1
    have hpos : 0 < l.countP p := by omega
    obtain ⟨a, ha, hpa⟩ := List.countP_pos_iff.1 hpos
    exact ⟨a, ha, hpa, fun x hx hpx => countP_eq_one_unique p h1 hx ha hpx hpa⟩
  · rintro ⟨a, ha, hpa, huniq⟩
    have hpos : 0 < l.countP p := List.countP_pos_iff.2 ⟨a, ha, hpa⟩
    by_contra hne
    obtain ⟨x, hx, hxa, hpx⟩ := exists_other_of_countP p hnd (by omega) a
    exact hxa (huniq x hx hpx)

/-- The values read by `getNeighborhood` at a box center are the values of the nine
cells of the box. -/
theorem mem_getNeighborhood_center {b : Board_t Int} (hb : Is9x9 b) {c : pos_t}
    (hc : c ∈ Board_t.centersFor9x9Board) (d : Int) :
    d ∈ Board_t.getNeighborhood b c ↔ ∃ q ∈ boxCells c, Board_t.get b q = d := by
  have hcc := getLocalCenter_of_mem_centers hc
  rw [Board_t.mem_getNeighborhood hb hcc.2]
  constructor
  · rintro ⟨q, hq, e⟩
    refine ⟨q, ?_, e⟩
    rw [← hcc.1]
    exact mem_boxCells_center.2 hq
  · rintro ⟨q, hq, e⟩
    rw [← hcc.1] at hq
    exact ⟨q, mem_boxCells_center.1 hq, e⟩

theorem boxCells_nodup_of_center {c : pos_t} (hc : c ∈ Board_t.centersFor9x9Board) :
    (boxCells c).Nodup := by
  have hcc := getLocalCenter_of_mem_centers hc
  have c1 : 1 ≤ c.1 := by
    have := getLocalCenter_fst c; rw [hcc.1] at this; omega
  have c2 : 1 ≤ c.2 := by
    have := getLocalCenter_snd c; rw [hcc.1] at this; omega
  exact boxCells_nodup c1 c2

/-- The two cases of `FillSubboardsStrategy_t::retrieveNextMove`: either the sentinel is
returned and no box center and digit pass the two tests of the loop body, or the move
holds a digit of 1..9 and is the only place of that digit in a box that misses it. -/
theorem fillSubboards_cases (P : PossibilitiesBoard_t) (b : Board_t Int) :
    (FillSubboardsStrategy_t.retrieveNextMove P b = ((0, 0), 0) ∧
      ∀ c ∈ Board_t.centersFor9x9Board, ∀ d ∈ target,
        d ∈ Board_t.getNeighborhood b c ∨
        (boxCells c).countP (fun p => (Board_t.get P p).contains d) ≠ 1) ∨
    ((FillSubboardsStrategy_t.retrieveNextMove P b).2 ∈ target ∧
      BoxMove b P (FillSubboardsStrategy_t.retrieveNextMove P b)) := by
  cases hfound : Board_t.centersFor9x9Board.findSome? (fun pos =>
      target.findSome? (fun goal =>
        if (Board_t.getNeighborhood b pos).contains goal then none
        else
          if Board_t.count (fun (container : List Int) => container.contains goal)
              (Board_t.copyNeighborhood P pos) = 1 then
            some ((((Board_t.find (fun (container : List Int) => container.contains goal)
                (Board_t.copyNeighborhood P pos)).1 + pos.1 - 1) % 256,
              ((Board_t.find (fun (container : List Int) => container.contains goal)
                (Board_t.copyNeighborhood P pos)).2 + pos.2 - 1) % 256), goal)
          else none)) with
  | none =>
    left
    refine ⟨?_, ?_⟩
    · unfold FillSubboardsStrategy_t.retrieveNextMove
      simp only [hfound]
    · intro c hc d hd
      rw [List.findSome?_eq_none_iff] at hfound
      have h1 := hfound c hc
      rw [List.findSome?_eq_none_iff] at h1
      have h2 := h1 d hd
      by_cases hn : (Board_t.getNeighborhood b c).contains d = true
      · exact Or.inl ((contains_eq_true_iff _ _).1 hn)
      · right
        rw [if_neg hn] at h2
        intro hcount
        have hcc := getLocalCenter_of_mem_centers hc
        rw [← hcc.1, ← Board_t.count_copyNeighborhood] at hcount
        rw [if_pos hcount] at h2
        exact absurd h2 (by simp)
  | some field =>
    right
    have he : FillSubboardsStrategy_t.retrieveNextMove P b = field := by
      unfold FillSubboardsStrategy_t.retrieveNextMove
      simp only [hfound]
    obtain ⟨c, hc, hinner⟩ := List.exists_of_findSome?_eq_some hfound
    obtain ⟨goal, hgoal, hbody⟩ := List.exists_of_findSome?_eq_some hinner
    have hval : field.2 ∈ target := by
      split at hbody
      · exact absurd hbody (by simp)
      · split at hbody
        · simp only [Option.some.injEq] at hbody
          rw [← hbody]
          exact hgoal
        · exact absurd hbody (by simp)
    have hne : (FillSubboardsStrategy_t.retrieveNextMove P b).2 ≠ 0 := by
      rw [he]
      have := (mem_target _).1 hval
      omega
    refine ⟨?_, fillSubboards_spec P b hne⟩
    rw [he]
    exact hval

/-- The cells of `boxOf p` are the positions in the box of `p`. -/
theorem mem_boxOf (p q : pos_t) : q ∈ boxOf p ↔ SameBox p q := by
  obtain ⟨q1, q2⟩ := q
  simp only [boxOf, SameBox, List.mem_flatMap, List.mem_map, List.mem_cons, List.mem_singleton,
    List.mem_nil_iff, or_false, Prod.mk.injEq]
  constructor
  · rintro ⟨i, hi, j, hj, e1, e2⟩
    constructor
    · rcases hi with rfl | rfl | rfl <;> omega
    · rcases hj with rfl | rfl | rfl <;> omega
  · rintro ⟨h1, h2⟩
    refine ⟨q1 % 3, ?_, q2 % 3, ?_, ?_, ?_⟩
    · omega
    · omega
    · omega
    · omega

/-- The result of `getNeighborhood` depends only on the box of the position. -/
theorem getNeighborhood_sameBox (b : Board_t Int) {p q : pos_t} (h : SameBox p q) :
    Board_t.getNeighborhood b q = Board_t.getNeighborhood b p := by
  have e1 : Board_t.getNeighborhood b p =
      Board_t.neighborhoodAround b (utils.getLocalCenter p).1 (utils.getLocalCenter p).2 := rfl
  have e2 : Board_t.getNeighborhood b q =
      Board_t.neighborhoodAround b (utils.getLocalCenter q).1 (utils.getLocalCenter q).2 := rfl
  rw [e1, e2, getLocalCenter_fst, getLocalCenter_snd, getLocalCenter_fst, getLocalCenter_snd, h.1, h.2]

end malcolm


/-!
## Scans of a board

The ordered sets built by `setInsert`, and the methods `find`, `findAll` and `count` on
boards of any shape.
-/

namespace malcolm

open BoardSolver_t

/-- Insertion into a strictly increasing list gives a strictly increasing list. -/
theorem setInsert_pairwise {α : Type} (lt : α → α → Bool)
    (htrans : ∀ a b c, lt a b = true → lt b c = true → lt a c = true)
    (htotal : ∀ a b, lt a b = false → lt b a = false → a = b) (a : α) {l : List α}
    (h : l.Pairwise (fun x y => lt x y = true)) :
    (setInsert lt a l).Pairwise (fun x y => lt x y = true) := by
  induction l with
  | nil => simp [setInsert]
  | cons b t ih =>
    rw [List.pairwise_cons] at h
    unfold setInsert
    by_cases h1 : lt a b = true
    · rw [if_pos h1]
      refine List.pairwise_cons.2 ⟨?_, List.pairwise_cons.2 h⟩
      intro x hx
      rcases List.mem_cons.1 hx with e | e
      · rw [e]; exact h1
      · exact htrans a b x h1 (h.1 x e)
    · rw [if_neg h1]
      by_cases h2 : lt b a = true
      · rw [if_pos h2]
        refine List.pairwise_cons.2 ⟨?_, ih h.2⟩
        intro x hx
        rcases (mem_setInsert lt htotal a x t).1 hx with e | e
        · rw [e]; exact h2
        · exact h.1 x e
      · rw [if_neg h2]
        exact List.pairwise_cons.2 h

theorem foldl_setInsert_pairwise {α : Type} (lt : α → α → Bool)
    (htrans : ∀ a b c, lt a b = true → lt b c = true → lt a c = true)
    (htotal : ∀ a b, lt a b = false → lt b a = false → a = b) (l : List α) {init : List α}
    (h : init.Pairwise (fun x y => lt x y = true)) :
    (l.foldl (fun result p => setInsert lt p result) init).Pairwise (fun x y => lt x y = true) := by
  induction l generalizing init with
  | nil => exact h
  | cons a t ih =>
    rw [List.foldl_cons]
    exact ih (setInsert_pairwise lt htrans htotal a h)

theorem posLt_iff (a b : pos_t) : posLt a b = true ↔ a.1 < b.1 ∨ (a.1 = b.1 ∧ a.2 < b.2) := by
  simp only [posLt, Bool.or_eq_true, Bool.and_eq_true, decide_eq_true_eq]

theorem posLt_trans (a b c : pos_t) (h1 : posLt a b = true) (h2 : posLt b c = true) :
    posLt a c = true := by
  rw [posLt_iff] at h1 h2 ⊢
  omega

theorem posLt_irrefl (a : pos_t) : posLt a a = false := by
  have h : ¬ posLt a a = true := by
    rw [posLt_iff]
    omega
  simpa using h

theorem fieldLt_iff (a b : field_t) :
    fieldLt a b = true ↔ posLt a.1 b.1 = true ∨ (a.1 = b.1 ∧ a.2 < b.2) := by
  simp only [fieldLt, Bool.or_eq_true, Bool.and_eq_true, decide_eq_true_eq]

theorem fieldLt_trans (a b c : field_t) (h1 : fieldLt a b = true) (h2 : fieldLt b c = true) :
    fieldLt a c = true := by
  rw [fieldLt_iff] at h1 h2 ⊢
  rcases h1 with h1 | ⟨e1, l1⟩ <;> rcases h2 with h2 | ⟨e2, l2⟩
  · exact Or.inl (posLt_trans _ _ _ h1 h2)
  · left; rw [← e2]; exact h1
  · left; rw [e1]; exact h2
  · exact Or.inr ⟨e1.trans e2, by omega⟩

theorem fieldLt_irrefl (a : field_t) : fieldLt a a = false := by
  have h : ¬ fieldLt a a = true := by
    rw [fieldLt_iff]
    rintro (h | ⟨_, h⟩)
    · rw [posLt_irrefl] at h; exact absurd h (by simp)
    · omega
  simpa using h

/-- The method `find` stops at the first cell of the scan that satisfies the predicate:
no cell of an earlier column and no earlier cell of the same column satisfies it. -/
theorem Board_t.findFrom_first {α : Type} [Inhabited α] (predicate : α → Bool) (b : Board_t α) (i : Nat) :
    ((∀ col ∈ b, col.any predicate = false) ∧ Board_t.findFrom predicate b i = (255, 255)) ∨
    ∃ k j, k < b.length ∧ j < (b.getD k []).length ∧ predicate (Board_t.get b (k, j)) = true ∧
      Board_t.findFrom predicate b i = ((i + k) % 256, j % 256) ∧
      (∀ k2 j2, k2 < k → j2 < (b.getD k2 []).length → predicate (Board_t.get b (k2, j2)) = false) ∧
      (∀ j2, j2 < j → predicate (Board_t.get b (k, j2)) = false) := by
  induction b generalizing i with
  | nil => left; simp [Board_t.findFrom]
  | cons col rest ih =>
    unfold Board_t.findFrom
    by_cases hc : col.any predicate = true
    · right
      have hlt : col.findIdx predicate < col.length := by
        apply List.findIdx_lt_length_of_exists
        simpa using hc
      refine ⟨0, col.findIdx predicate, by simp, by simpa using hlt, ?_, by simp [hc], ?_, ?_⟩
      · simp only [Board_t.get, List.getD_cons_zero]
        rw [List.getD_eq_getElem _ _ hlt]
        exact List.findIdx_getElem
      · intro k2 j2 hk2
        omega
      · intro j2 hj2
        have hj2l : j2 < col.length := by omega
        simp only [Board_t.get, List.getD_cons_zero]
        rw [List.getD_eq_getElem _ _ hj2l]
        have := List.not_of_lt_findIdx hj2
        simpa using this
    · have hcf : col.any predicate = false := by simpa using hc
      rcases ih (i + 1) with ⟨h1, h2⟩ | ⟨k, j, hk, hj, hp, he, hm1, hm2⟩
      · left
        refine ⟨?_, by simp [hc, h2]⟩
        intro c hcm
        rcases List.mem_cons.1 hcm with r | r
        · subst r; exact hcf
        · exact h1 c r
      · right
        refine ⟨k + 1, j, by simpa using hk, by simpa using hj, by simpa [Board_t.get] using hp, ?_, ?_, ?_⟩
        · simp only [hc, Bool.false_eq_true, ite_false, he]
          congr 2
          omega
        · intro k2 j2 hk2 hj2
          cases k2 with
          | zero =>
            simp only [List.getD_cons_zero] at hj2
            simp only [Board_t.get, List.getD_cons_zero]
            rw [List.getD_eq_getElem _ _ hj2]
            rw [List.any_eq_false] at hcf
            simpa using hcf _ (List.getElem_mem hj2)
          | succ k3 =>
            have := hm1 k3 j2 (by omega) (by simpa using hj2)
            simpa [Board_t.get] using this
        · intro j2 hj2
          have := hm2 j2 hj2
          simpa [Board_t.get] using this

theorem Board_t.Small.column_le {α : Type} {b : Board_t α} (hb : Board_t.Small b) {k : Nat}
    (hk : k < b.length) : (b.getD k []).length ≤ 255 := by
  apply hb.2
  rw [List.getD_eq_getElem _ _ hk]
  exact List.getElem_mem _

theorem Is9x9.small {α : Type} {b : Board_t α} (h : Is9x9 b) : Board_t.Small b :=
  ⟨by rw [h.1]; omega, fun col hc => by rw [h.2 col hc]; omega⟩

theorem Is9x9.hasCell_iff {α : Type} {b : Board_t α} (h : Is9x9 b) (p : pos_t) :
    Board_t.HasCell b p ↔ InRange p := by
  unfold Board_t.HasCell InRange
  rw [h.1]
  constructor
  · rintro ⟨h1, h2⟩
    rw [h.getD_length h1] at h2
    exact ⟨h1, h2⟩
  · rintro ⟨h1, h2⟩
    rw [h.getD_length h1]
    exact ⟨h1, h2⟩

/-- On a board of at most 255 by 255 cells `find` returns the sentinel when no cell
satisfies the predicate, and otherwise the first satisfying cell in the order that
compares the first coordinate before the second. -/
theorem Board_t.find_cases {α : Type} [Inhabited α] (predicate : α → Bool) {b : Board_t α}
    (hb : Board_t.Small b) :
    ((∀ p, Board_t.HasCell b p → predicate (Board_t.get b p) = false) ∧
      Board_t.find predicate b = (255, 255)) ∨
    (Board_t.HasCell b (Board_t.find predicate b) ∧
      predicate (Board_t.get b (Board_t.find predicate b)) = true ∧
      ∀ p, Board_t.HasCell b p → predicate (Board_t.get b p) = true →
        (Board_t.find predicate b).1 < p.1 ∨
          ((Board_t.find predicate b).1 = p.1 ∧ (Board_t.find predicate b).2 ≤ p.2)) := by
  unfold Board_t.find
  rcases Board_t.findFrom_first predicate b 0 with ⟨h1, h2⟩ | ⟨k, j, hk, hj, hp, he, hm1, hm2⟩
  · left
    refine ⟨?_, h2⟩
    rintro p ⟨hp1, hp2⟩
    have hmem : b.getD p.1 [] ∈ b := by
      rw [List.getD_eq_getElem _ _ hp1]; exact List.getElem_mem _
    have := h1 _ hmem
    rw [List.any_eq_false] at this
    have hx := this ((b.getD p.1 []).getD p.2 default)
      (by rw [List.getD_eq_getElem _ _ hp2]; exact List.getElem_mem _)
    simpa [Board_t.get] using hx
  · right
    have hk2 := hb.1
    have hj2 := hb.column_le hk
    have e : Board_t.findFrom predicate b 0 = (k, j) := by
      rw [he]
      simp only [Nat.zero_add, Prod.mk.injEq]
      omega
    rw [e]
    refine ⟨⟨hk, hj⟩, hp, ?_⟩
    rintro ⟨p1, p2⟩ ⟨hp1, hp2⟩ hpred
    simp only at hp1 hp2 ⊢
    by_contra hcon
    by_cases hlt : p1 < k
    · have := hm1 p1 p2 hlt hp2
      rw [this] at hpred
      exact absurd hpred (by simp)
    · have hkp : p1 = k := by omega
      subst hkp
      have := hm2 p2 (by omega)
      rw [this] at hpred
      exact absurd hpred (by simp)

/-- The set returned by `findAll` is strictly increasing in the order of `pos_t`. -/
theorem Board_t.findAll_pairwise {α : Type} [Inhabited α] (predicate : α → Bool) (b : Board_t α) :
    (Board_t.findAll predicate b).Pairwise (fun x y => posLt x y = true) := by
  unfold Board_t.findAll
  exact foldl_setInsert_pairwise posLt posLt_trans posLt_total _ List.Pairwise.nil

theorem mem_findAllScan {α : Type} [Inhabited α] (predicate : α → Bool) {b : Board_t α}
    (hb : Board_t.Small b) (p : pos_t) :
    p ∈ Board_t.findAllScan predicate b ↔
      Board_t.HasCell b p ∧ predicate (Board_t.get b p) = true := by
  unfold Board_t.findAllScan Board_t.HasCell
  simp only [List.mem_flatMap, List.mem_range, List.mem_map, List.mem_filter]
  constructor
  · rintro ⟨i, hi, j, ⟨hj, hpred⟩, rfl⟩
    have h1 := hb.1
    have h2 := hb.column_le hi
    have e1 : i % 256 = i := by omega
    have e2 : j % 256 = j := by omega
    simp only [e1, e2]
    exact ⟨⟨hi, hj⟩, hpred⟩
  · rintro ⟨⟨h1, h2⟩, hpred⟩
    have h3 := hb.1
    have h4 := hb.column_le h1
    refine ⟨p.1, h1, p.2, ⟨h2, hpred⟩, ?_⟩
    have e1 : p.1 % 256 = p.1 := by omega
    have e2 : p.2 % 256 = p.2 := by omega
    rw [e1, e2]

/-- On a board of at most 255 by 255 cells the set returned by `findAll` holds exactly the
positions of the cells that satisfy the predicate. -/
theorem Board_t.mem_findAll_iff {α : Type} [Inhabited α] (predicate : α → Bool) {b : Board_t α}
    (hb : Board_t.Small b) (p : pos_t) :
    p ∈ Board_t.findAll predicate b ↔
      Board_t.HasCell b p ∧ predicate (Board_t.get b p) = true := by
  unfold Board_t.findAll
  rw [mem_foldl_setInsert posLt posLt_total, mem_findAllScan predicate hb]
  simp

theorem filter_range_length {α : Type} [Inhabited α] (predicate : α → Bool) (l : List α) :
    ((List.range l.length).filter (fun j => predicate (l.getD j default))).length =
      l.countP predicate := by
  have hmap : (List.range l.length).map (fun j => l.getD j default) = l := by
    apply List.ext_getElem
    · simp
    · intro n h1 h2
      simp only [List.getElem_map, List.getElem_range]
      exact List.getD_eq_getElem _ _ h2
  calc ((List.range l.length).filter (fun j => predicate (l.getD j default))).length
      = (List.range l.length).countP (predicate ∘ fun j => l.getD j default) :=
        (List.countP_eq_length_filter _ _).symm
    _ = ((List.range l.length).map (fun j => l.getD j default)).countP predicate :=
        (List.countP_map _ _ _).symm
    _ = l.countP predicate := by rw [hmap]

theorem findAllScan_length {α : Type} [Inhabited α] (predicate : α → Bool) (b : Board_t α) :
    (Board_t.findAllScan predicate b).length = b.flatten.countP predicate := by
  unfold Board_t.findAllScan
  rw [List.length_flatMap, List.countP_flatten]
  congr 1
  apply List.ext_getElem
  · simp
  · intro n h1 h2
    simp only [List.length_map, List.length_range] at h1
    simp only [List.getElem_map, List.getElem_range, Function.comp, List.length_map, Board_t.get]
    rw [List.getD_eq_getElem _ _ h1]
    exact filter_range_length predicate b[n]

theorem findAllScan_nodup {α : Type} [Inhabited α] (predicate : α → Bool) {b : Board_t α}
    (hb : Board_t.Small b) : (Board_t.findAllScan predicate b).Nodup := by
  unfold Board_t.findAllScan
  rw [List.nodup_flatMap]
  constructor
  · intro i hi
    rw [List.mem_range] at hi
    have hlen := hb.column_le hi
    apply List.Nodup.map_on _ ((List.nodup_range _).filter _)
    intro x hx y hy e
    have hx2 := List.mem_range.1 (List.mem_filter.1 hx).1
    have hy2 := List.mem_range.1 (List.mem_filter.1 hy).1
    simp only [Prod.mk.injEq, true_and] at e
    omega
  · apply List.Nodup.pairwise_of_forall_ne (List.nodup_range _)
    intro i hi k hk hne
    rw [List.mem_range] at hi hk
    have h1 := hb.1
    simp only [Function.onFun]
    intro x hx hx2
    simp only [List.mem_map, List.mem_filter] at hx hx2
    obtain ⟨j, _, rfl⟩ := hx
    obtain ⟨j2, _, e⟩ := hx2
    simp only [Prod.mk.injEq] at e
    omega

/-- On a board of at most 255 by 255 cells the size of the set returned by `findAll` is
the number of cells that satisfy the predicate. -/
theorem Board_t.findAll_length {α : Type} [Inhabited α] (predicate : α → Bool) {b : Board_t α}
    (hb : Board_t.Small b) :
    (Board_t.findAll predicate b).length = b.flatten.countP predicate := by
  have hnd1 : (Board_t.findAll predicate b).Nodup := by
    apply (Board_t.findAll_pairwise predicate b).imp
    intro x y h e
    subst e
    rw [posLt_irrefl] at h
    exact absurd h (by simp)
  have hperm : (Board_t.findAll predicate b).Perm (Board_t.findAllScan predicate b) := by
    rw [List.perm_ext_iff_of_nodup hnd1 (findAllScan_nodup predicate hb)]
    intro p
    rw [Board_t.mem_findAll_iff predicate hb, mem_findAllScan predicate hb]
  rw [hperm.length_eq, findAllScan_length]

end malcolm


/-!
## Hypotheses of the bruteforce strategy, `transposed` and the modal value
-/

namespace malcolm

open BoardSolver_t

theorem foldl_filter_map {α β γ : Type} (p : α → Bool) (g : α → β) (step : γ → β → γ) (l : List α)
    (init : γ) :
    ((l.filter p).map g).foldl step init =
      l.foldl (fun acc x => if p x = true then step acc (g x) else acc) init := by
  induction l generalizing init with
  | nil => rfl
  | cons a t ih =>
    by_cases h : p a = true
    · rw [List.filter_cons_of_pos h, List.map_cons, List.foldl_cons, List.foldl_cons, if_pos h, ih]
    · rw [List.filter_cons_of_neg h, List.foldl_cons, if_neg h, ih]

/-- The set returned by `retrieveNextMoves` is the result of inserting the generated
hypotheses, in the order of their generation, into an empty ordered set. -/
theorem retrieveNextMoves_eq (P : PossibilitiesBoard_t) (b : Board_t Int) :
    BruteforceStrategy_t.retrieveNextMoves P b =
      (generationOrder P b).foldl (fun result f => setInsert fieldLt f result) [] := by
  unfold BruteforceStrategy_t.retrieveNextMoves generationOrder
  rw [foldl_flatMap_eq]
  congr 1
  funext result pos
  rw [foldl_flatMap_eq]
  congr 1
  funext result val
  simp only
  split
  · rfl
  · split
    · rw [foldl_filter_map]
      congr 1
      funext acc possibility
      simp only [decide_eq_true_eq]
    · rfl

/-- The set returned by `retrieveNextMoves` is strictly increasing in the order of
`field_t`: position first (first coordinate, then second), then value. -/
theorem retrieveNextMoves_pairwise (P : PossibilitiesBoard_t) (b : Board_t Int) :
    (BruteforceStrategy_t.retrieveNextMoves P b).Pairwise (fun f g => fieldLt f g = true) := by
  rw [retrieveNextMoves_eq]
  exact foldl_setInsert_pairwise fieldLt fieldLt_trans fieldLt_total _ List.Pairwise.nil

theorem mem_retrieveNextMoves_generated (P : PossibilitiesBoard_t) (b : Board_t Int) (f : field_t) :
    f ∈ BruteforceStrategy_t.retrieveNextMoves P b ↔ f ∈ generationOrder P b := by
  rw [retrieveNextMoves_eq, mem_foldl_setInsert fieldLt fieldLt_total]
  simp

theorem boxOf_nodup (p : pos_t) : (boxOf p).Nodup := by
  simp only [boxOf, List.flatMap_cons, List.flatMap_nil, List.map_cons, List.map_nil, List.cons_append,
    List.nil_append, List.append_nil, List.nodup_cons, List.mem_cons, Prod.mk.injEq,
    List.mem_singleton, List.mem_nil_iff, or_false, List.not_mem_nil, not_false_eq_true,
    List.nodup_nil, and_true]
  omega

/-- Counting over the box in the order of `copyNeighborhood` or in the order of `boxOf`
gives the same number. -/
theorem countP_boxCells_eq {p : pos_t} (pred : pos_t → Bool) :
    (boxCells (utils.getLocalCenter p)).countP pred = (boxOf p).countP pred := by
  have c1 : 1 ≤ (utils.getLocalCenter p).1 := by rw [getLocalCenter_fst]; omega
  have c2 : 1 ≤ (utils.getLocalCenter p).2 := by rw [getLocalCenter_snd]; omega
  apply List.Perm.countP_eq
  rw [List.perm_ext_iff_of_nodup (boxCells_nodup c1 c2) (boxOf_nodup p)]
  intro q
  rw [mem_boxCells_center, mem_boxOf]

/-- Membership in the generated hypotheses, in terms of the loops of `retrieveNextMoves`. -/
theorem mem_generationOrder {P : PossibilitiesBoard_t} (hP : Is9x9 P) (b : Board_t Int) (f : field_t) :
    f ∈ generationOrder P b ↔
      InRange f.1 ∧ f.2 ∈ target ∧ f.2 ∉ Board_t.getNeighborhood b (utils.getLocalCenter f.1) ∧
      f.2 ∈ Board_t.get P f.1 ∧
      (boxCells (utils.getLocalCenter f.1)).countP (fun q => (Board_t.get P q).contains f.2) = 2 := by
  unfold generationOrder
  simp only [List.mem_flatMap]
  constructor
  · rintro ⟨pos, hpos, val, hval, hbody⟩
    have hcc := getLocalCenter_of_mem_centers hpos
    split at hbody
    · exact absurd hbody (List.not_mem_nil _)
    · next hnc =>
      split at hbody
      · next hcount =>
        simp only [List.mem_map, List.mem_filter, decide_eq_true_eq] at hbody
        obtain ⟨q, ⟨hq, hc1, hc2⟩, rfl⟩ := hbody
        have hm := (Board_t.mem_findAll_iff _ hP.small q).1 hq
        have hcenter : utils.getLocalCenter q = pos := Prod.ext hc1 hc2
        simp only
        rw [hcenter]
        rw [Board_t.count_copyNeighborhood, hcc.1] at hcount
        refine ⟨(hP.hasCell_iff q).1 hm.1, hval, ?_, (contains_eq_true_iff _ _).1 hm.2, by omega⟩
        intro hmem
        exact hnc ((contains_eq_true_iff _ _).2 hmem)
      · exact absurd hbody (List.not_mem_nil _)
  · rintro ⟨hin, hval, hnb, hmem, hcount⟩
    obtain ⟨q, val⟩ := f
    simp only at hin hval hnb hmem hcount
    have hc := getLocalCenter_mem_centers hin
    have hcc := getLocalCenter_of_mem_centers hc
    refine ⟨utils.getLocalCenter q, hc, val, hval, ?_⟩
    rw [if_neg (fun h => hnb ((contains_eq_true_iff _ _).1 h)), Board_t.count_copyNeighborhood, hcc.1,
      hcount, if_pos (by omega)]
    simp only [List.mem_map, List.mem_filter, decide_eq_true_eq, Prod.mk.injEq, and_true,
      exists_eq_right]
    exact (Board_t.mem_findAll_iff _ hP.small q).2
      ⟨(hP.hasCell_iff q).2 hin, (contains_eq_true_iff _ _).2 hmem⟩

/-- The method `transposed` returns a copy of the board with the same columns. -/
theorem Board_t.transposed_eq {α : Type} (b : Board_t α) : Board_t.transposed b = b := by
  have key : ∀ n, n ≤ b.length →
      (List.range n).foldl (fun result i => result ++ [b.getD i []]) [] = b.take n := by
    intro n
    induction n with
    | zero => intro _; rfl
    | succ n ih =>
      intro hn
      have hlt : n < b.length := by omega
      rw [List.range_succ, List.foldl_append, ih (by omega), List.foldl_cons, List.foldl_nil,
        List.take_succ, List.getD_eq_getElem _ _ hlt, List.getElem?_eq_getElem hlt]
      rfl
  unfold Board_t.transposed
  rw [key b.length (le_refl _), List.take_length]

/-- Entering a value keeps the keys of the map strictly increasing. -/
theorem occurenciesInsert_pairwise (v : Int) {M : List (Int × Nat)}
    (hs : M.Pairwise (fun e1 e2 => e1.1 < e2.1)) :
    (Board_t.occurenciesInsert v M).Pairwise (fun e1 e2 => e1.1 < e2.1) := by
  induction M with
  | nil => simp [Board_t.occurenciesInsert]
  | cons e t ih =>
    obtain ⟨k0, c0⟩ := e
    rw [List.pairwise_cons] at hs
    unfold Board_t.occurenciesInsert
    by_cases h1 : v < k0
    · rw [if_pos h1]
      refine List.pairwise_cons.2 ⟨?_, List.pairwise_cons.2 hs⟩
      intro x hx
      rcases List.mem_cons.1 hx with e | e
      · rw [e]; exact h1
      · have := hs.1 x e
        simp only at this ⊢
        omega
    · rw [if_neg h1]
      by_cases h2 : k0 < v
      · rw [if_pos h2]
        refine List.pairwise_cons.2 ⟨?_, ih hs.2⟩
        intro x hx
        have hkeys : ∀ (M : List (Int × Nat)) (x : Int × Nat), x ∈ Board_t.occurenciesInsert v M →
            x.1 = v ∨ x ∈ M := by
          intro M
          induction M with
          | nil =>
            intro x hx
            simp only [Board_t.occurenciesInsert, List.mem_singleton] at hx
            left; rw [hx]
          | cons e2 t2 ih2 =>
            intro x hx
            obtain ⟨k2, c2⟩ := e2
            unfold Board_t.occurenciesInsert at hx
            split at hx
            · rcases List.mem_cons.1 hx with e | e
              · left; rw [e]
              · exact Or.inr e
            · split at hx
              · rcases List.mem_cons.1 hx with e | e
                · right; rw [e]; exact List.mem_cons_self _ _
                · rcases ih2 x e with r | r
                  · exact Or.inl r
                  · exact Or.inr (List.mem_cons_of_mem _ r)
              · rcases List.mem_cons.1 hx with e | e
                · left; rw [e]; simp only; omega
                · exact Or.inr (List.mem_cons_of_mem _ e)
        rcases hkeys t x hx with r | r
        · simp only; omega
        · exact hs.1 x r
      · rw [if_neg h2]
        refine List.pairwise_cons.2 ⟨?_, hs.2⟩
        intro x hx
        exact hs.1 x hx

/-- The entries of the map after entering `v`: the entries of the other keys are kept,
and the entry of `v` is 1 if `v` was no key, its counter plus one (in 8 bits) otherwise. -/
theorem mem_occurenciesInsert (v : Int) {M : List (Int × Nat)}
    (hs : M.Pairwise (fun e1 e2 => e1.1 < e2.1)) (k : Int) (c : Nat) :
    (k, c) ∈ Board_t.occurenciesInsert v M ↔
      (k ≠ v ∧ (k, c) ∈ M) ∨
      (k = v ∧ ((c = 1 ∧ ∀ c0, (v, c0) ∉ M) ∨ ∃ c0, (v, c0) ∈ M ∧ c = (c0 + 1) % 256)) := by
  induction M with
  | nil =>
    simp [Board_t.occurenciesInsert]
  | cons e t ih =>
    obtain ⟨k0, c0⟩ := e
    rw [List.pairwise_cons] at hs
    have hgt : ∀ c1, (v, c1) ∈ t → k0 < v := fun c1 h => hs.1 _ h
    unfold Board_t.occurenciesInsert
    by_cases h1 : v < k0
    · rw [if_pos h1]
      have hno : ∀ c1, (v, c1) ∉ (k0, c0) :: t := by
        intro c1 h
        rcases List.mem_cons.1 h with e | e
        · simp only [Prod.mk.injEq] at e; omega
        · have := hgt c1 e; omega
      constructor
      · intro h
        rcases List.mem_cons.1 h with e | e
        · simp only [Prod.mk.injEq] at e
          exact Or.inr ⟨e.1, Or.inl ⟨e.2, hno⟩⟩
        · by_cases hk : k = v
          · subst hk; exact absurd e (hno c)
          · exact Or.inl ⟨hk, e⟩
      · rintro (⟨_, h⟩ | ⟨hk, (⟨hc, _⟩ | ⟨c1, h, _⟩)⟩)
        · exact List.mem_cons_of_mem _ h
        · rw [hk, hc]; exact List.mem_cons_self _ _
        · exact absurd h (hno c1)
    · rw [if_neg h1]
      by_cases h2 : k0 < v
      · rw [if_pos h2]
        have hne : k0 ≠ v := by omega
        rw [List.mem_cons, ih hs.2]
        constructor
        · rintro (e | ⟨hk, h⟩ | ⟨hk, (⟨hc, hno⟩ | ⟨c1, h, hc⟩)⟩)
          · simp only [Prod.mk.injEq] at e
            exact Or.inl ⟨by omega, by rw [e.1, e.2]; exact List.mem_cons_self _ _⟩
          · exact Or.inl ⟨hk, List.mem_cons_of_mem _ h⟩
          · refine Or.inr ⟨hk, Or.inl ⟨hc, ?_⟩⟩
            intro c1 h
            rcases List.mem_cons.1 h with e | e
            · simp only [Prod.mk.injEq] at e; omega
            · exact hno c1 e
          · exact Or.inr ⟨hk, Or.inr ⟨c1, List.mem_cons_of_mem _ h, hc⟩⟩
        · rintro (⟨hk, h⟩ | ⟨hk, (⟨hc, hno⟩ | ⟨c1, h, hc⟩)⟩)
          · rcases List.mem_cons.1 h with e | e
            · exact Or.inl e
            · exact Or.inr (Or.inl ⟨hk, e⟩)
          · exact Or.inr (Or.inr ⟨hk, Or.inl ⟨hc, fun c1 h => hno c1 (List.mem_cons_of_mem _ h)⟩⟩)
          · rcases List.mem_cons.1 h with e | e
            · simp only [Prod.mk.injEq] at e; omega
            · exact Or.inr (Or.inr ⟨hk, Or.inr ⟨c1, e, hc⟩⟩)
      · rw [if_neg h2]
        have hkv : k0 = v := by omega
        subst hkv
        have hno : ∀ c1, (k0, c1) ∉ t := by
          intro c1 h
          have := hgt c1 h; omega
        rw [List.mem_cons]
        constructor
        · rintro (e | e)
          · simp only [Prod.mk.injEq] at e
            exact Or.inr ⟨e.1, Or.inr ⟨c0, List.mem_cons_self _ _, e.2⟩⟩
          · by_cases hk : k = k0
            · subst hk; exact absurd e (hno c)
            · exact Or.inl ⟨hk, List.mem_cons_of_mem _ e⟩
        · rintro (⟨hk, h⟩ | ⟨hk, (⟨_, hnone⟩ | ⟨c1, h, hc⟩)⟩)
          · rcases List.mem_cons.1 h with e | e
            · simp only [Prod.mk.injEq] at e; exact absurd e.1 hk
            · exact Or.inr e
          · exact absurd (List.mem_cons_self _ _) (hnone c0)
          · rcases List.mem_cons.1 h with e | e
            · simp only [Prod.mk.injEq, true_and] at e
              left; rw [hk, hc, e]
            · exact absurd e (hno c1)

end malcolm


/-!
## The modal value
-/

namespace malcolm

open BoardSolver_t

/-- The map `occurencies` is filled cell by cell in the order of the scan. -/
theorem occurencies_eq (b : Board_t Int) :
    Board_t.occurencies b = b.flatten.foldl (fun m v => Board_t.occurenciesInsert v m) [] := by
  unfold Board_t.occurencies
  rw [List.foldl_flatten]

/-- After fewer than 256 cells the map holds, in increasing key order, exactly the values
met so far, each with the number of cells that hold it. -/
theorem occurencies_fold_spec (l : List Int) (hl : l.length < 256) :
    (l.foldl (fun m v => Board_t.occurenciesInsert v m) []).Pairwise (fun e1 e2 => e1.1 < e2.1) ∧
    ∀ k c, (k, c) ∈ l.foldl (fun m v => Board_t.occurenciesInsert v m) [] ↔
      0 < l.count k ∧ c = l.count k := by
  induction l using List.reverseRecOn with
  | nil => simp
  | append_singleton l v ih =>
    have hlen : l.length + 1 < 256 := by simpa using hl
    obtain ⟨hs, hm⟩ := ih (by omega)
    rw [List.foldl_append, List.foldl_cons, List.foldl_nil]
    refine ⟨occurenciesInsert_pairwise v hs, ?_⟩
    intro k c
    rw [mem_occurenciesInsert v hs, List.count_append, List.count_singleton]
    have hle : l.count v ≤ l.length := List.count_le_length _ _
    by_cases hk : k = v
    · subst hk
      simp only [ne_eq, not_true_eq_false, false_and, true_and, false_or, beq_self_eq_true, ite_true]
      constructor
      · rintro (⟨hc, hno⟩ | ⟨c0, h, hc⟩)
        · have : l.count k = 0 := by
            by_contra hne
            exact hno (l.count k) ((hm k _).2 ⟨by omega, rfl⟩)
          omega
        · have := (hm k c0).1 h
          omega
      · rintro ⟨_, hc⟩
        by_cases h0 : l.count k = 0
        · left
          refine ⟨by omega, ?_⟩
          intro c0 h
          have := (hm k c0).1 h
          omega
        · right
          exact ⟨l.count k, (hm k _).2 ⟨by omega, rfl⟩, by omega⟩
    · have hvk : (v == k) = false := by
        simpa using fun h : v = k => hk h.symm
      simp only [hk, ne_eq, not_false_eq_true, true_and, false_and, or_false, hvk,
        Bool.false_eq_true, ite_false, Nat.add_zero]
      exact hm k c

/-- The loop over the map keeps the first entry with the largest counter among the
entries whose counter is positive and below `n`. -/
theorem modal_fold_spec (n : Nat) (M : List (Int × Nat)) :
    (M.foldl (fun (r : Option Int × Nat) (e : Int × Nat) =>
        if e.2 > r.2 ∧ e.2 < n then (some e.1, e.2) else r) (none, 0) = (none, 0) ∧
      ∀ e ∈ M, ¬ (0 < e.2 ∧ e.2 < n)) ∨
    ∃ v c, M.foldl (fun (r : Option Int × Nat) (e : Int × Nat) =>
        if e.2 > r.2 ∧ e.2 < n then (some e.1, e.2) else r) (none, 0) = (some v, c) ∧
      (v, c) ∈ M ∧ 0 < c ∧ c < n ∧ ∀ e ∈ M, e.2 < n → e.2 ≤ c := by
  induction M using List.reverseRecOn with
  | nil => left; simp
  | append_singleton M e ih =>
    rw [List.foldl_append, List.foldl_cons, List.foldl_nil]
    rcases ih with ⟨h0, hno⟩ | ⟨v, c, hr, hmem, hpos, hlt, hmax⟩
    · rw [h0]
      simp only
      by_cases he : e.2 > 0 ∧ e.2 < n
      · right
        rw [if_pos he]
        refine ⟨e.1, e.2, rfl, by simp, he.1, he.2, ?_⟩
        intro x hx hxn
        rcases List.mem_append.1 hx with h | h
        · have := hno x h
          omega
        · rw [List.mem_singleton] at h
          rw [h]
      · left
        rw [if_neg he]
        refine ⟨rfl, ?_⟩
        intro x hx
        rcases List.mem_append.1 hx with h | h
        · exact hno x h
        · rw [List.mem_singleton] at h
          rw [h]
          exact he
    · right
      rw [hr]
      simp only
      by_cases he : e.2 > c ∧ e.2 < n
      · rw [if_pos he]
        refine ⟨e.1, e.2, rfl, by simp, by omega, he.2, ?_⟩
        intro x hx hxn
        rcases List.mem_append.1 hx with h | h
        · have := hmax x h hxn
          omega
        · rw [List.mem_singleton] at h
          rw [h]
      · rw [if_neg he]
        refine ⟨v, c, rfl, List.mem_append_left _ hmem, hpos, hlt, ?_⟩
        intro x hx hxn
        rcases List.mem_append.1 hx with h | h
        · exact hmax x h hxn
        · rw [List.mem_singleton] at h
          rw [h] at hxn ⊢
          omega

/-- The result of `getModalValueAndCount` on a grid of fewer than 256 cells: either no
assignment was made, the count is 0 and no value occurs at least once and fewer times
than there are columns; or the value occurs `c` times, `c` is positive and below the
number of columns, and no value occurring fewer times than there are columns occurs more
often. -/
theorem getModalValueAndCount_spec (b : Board_t Int) (hb : b.flatten.length < 256) :
    (Board_t.getModalValueAndCount b = (none, 0) ∧
      ∀ w, ¬ (0 < occurrencesOf b w ∧ occurrencesOf b w < b.length)) ∨
    ∃ v c, Board_t.getModalValueAndCount b = (some v, c) ∧ c = occurrencesOf b v ∧ 0 < c ∧
      c < b.length ∧ ∀ w, occurrencesOf b w < b.length → occurrencesOf b w ≤ c := by
  obtain ⟨_, hm⟩ := occurencies_fold_spec b.flatten hb
  rw [← occurencies_eq] at hm
  unfold Board_t.getModalValueAndCount occurrencesOf
  rcases modal_fold_spec b.length (Board_t.occurencies b) with ⟨h0, hno⟩ | ⟨v, c, hr, hmem, hpos, hlt, hmax⟩
  · left
    refine ⟨h0, ?_⟩
    intro w hw
    exact hno (w, b.flatten.count w) ((hm w _).2 ⟨hw.1, rfl⟩) hw
  · right
    have hc := ((hm v c).1 hmem).2
    refine ⟨v, c, hr, hc, hpos, hlt, ?_⟩
    intro w hw
    by_cases h0 : b.flatten.count w = 0
    · omega
    · exact hmax (w, b.flatten.count w) ((hm w _).2 ⟨by omega, rfl⟩) hw

end malcolm


/-!
## The cleaner in closed form

The cells at which `smartclean` erases the digit are computed from the grid and the
digit; on a 9x9 candidate board the call is the erasure of the digit at these cells.
-/

namespace malcolm

open BoardSolver_t SmartCleaner_t

theorem setErase_of_count_eq_zero (s : List Int) (v : Int) (h : s.count v = 0) : setErase s v = s := by
  unfold setErase
  rw [List.filter_eq_self]
  intro a ha
  simp only [bne_iff_ne, ne_eq]
  rintro rfl
  have := List.count_pos_iff.2 ha
  omega

theorem setErase_comm (s : List Int) (v w : Int) :
    setErase (setErase s v) w = setErase (setErase s w) v := by
  unfold setErase
  rw [List.filter_filter, List.filter_filter]
  congr 1
  funext a
  exact Bool.and_comm _ _

/-- Erasing a value that the cell does not list leaves the candidate board as it is. -/
theorem eraseFrom_of_absent {P : PossibilitiesBoard_t} (h : Is9x9 P) (c : pos_t) (v : Int)
    (habs : (Board_t.get P c).count v = 0) : eraseFrompossibilities_board P c v = P := by
  apply Board_t.ext9 (eraseFrom_9x9 h c v) h
  intro q _
  rw [eraseFrom_get h]
  split
  · next e => rw [e, setErase_of_count_eq_zero _ _ habs]
  · rfl

theorem foldl_congr_inv {α β : Type} (I : β → Prop) (f g : β → α → β) (l : List α)
    (hI : ∀ acc a, I acc → I (g acc a)) (hfg : ∀ acc a, I acc → f acc a = g acc a) {init : β}
    (h : I init) : l.foldl f init = l.foldl g init := by
  induction l generalizing init with
  | nil => rfl
  | cons a t ih =>
    rw [List.foldl_cons, List.foldl_cons, hfg init a h]
    exact ih (hI init a h)

/-- The final loop of `smartclean` for one box erases the digit at the cells of the
allowed column whose local center is not the center of the box. -/
theorem eraseInAllowedColumn_eq {P : PossibilitiesBoard_t} (h : Is9x9 P) (goal : Int) (x : pos_t)
    (a : Int) :
    eraseInAllowedColumn P goal x a =
      (((List.range 9).filter (fun i =>
        !decide ((utils.getLocalCenter (a.toNat % 256, i % 256)).1 = x.1 ∧
          (utils.getLocalCenter (a.toNat % 256, i % 256)).2 = x.2))).map
        (fun i => (a.toNat % 256, i % 256))).foldl
        (fun P c => eraseFrompossibilities_board P c goal) P := by
  unfold eraseInAllowedColumn
  rw [h.getSize, foldl_filter_map]
  apply foldl_congr_inv Is9x9 _ _ _ _ _ h
  · intro acc i hacc
    split
    · exact eraseFrom_9x9 hacc _ _
    · exact hacc
  · intro acc i hacc
    simp only
    by_cases hc : (utils.getLocalCenter (a.toNat % 256, i % 256)).1 = x.1 ∧
        (utils.getLocalCenter (a.toNat % 256, i % 256)).2 = x.2
    · simp [hc]
    · rw [if_neg hc]
      have hd : (!decide ((utils.getLocalCenter (a.toNat % 256, i % 256)).1 = x.1 ∧
          (utils.getLocalCenter (a.toNat % 256, i % 256)).2 = x.2)) = true := by
        simp only [Bool.not_eq_true', decide_eq_false_iff_not]
        exact hc
      rw [if_pos hd]
      split
      · rfl
      · next hz =>
        exact (eraseFrom_of_absent hacc _ _ (by omega)).symm

/-- The body of the loop over the box centers erases the digit at the cells listed by
`cleanedCellsOf`. -/
theorem smartcleanCenter_eq (b : Board_t Int) (d : Int) {P : PossibilitiesBoard_t} (h : Is9x9 P)
    (x : pos_t) :
    smartcleanCenter b d P x =
      (cleanedCellsOf b d x).foldl (fun P c => eraseFrompossibilities_board P c d) P := by
  unfold smartcleanCenter cleanedCellsOf
  simp only
  split
  · rfl
  · split
    · exact eraseInAllowedColumn_eq h d x _
    · rfl

/-- On a 9x9 candidate board `smartclean` is the erasure of the digit at the cells listed
by `cleanedCells`. -/
theorem smartclean_eq_foldl (b : Board_t Int) {P : PossibilitiesBoard_t} (h : Is9x9 P) (d : Int) :
    smartclean b P d = (cleanedCells b d).foldl (fun P c => eraseFrompossibilities_board P c d) P := by
  unfold smartclean cleanedCells
  simp only
  split
  · rfl
  · rw [foldl_flatMap_eq]
    exact foldl_congr_inv Is9x9 _ _ _ (fun acc x hacc => (foldl_erase hacc _ d).1)
      (fun acc x hacc => smartcleanCenter_eq b d hacc x) h

theorem smartclean_9x9 (b : Board_t Int) {P : PossibilitiesBoard_t} (h : Is9x9 P) (d : Int) :
    Is9x9 (smartclean b P d) := by
  rw [smartclean_eq_foldl b h d]
  exact (foldl_erase h _ d).1

/-- Cell by cell: `smartclean` erases the digit from the candidate sets of the cells of
`cleanedCells` and leaves every other candidate set as it is. -/
theorem smartclean_get (b : Board_t Int) {P : PossibilitiesBoard_t} (h : Is9x9 P) (d : Int)
    (q : pos_t) :
    Board_t.get (smartclean b P d) q =
      if q ∈ cleanedCells b d then setErase (Board_t.get P q) d else Board_t.get P q := by
  rw [smartclean_eq_foldl b h d]
  exact (foldl_erase h _ d).2 q

theorem smartclean_idem (b : Board_t Int) {P : PossibilitiesBoard_t} (h : Is9x9 P) (d : Int) :
    smartclean b (smartclean b P d) d = smartclean b P d := by
  have h1 := smartclean_9x9 b h d
  apply Board_t.ext9 (smartclean_9x9 b h1 d) h1
  intro q _
  rw [smartclean_get b h1, smartclean_get b h]
  split
  · exact setErase_idem _ _
  · rfl

theorem smartclean_comm (b : Board_t Int) {P : PossibilitiesBoard_t} (h : Is9x9 P) (d e : Int) :
    smartclean b (smartclean b P d) e = smartclean b (smartclean b P e) d := by
  have h1 := smartclean_9x9 b h d
  have h2 := smartclean_9x9 b h e
  apply Board_t.ext9 (smartclean_9x9 b h1 e) (smartclean_9x9 b h2 d)
  intro q _
  rw [smartclean_get b h1, smartclean_get b h2, smartclean_get b h, smartclean_get b h]
  by_cases hd : q ∈ cleanedCells b d <;> by_cases he : q ∈ cleanedCells b e <;>
    simp only [hd, he, if_true, if_false]
  exact setErase_comm _ _ _

/-- The candidate sets after the calls of `smartclean` for a list of digits: a digit of
the list is dropped from a cell exactly when the cell is one of its cleaned cells. -/
theorem foldl_smartclean_get (b : Board_t Int) (ds : List Int) :
    ∀ {P : PossibilitiesBoard_t}, Is9x9 P →
      Is9x9 (ds.foldl (fun P (x : Int) => smartclean b P x) P) ∧
      ∀ q, Board_t.get (ds.foldl (fun P (x : Int) => smartclean b P x) P) q =
        (Board_t.get P q).filter (fun v => decide (∀ d ∈ ds, q ∈ cleanedCells b d → v ≠ d)) := by
  induction ds with
  | nil =>
    intro P h
    refine ⟨h, fun q => ?_⟩
    simp
  | cons d t ih =>
    intro P h
    have h1 := smartclean_9x9 b h d
    obtain ⟨i1, i2⟩ := ih h1
    rw [List.foldl_cons]
    refine ⟨i1, fun q => ?_⟩
    rw [i2 q, smartclean_get b h]
    by_cases hq : q ∈ cleanedCells b d
    · rw [if_pos hq]
      unfold setErase
      rw [List.filter_filter]
      apply List.filter_congr
      intro v _
      simp only [List.mem_cons, forall_eq_or_imp, hq, true_implies, Bool.decide_and, bne_iff_ne,
        ne_eq, Bool.and_comm, decide_not]
      rfl
    · rw [if_neg hq]
      apply List.filter_congr
      intro v _
      simp only [List.mem_cons, forall_eq_or_imp, hq, false_implies, true_and]

/-- A second cleaning pass on the same grid changes nothing. -/
theorem smartcleanPossibilitiesBoard_twice (b : Board_t Int) {P P1 : PossibilitiesBoard_t}
    (h : Is9x9 P) (hok : smartcleanPossibilitiesBoard b P = Except.ok P1) :
    smartcleanPossibilitiesBoard b P1 = Except.ok P1 := by
  unfold smartcleanPossibilitiesBoard at hok ⊢
  split at hok
  · exact absurd hok (by simp)
  · next hz =>
    rw [if_neg hz]
    simp only [Except.ok.injEq] at hok ⊢
    obtain ⟨a1, a2⟩ := foldl_smartclean_get b [1, 2, 3, 4, 5, 6, 7, 8, 9] h
    rw [hok] at a1 a2
    obtain ⟨c1, c2⟩ := foldl_smartclean_get b [1, 2, 3, 4, 5, 6, 7, 8, 9] a1
    apply Board_t.ext9 c1 a1
    intro q _
    rw [c2 q, a2 q, List.filter_filter]
    apply List.filter_congr
    intro v _
    simp

end malcolm


/-!
## The bruteforce pass on a valid grid

On a grid of the data model that the validator accepts, with candidates that avoid the
digits of the row, the column and the box, every hypothesis gives a valid scenario with
an empty cell, so every nested session that returns gives a valid grid with an empty
cell and the pass leaves the parent state alone.
-/

namespace malcolm

open BoardSolver_t

/-- Writing into a cell a value that no peer of the cell holds keeps the grid free of
conflicts. -/
theorem noConflict_set_of_fresh {b : Board_t Int} (hb : Is9x9 b) (hn : NoConflict b) {f : field_t}
    (hf : InRange f.1) (hfresh : ∀ q, InRange q → Peers f.1 q → Board_t.get b q ≠ f.2) :
    NoConflict (Board_t.set b f.1 f.2) := by
  rw [noConflict_iff_peers] at hn ⊢
  intro p q hp hq hpq heq
  by_cases e1 : p = f.1
  · exfalso
    have e2 : q ≠ f.1 := fun e => hpq.1 (e1.trans e.symm)
    rw [e1, Board_t.get_set_self hb hf, Board_t.get_set_ne _ _ e2] at heq
    exact hfresh q hq (e1 ▸ hpq) heq.symm
  · by_cases e2 : q = f.1
    · exfalso
      rw [e2, Board_t.get_set_self hb hf, Board_t.get_set_ne _ _ e1] at heq
      have hpeer : Peers f.1 p := by
        obtain ⟨h1, h2⟩ := hpq
        rw [e2] at h1 h2
        refine ⟨fun e => e1 e.symm, ?_⟩
        rcases h2 with h | h | h
        · exact Or.inl h.symm
        · exact Or.inr (Or.inl h.symm)
        · exact Or.inr (Or.inr ⟨h.1.symm, h.2.symm⟩)
      exact hfresh p hp hpeer heq
    · rw [Board_t.get_set_ne _ _ e1, Board_t.get_set_ne _ _ e2] at heq
      rw [Board_t.get_set_ne _ _ e1]
      exact hn p q hp hq hpq heq

/-- The nested session of a hypothesis on a 9x9 scenario: it never uses up its
iteration bound, it keeps the session invariant with respect to the scenario, and it
returns either the scenario itself or a grid with an empty cell. -/
theorem scenario_solved_spec {scenario : Board_t Int} (h9 : Is9x9 scenario) {field : field_t}
    (hf : InRange field.1) :
    (∀ t, scenario_solved scenario field ≠ Outcome.exhausted t) ∧
    SessionInv scenario (scenario_solved scenario field).state ∧
    ∀ r, scenario_solved scenario field = Outcome.returned r →
      (r.copy = scenario ∨ Board_t.count (fun v => v == 0) r.copy ≠ 0) := by
  unfold scenario_solved solveNested
  have hc0 := constructPossibilities_consistent h9
  have hc := hc0.of_shrinks (postprocessInsertion_shrinks hc0.poss9 hf)
  generalize hs0 : Session.mk scenario (postprocessInsertion (constructPossibilities scenario) field) []
    = s0
  have e1 : s0.copy = scenario := by rw [← hs0]
  have e2 : s0.m_current_possibilities =
      postprocessInsertion (constructPossibilities scenario) field := by rw [← hs0]
  have e3 : s0.written = [] := by rw [← hs0]
  have hi : SessionInv scenario s0 := by
    refine ⟨by rw [e1, e2]; exact hc, ?_, ?_, ?_⟩
    · rw [e3, e1]; rfl
    · rw [e1]; exact ⟨h9, fun _ _ _ => rfl, fun h => h⟩
    · intro e he
      rw [e3] at he
      exact absurd he (List.not_mem_nil _)
  have hlt : openCells s0.m_current_possibilities <
      fuelFor (postprocessInsertion (constructPossibilities scenario) field) := by
    rw [e2]; unfold fuelFor; omega
  obtain ⟨a1, a2, a3⟩ := solveWith_spec (sessionInv_loopInvariant scenario)
    (returned_runnerOk _) false _ s0 hi hlt
  refine ⟨a1, a2, ?_⟩
  intro r hr
  rcases (a3 r hr).2 with ⟨_, e⟩ | e
  · left; rw [e, e1]
  · exact Or.inr e

/-- Nine cells holding digits that are different from cell to cell hold every digit. -/
theorem values_cover {b : Board_t Int} (cells : List pos_t) (hlen : cells.length = 9)
    (hnd : cells.Nodup) (hdig : ∀ p ∈ cells, Board_t.get b p ∈ target)
    (hinj : ∀ p ∈ cells, ∀ q ∈ cells, Board_t.get b p = Board_t.get b q → p = q) {d : Int}
    (hd : d ∈ target) : ∃ r ∈ cells, Board_t.get b r = d := by
  have hnd2 : (cells.map (Board_t.get b)).Nodup := by
    rw [List.nodup_map_iff_inj_on hnd]
    exact hinj
  have hsub : cells.map (Board_t.get b) ⊆ target := by
    intro v hv
    obtain ⟨r, hr, rfl⟩ := List.mem_map.1 hv
    exact hdig r hr
  have hperm := (List.subperm_of_subset hnd2 hsub).perm_of_length_le (by simp [hlen, target])
  obtain ⟨r, hr, e⟩ := List.mem_map.1 (hperm.mem_iff.2 hd)
  exact ⟨r, hr, e⟩

/-- On a valid grid of the data model, a cell that lists a digit absent from its row and
from its column has an empty cell in its row or column, away from any given other
cell. -/
theorem exists_empty_elsewhere {b : Board_t Int} (hg : IsGrid b) (hn : NoConflict b)
    {P : PossibilitiesBoard_t} (hav : AvoidsPresent b P) {f : field_t} (hd : f.2 ∈ target)
    {q : pos_t} (hq : InRange q) (hne : q ≠ f.1) (hmem : f.2 ∈ Board_t.get P q) :
    ∃ r, r ≠ f.1 ∧ InRange r ∧ Board_t.get b r = 0 := by
  by_contra hall
  push_neg at hall
  have habs := hav q ((mem_allCells q).2 hq) f.2 hmem
  rw [mem_unitValues] at habs
  have hdig : ∀ r, r ≠ f.1 → InRange r → Board_t.get b r ∈ target := by
    intro r hr1 hr2
    have h0 := hall r hr1 hr2
    have h1 := hg.2 r ((mem_allCells r).2 hr2)
    rw [mem_target]
    omega
  have hcase : q.1 ≠ f.1.1 ∨ q.2 ≠ f.1.2 := by
    by_contra hboth
    push_neg at hboth
    exact hne (Prod.ext hboth.1 hboth.2)
  rcases hcase with hx | hy
  · have hcells : ∀ p ∈ (List.range 9).map (fun y => ((q.1, y) : pos_t)),
        p ≠ f.1 ∧ InRange p ∧ p.1 = q.1 := by
      intro p hp
      obtain ⟨y, hy, rfl⟩ := List.mem_map.1 hp
      exact ⟨fun e => hx (by rw [← e]), ⟨hq.1, List.mem_range.1 hy⟩, rfl⟩
    obtain ⟨r, hr, e⟩ := values_cover (b := b) ((List.range 9).map (fun y => ((q.1, y) : pos_t)))
      (by simp)
      ((List.nodup_range 9).map (fun y1 y2 e => by simpa using e))
      (fun p hp => hdig p (hcells p hp).1 (hcells p hp).2.1)
      (by
        intro p1 hp1 p2 hp2 e
        by_contra hne2
        have h1 := hcells p1 hp1
        have h2 := hcells p2 hp2
        have hz := (noConflict_iff_peers b).1 hn p1 p2 h1.2.1 h2.2.1
          ⟨hne2, Or.inl (h1.2.2.trans h2.2.2.symm)⟩ e
        exact hall p1 h1.1 h1.2.1 hz) hd
    exact habs ⟨r, (hcells r hr).2.1, Or.inl (hcells r hr).2.2, e⟩
  · have hcells : ∀ p ∈ (List.range 9).map (fun x => ((x, q.2) : pos_t)),
        p ≠ f.1 ∧ InRange p ∧ p.2 = q.2 := by
      intro p hp
      obtain ⟨x, hx, rfl⟩ := List.mem_map.1 hp
      exact ⟨fun e => hy (by rw [← e]), ⟨List.mem_range.1 hx, hq.2⟩, rfl⟩
    obtain ⟨r, hr, e⟩ := values_cover (b := b) ((List.range 9).map (fun x => ((x, q.2) : pos_t)))
      (by simp)
      ((List.nodup_range 9).map (fun x1 x2 e => by simpa using e))
      (fun p hp => hdig p (hcells p hp).1 (hcells p hp).2.1)
      (by
        intro p1 hp1 p2 hp2 e
        by_contra hne2
        have h1 := hcells p1 hp1
        have h2 := hcells p2 hp2
        have hz := (noConflict_iff_peers b).1 hn p1 p2 h1.2.1 h2.2.1
          ⟨hne2, Or.inr (Or.inl (h1.2.2.trans h2.2.2.symm))⟩ e
        exact hall p1 h1.1 h1.2.1 hz) hd
    exact habs ⟨r, (hcells r hr).2.1, Or.inr (Or.inl (hcells r hr).2.2), e⟩

/-- Every hypothesis generated from a valid grid and candidates that avoid the digits of
the units gives a scenario that is free of conflicts and has an empty cell. -/
theorem scenario_of_avoids {b : Board_t Int} (hg : IsGrid b) (hn : NoConflict b)
    {P : PossibilitiesBoard_t} (hP : Is9x9 P) (hav : AvoidsPresent b P) {f : field_t}
    (hf : f ∈ BruteforceStrategy_t.retrieveNextMoves P b) :
    InRange f.1 ∧ NoConflict (Board_t.set b f.1 f.2) ∧
      ScenarioOk b (Board_t.set b f.1 f.2, f) := by
  obtain ⟨h1, h2, h3, q, hq1, hq2, hq3⟩ := mem_retrieveNextMoves hP b f hf
  have hfresh : ∀ r, InRange r → Peers f.1 r → Board_t.get b r ≠ f.2 := by
    intro r hr hpeer e
    have habs := hav f.1 ((mem_allCells _).2 h1) f.2 h3
    rw [mem_unitValues] at habs
    apply habs
    refine ⟨r, hr, ?_, e⟩
    rcases hpeer.2 with h | h | h
    · exact Or.inl h.symm
    · exact Or.inr (Or.inl h.symm)
    · exact Or.inr (Or.inr h)
  have hv0 : f.2 ≠ 0 := by
    have := (mem_target _).1 h2
    omega
  obtain ⟨r, hr1, hr2, hr3⟩ := exists_empty_elsewhere hg hn hav h2 hq2 hq1 hq3
  exact ⟨h1, noConflict_set_of_fresh hg.1 hn h1 hfresh, rfl, h1, hv0, r, hr1, hr2, hr3⟩

/-- A nested session started on a scenario that is free of conflicts and has an empty
cell never uses up its iteration bound, and a grid it returns is accepted by the
validator and has an empty cell. -/
theorem scenario_solved_valid {b : Board_t Int} (hb : Is9x9 b) {f : field_t}
    (hn : NoConflict (Board_t.set b f.1 f.2)) (hsc : ScenarioOk b (Board_t.set b f.1 f.2, f)) :
    (∀ t, scenario_solved (Board_t.set b f.1 f.2) f ≠ Outcome.exhausted t) ∧
    ∀ r, scenario_solved (Board_t.set b f.1 f.2) f = Outcome.returned r →
      validateBoard r.copy defaultChecks = true ∧ Board_t.count (fun v => v == 0) r.copy ≠ 0 := by
  obtain ⟨a1, a2, _⟩ := scenario_solved_spec (hb.set f.1 f.2) hsc.2.1
  refine ⟨a1, ?_⟩
  intro r hr
  rw [hr] at a2
  simp only [Outcome.state] at a2
  refine ⟨?_, ?_⟩
  · rw [validateBoard_eq_true_iff a2.1.board9]
    exact ⟨a2.2.2.1.2.2 hn, rfl⟩
  · have := (solveNested_scenario hb hsc _ rfl).2 r
    exact this hr

/-- When every nested session that returns gives a valid grid with an empty cell, the
loop over the scenarios ends in the state it started from. -/
theorem runScenarios_frame (scenarios : List (Board_t Int × field_t)) (s : Session)
    (hnx : ∀ sc ∈ scenarios, ∀ t, scenario_solved sc.1 sc.2 ≠ Outcome.exhausted t)
    (hret : ∀ sc ∈ scenarios, ∀ r, scenario_solved sc.1 sc.2 = Outcome.returned r →
      validateBoard r.copy defaultChecks = true ∧ Board_t.count (fun v => v == 0) r.copy ≠ 0) :
    (∀ t, runScenarios scenarios s ≠ Outcome.exhausted t) ∧ (runScenarios scenarios s).state = s := by
  induction scenarios with
  | nil => exact ⟨fun t => by simp [runScenarios], rfl⟩
  | cons sc rest ih =>
    obtain ⟨scenario, field⟩ := sc
    have h1 := hnx (scenario, field) (List.mem_cons_self _ _)
    have h2 := hret (scenario, field) (List.mem_cons_self _ _)
    have ih2 := ih (fun sc h => hnx sc (List.mem_cons_of_mem _ h))
      (fun sc h => hret sc (List.mem_cons_of_mem _ h))
    rw [runScenarios_cons]
    cases ho : scenario_solved scenario field with
    | exhausted t => exact absurd ho (h1 t)
    | raised t => exact ⟨fun t => by simp, rfl⟩
    | returned r =>
      obtain ⟨hv, hz⟩ := h2 r ho
      simp only
      rw [if_neg (by rw [hv]; simp), if_neg (fun h => hz h.1)]
      exact ih2

/-- The frame of the bruteforce pass on a valid grid: every nested session that returns
gives a grid accepted by the validator, with an empty cell; the pass does not use up
the iteration bound and ends in the state it started from. -/
theorem bruteforceStrategyRunner_frame (s : Session) (hg : IsGrid s.copy) (hn : NoConflict s.copy)
    (hP : Is9x9 s.m_current_possibilities) (hav : AvoidsPresent s.copy s.m_current_possibilities) :
    (∀ f ∈ BruteforceStrategy_t.retrieveNextMoves s.m_current_possibilities s.copy,
      (∀ t, scenario_solved (Board_t.set s.copy f.1 f.2) f ≠ Outcome.exhausted t) ∧
      ∀ r, scenario_solved (Board_t.set s.copy f.1 f.2) f = Outcome.returned r →
        validateBoard r.copy defaultChecks = true ∧ Board_t.count (fun v => v == 0) r.copy ≠ 0) ∧
    (∀ t, bruteforceStrategyRunner s ≠ Outcome.exhausted t) ∧
    (bruteforceStrategyRunner s).state = s := by
  have key : ∀ f ∈ BruteforceStrategy_t.retrieveNextMoves s.m_current_possibilities s.copy,
      (∀ t, scenario_solved (Board_t.set s.copy f.1 f.2) f ≠ Outcome.exhausted t) ∧
      ∀ r, scenario_solved (Board_t.set s.copy f.1 f.2) f = Outcome.returned r →
        validateBoard r.copy defaultChecks = true ∧ Board_t.count (fun v => v == 0) r.copy ≠ 0 := by
    intro f hf
    obtain ⟨_, h2, h3⟩ := scenario_of_avoids hg hn hP hav hf
    exact scenario_solved_valid hg.1 h2 h3
  refine ⟨key, ?_⟩
  unfold bruteforceStrategyRunner
  simp only
  split
  · exact ⟨fun t => by simp, rfl⟩
  · apply runScenarios_frame
    · intro sc hsc
      obtain ⟨f, hf, rfl⟩ := List.mem_map.1 hsc
      exact (key f hf).1
    · intro sc hsc
      obtain ⟨f, hf, rfl⟩ := List.mem_map.1 hsc
      exact (key f hf).2

/-- In a consistent state every hypothesis of the bruteforce pass leaves another cell
empty, so a nested session that returns gives a grid with an empty cell. -/
theorem scenario_solved_has_empty {b : Board_t Int} {P : PossibilitiesBoard_t} (hc : Consistent b P)
    {f : field_t} (hf : f ∈ BruteforceStrategy_t.retrieveNextMoves P b) (r : Session)
    (hr : scenario_solved (Board_t.set b f.1 f.2) f = Outcome.returned r) :
    ∃ p ∈ allCells, Board_t.get r.copy p = 0 := by
  obtain ⟨h1, h2, h3, q, hq1, hq2, hq3⟩ := mem_retrieveNextMoves hc.poss9 b f hf
  have hv0 : f.2 ≠ 0 := by
    have := (mem_target _).1 h2
    omega
  have hsc : ScenarioOk b (Board_t.set b f.1 f.2, f) :=
    ⟨rfl, h1, hv0, q, hq1, hq2, hc.atEmpty q hq2 (List.ne_nil_of_mem hq3)⟩
  have hz := (solveNested_scenario hc.board9 hsc _ rfl).2 r hr
  obtain ⟨_, a2, _⟩ := scenario_solved_spec (hc.board9.set f.1 f.2) h1
  rw [hr] at a2
  simp only [Outcome.state] at a2
  have hpos : Board_t.count (fun v => v == 0) r.copy > 0 := by omega
  obtain ⟨p, hp, hpz⟩ := (Board_t.count_pos_iff _ a2.1.board9).1 hpos
  exact ⟨p, (mem_allCells p).2 hp, by simpa using hpz⟩

end malcolm


/-!
## The claims
-/

namespace malcolm

open BoardSolver_t

/-- C1: on a 9x9 grid `validateBoard` with the default extra check returns true exactly
when no row, no column and no 3x3 box holds the same non-zero value in two cells, and with
a custom extra check exactly when that holds and the extra check returns true on the grid. -/
theorem validateBoard_iff_noConflict (g : Board_t Int) (hg : Is9x9 g) (extra : Board_t Int → Bool) :
    (validateBoard g defaultChecks = true ↔ NoConflict g) ∧
    (validateBoard g extra = true ↔ (NoConflict g ∧ extra g = true)) := by
  refine ⟨?_, validateBoard_eq_true_iff hg extra⟩
  rw [validateBoard_eq_true_iff hg]
  exact ⟨fun h => h.1, fun h => ⟨h, rfl⟩⟩

theorem validateBoard_iff_noConflict_witness :
    Is9x9 exampleTwoEmpty ∧
    ((validateBoard exampleTwoEmpty defaultChecks = true ↔ NoConflict exampleTwoEmpty) ∧
     (validateBoard exampleTwoEmpty (fun b => Board_t.get b (0, 0) == 0) = true ↔
       (NoConflict exampleTwoEmpty ∧ (fun b => Board_t.get b (0, 0) == 0) exampleTwoEmpty = true))) :=
  ⟨by decide, validateBoard_iff_noConflict exampleTwoEmpty (by decide) _⟩

/-- C2: every move the solver commits is correct. For a 9x9 input `g` and a completely
filled grid `S` (every cell a digit of 1..9, the filled values of the data model) that the
validator accepts and that agrees with `g` on the non-empty cells of `g`, the log of `getSolved g` is the history of the working grid, every
logged write `(pos, v)` has `v = S[pos]`, and every non-empty cell of the working grid the
run ends with (in particular of a returned grid) equals the cell of `S`. -/
theorem committed_moves_correct (g S : Board_t Int) (hg : Is9x9 g) (hS : CompletelyFilled S)
    (hvalid : validateBoard S defaultChecks = true)
    (hagree : ∀ p ∈ allCells, Board_t.get g p ≠ 0 → Board_t.get S p = Board_t.get g p) :
    History g (getSolved g).state.written (getSolved g).state.copy ∧
    (∀ e ∈ (getSolved g).state.written, e.2.2 = Board_t.get S e.2.1) ∧
    (∀ p, InRange p → Board_t.get (getSolved g).state.copy p ≠ 0 →
      Board_t.get (getSolved g).state.copy p = Board_t.get S p) ∧
    (∀ r, getSolved g = Outcome.returned r → ∀ p, InRange p → Board_t.get r.copy p ≠ 0 →
      Board_t.get r.copy p = Board_t.get S p) := by
  have hsol : IsSolution S :=
    ⟨hS.1, fun p hp => (mem_target _).2 (hS.2 p ((mem_allCells p).2 hp)),
      ((validateBoard_eq_true_iff hS.1 defaultChecks).1 hvalid).1⟩
  have hag : AgreesWith S g := fun p hp hne => (hagree p ((mem_allCells p).2 hp) hne).symm
  have h1 := solve_sound hsol hg hag true
  have h2 := (solve_spec hg true).2.1
  refine ⟨h2.2.1, h1.2.2, h1.2.1.1, ?_⟩
  intro r hr p hp hne
  have h3 := h1.2.1.1
  unfold getSolved at hr
  rw [hr] at h3
  exact h3 p hp hne

set_option maxRecDepth 100000 in
theorem committed_moves_correct_witness :
    (getSolved exampleTwoEmpty).state.written.length = 2 ∧
    (History exampleTwoEmpty (getSolved exampleTwoEmpty).state.written
        (getSolved exampleTwoEmpty).state.copy ∧
      (∀ e ∈ (getSolved exampleTwoEmpty).state.written, e.2.2 = Board_t.get exampleFull e.2.1) ∧
      (∀ p, InRange p → Board_t.get (getSolved exampleTwoEmpty).state.copy p ≠ 0 →
        Board_t.get (getSolved exampleTwoEmpty).state.copy p = Board_t.get exampleFull p) ∧
      (∀ r, getSolved exampleTwoEmpty = Outcome.returned r → ∀ p, InRange p →
        Board_t.get r.copy p ≠ 0 → Board_t.get r.copy p = Board_t.get exampleFull p)) :=
  ⟨by decide!, committed_moves_correct exampleTwoEmpty exampleFull (by decide) (by decide!)
    (by decide!) (by decide!)⟩

/-- C3: validity preservation. For a 9x9 input that `validateBoard` accepts, the log of
`getSolved` is the history of the working grid, the grid before and after every logged
write is accepted by `validateBoard`, and so is the grid the run ends with, in particular
the returned grid. -/
theorem validity_preserved (g : Board_t Int) (hg : Is9x9 g)
    (hvalid : validateBoard g defaultChecks = true) :
    History g (getSolved g).state.written (getSolved g).state.copy ∧
    (∀ e ∈ (getSolved g).state.written,
      validateBoard e.1 defaultChecks = true ∧
      validateBoard (Board_t.set e.1 e.2.1 e.2.2) defaultChecks = true) ∧
    validateBoard (getSolved g).state.copy defaultChecks = true ∧
    (∀ r, getSolved g = Outcome.returned r → validateBoard r.copy defaultChecks = true) := by
  have hn : NoConflict g := ((validateBoard_eq_true_iff hg defaultChecks).1 hvalid).1
  obtain ⟨_, hh, he, hw⟩ := (solve_spec hg true).2.1
  have hfinal : validateBoard (getSolved g).state.copy defaultChecks = true :=
    (validateBoard_eq_true_iff he.1 defaultChecks).2 ⟨he.2.2 hn, rfl⟩
  refine ⟨hh, ?_, hfinal, ?_⟩
  · intro e hmem
    obtain ⟨e1, _, _, _, e2⟩ := hw e hmem
    exact ⟨(validateBoard_eq_true_iff e1.1 defaultChecks).2 ⟨e1.2.2 hn, rfl⟩,
      (validateBoard_eq_true_iff e2.1 defaultChecks).2 ⟨e2.2.2 hn, rfl⟩⟩
  · intro r hr
    rw [hr] at hfinal
    exact hfinal

set_option maxRecDepth 100000 in
theorem validity_preserved_witness :
    (getSolved exampleTwoEmpty).state.written ≠ [] ∧
    (History exampleTwoEmpty (getSolved exampleTwoEmpty).state.written
        (getSolved exampleTwoEmpty).state.copy ∧
      (∀ e ∈ (getSolved exampleTwoEmpty).state.written,
        validateBoard e.1 defaultChecks = true ∧
        validateBoard (Board_t.set e.1 e.2.1 e.2.2) defaultChecks = true) ∧
      validateBoard (getSolved exampleTwoEmpty).state.copy defaultChecks = true ∧
      (∀ r, getSolved exampleTwoEmpty = Outcome.returned r →
        validateBoard r.copy defaultChecks = true)) :=
  ⟨by decide!, validity_preserved exampleTwoEmpty (by decide) (by decide!)⟩

/-- C6: non-regression. For a 9x9 input `g` the log of `getSolved` is the history of the
working grid; every logged write goes to a cell in range that is empty at the time of
writing; the grid before and after every write, and the grid the run ends with (in
particular a returned grid), hold the value of `g` at every cell that is non-zero in `g`. -/
theorem input_cells_kept (g : Board_t Int) (hg : Is9x9 g) :
    History g (getSolved g).state.written (getSolved g).state.copy ∧
    (∀ e ∈ (getSolved g).state.written,
      InRange e.2.1 ∧ Board_t.get e.1 e.2.1 = 0 ∧
      ∀ p, InRange p → Board_t.get g p ≠ 0 →
        Board_t.get e.1 p = Board_t.get g p ∧
        Board_t.get (Board_t.set e.1 e.2.1 e.2.2) p = Board_t.get g p) ∧
    (∀ p, InRange p → Board_t.get g p ≠ 0 →
      Board_t.get (getSolved g).state.copy p = Board_t.get g p) ∧
    (∀ r, getSolved g = Outcome.returned r → ∀ p, InRange p → Board_t.get g p ≠ 0 →
      Board_t.get r.copy p = Board_t.get g p) := by
  obtain ⟨_, hh, he, hw⟩ := (solve_spec hg true).2.1
  refine ⟨hh, ?_, he.2.1, ?_⟩
  · intro e hmem
    obtain ⟨e1, e2, e3, _, e5⟩ := hw e hmem
    exact ⟨e2, e3, fun p hp hne => ⟨e1.2.1 p hp hne, e5.2.1 p hp hne⟩⟩
  · intro r hr p hp hne
    have := he.2.1 p hp hne
    unfold getSolved at hr
    rw [hr] at this
    exact this

set_option maxRecDepth 100000 in
theorem input_cells_kept_witness :
    (getSolved exampleTwoEmpty).state.written ≠ [] ∧
    (History exampleTwoEmpty (getSolved exampleTwoEmpty).state.written
        (getSolved exampleTwoEmpty).state.copy ∧
      (∀ e ∈ (getSolved exampleTwoEmpty).state.written,
        InRange e.2.1 ∧ Board_t.get e.1 e.2.1 = 0 ∧
        ∀ p, InRange p → Board_t.get exampleTwoEmpty p ≠ 0 →
          Board_t.get e.1 p = Board_t.get exampleTwoEmpty p ∧
          Board_t.get (Board_t.set e.1 e.2.1 e.2.2) p = Board_t.get exampleTwoEmpty p) ∧
      (∀ p, InRange p → Board_t.get exampleTwoEmpty p ≠ 0 →
        Board_t.get (getSolved exampleTwoEmpty).state.copy p = Board_t.get exampleTwoEmpty p) ∧
      (∀ r, getSolved exampleTwoEmpty = Outcome.returned r → ∀ p, InRange p →
        Board_t.get exampleTwoEmpty p ≠ 0 → Board_t.get r.copy p = Board_t.get exampleTwoEmpty p)) :=
  ⟨by decide!, input_cells_kept exampleTwoEmpty (by decide)⟩

/-- C4 (round trip): on the completely filled valid grid `exampleFull` the call
`getSolved` does not return the grid: the first cleaning pass of `solve` throws, with the
grid and the (empty) candidates untouched and nothing written. -/
theorem getSolved_full_grid_raises :
    validateBoard exampleFull defaultChecks = true ∧
    (∀ p ∈ allCells, Board_t.get exampleFull p ≠ 0) ∧
    getSolved exampleFull =
      Outcome.raised { copy := exampleFull, m_current_possibilities := emptyPossibilities, written := [] } := by
  decide!

set_option maxRecDepth 100000 in
/-- C5 (scenario A): on the valid grid `exampleOneEmpty`, whose one empty cell `(4, 7)`
must hold 3, the only-possibility strategy proposes `((4, 7), 3)` on the initial
candidates, the cleaner and the bruteforce pass change nothing, the value is written, and
then `getSolved` throws from the next cleaning pass instead of returning the grid. -/
theorem getSolved_one_empty_raises :
    validateBoard exampleOneEmpty defaultChecks = true ∧
    TheOnlyPossibilityStrategy_t.retrieveNextMove (constructPossibilities exampleOneEmpty) exampleOneEmpty
      = ((4, 7), 3) ∧
    (smartcleanPossibilitiesBoard exampleOneEmpty (constructPossibilities exampleOneEmpty)).toOption
      = some (constructPossibilities exampleOneEmpty) ∧
    bruteforceStrategyRunner
        { copy := exampleOneEmpty
          m_current_possibilities := constructPossibilities exampleOneEmpty
          written := [] }
      = Outcome.returned
        { copy := exampleOneEmpty
          m_current_possibilities := constructPossibilities exampleOneEmpty
          written := [] } ∧
    getSolved exampleOneEmpty =
      Outcome.raised
        { copy := exampleFull
          m_current_possibilities := emptyPossibilities
          written := [(exampleOneEmpty, ((4, 7), 3))] } := by
  decide!

set_option maxRecDepth 100000 in
/-- C7: on the grid `exampleTwoEmpty`, which has empty cells, `getSolved` fails with the
exception of the cleaning pass once the strategies have filled the grid: it writes 1 at
`(0, 0)` and 3 at `(4, 7)` and then throws instead of returning a grid. -/
theorem getSolved_two_empty_raises :
    (∃ p ∈ allCells, Board_t.get exampleTwoEmpty p = 0) ∧
    (getSolved exampleTwoEmpty).state.copy = exampleFull ∧
    (getSolved exampleTwoEmpty).state.written.map Prod.snd = [((4, 7), 3), ((0, 0), 1)] ∧
    getSolved exampleTwoEmpty = Outcome.raised (getSolved exampleTwoEmpty).state := by
  decide!

/-- C8: termination. For a 9x9 input, `solve` with bruteforce enabled or disabled never
uses up the iteration bound of its three loops; any larger bound gives the same run; the
number of committed writes is at most the number of cells with a non-empty candidate set
at the start, which is at most 81; and on a consistent state every move taken from the
queue strictly decreases the number of cells with a non-empty candidate set. -/
theorem solve_terminates (g : Board_t Int) (hg : Is9x9 g) (allow : Bool) :
    (∀ t, solve g allow ≠ Outcome.exhausted t) ∧
    (∀ bound, openCells (constructPossibilities g) < bound →
      solveWith bruteforceStrategyRunner allow bound
        { copy := g, m_current_possibilities := constructPossibilities g, written := [] } =
      solve g allow) ∧
    (solve g allow).state.written.length ≤ openCells (constructPossibilities g) ∧
    openCells (constructPossibilities g) ≤ 81 ∧
    (∀ (s : Session) (f : field_t), Consistent s.copy s.m_current_possibilities →
      f ∈ getFieldsToBeFilled s.m_current_possibilities s.copy →
      openCells (commit s f).m_current_possibilities < openCells s.m_current_possibilities) :=
  ⟨(solve_spec hg allow).1, fun bound hb => solve_bound_irrelevant hg allow bound hb,
    (solve_written_length hg allow).1, (solve_written_length hg allow).2,
    fun _ _ hc hf => commit_decreases consistent_loopInvariant hc hf⟩

theorem solve_terminates_witness :
    Is9x9 exampleTwoEmpty ∧
    ((∀ t, solve exampleTwoEmpty true ≠ Outcome.exhausted t) ∧
    (∀ bound, openCells (constructPossibilities exampleTwoEmpty) < bound →
      solveWith bruteforceStrategyRunner true bound
        { copy := exampleTwoEmpty
          m_current_possibilities := constructPossibilities exampleTwoEmpty
          written := [] } =
      solve exampleTwoEmpty true) ∧
    (solve exampleTwoEmpty true).state.written.length ≤ openCells (constructPossibilities exampleTwoEmpty) ∧
    openCells (constructPossibilities exampleTwoEmpty) ≤ 81 ∧
    (∀ (s : Session) (f : field_t), Consistent s.copy s.m_current_possibilities →
      f ∈ getFieldsToBeFilled s.m_current_possibilities s.copy →
      openCells (commit s f).m_current_possibilities < openCells s.m_current_possibilities)) :=
  ⟨by decide, solve_terminates exampleTwoEmpty (by decide) true⟩

/-- C9: on a 9x9 grid the cleaning pass `smartcleanPossibilitiesBoard` throws exactly
when the grid has no empty cell; when it throws the candidate board is the one it was
given; when the grid has an empty cell it completes with the result of running
`smartclean` for the digits 1 to 9 in turn. -/
theorem smartcleanPossibilitiesBoard_raises_iff (b : Board_t Int) (hb : Is9x9 b)
    (P : PossibilitiesBoard_t) :
    ((∃ P2, smartcleanPossibilitiesBoard b P = Except.error P2) ↔
      ∀ p, InRange p → Board_t.get b p ≠ 0) ∧
    (∀ P2, smartcleanPossibilitiesBoard b P = Except.error P2 → P2 = P) ∧
    ((∃ p, InRange p ∧ Board_t.get b p = 0) →
      smartcleanPossibilitiesBoard b P =
        Except.ok ([1, 2, 3, 4, 5, 6, 7, 8, 9].foldl
          (fun P (x : Int) => SmartCleaner_t.smartclean b P x) P)) := by
  have hz : Board_t.count (fun v => v == 0) b = 0 ↔ ∀ p, InRange p → Board_t.get b p ≠ 0 := by
    rw [Board_t.count_eq_zero_iff _ hb]
    constructor
    · intro h p hp e
      have := h p hp
      rw [e] at this
      simp at this
    · intro h p hp
      simpa using h p hp
  unfold smartcleanPossibilitiesBoard
  refine ⟨?_, ?_, ?_⟩
  · rw [← hz]
    constructor
    · rintro ⟨P2, h⟩
      by_contra hne
      rw [if_neg hne] at h
      exact absurd h (by simp)
    · intro h
      exact ⟨P, by rw [if_pos h]⟩
  · intro P2 h
    split at h
    · simp only [Except.error.injEq] at h
      exact h.symm
    · exact absurd h (by simp)
  · rintro ⟨p, hp, h0⟩
    rw [if_neg]
    intro hc
    exact hz.1 hc p hp h0

theorem smartcleanPossibilitiesBoard_raises_iff_witness :
    Is9x9 exampleFull ∧
    (((∃ P2, smartcleanPossibilitiesBoard exampleFull emptyPossibilities = Except.error P2) ↔
      ∀ p, InRange p → Board_t.get exampleFull p ≠ 0) ∧
    (∀ P2, smartcleanPossibilitiesBoard exampleFull emptyPossibilities = Except.error P2 →
      P2 = emptyPossibilities) ∧
    ((∃ p, InRange p ∧ Board_t.get exampleFull p = 0) →
      smartcleanPossibilitiesBoard exampleFull emptyPossibilities =
        Except.ok ([1, 2, 3, 4, 5, 6, 7, 8, 9].foldl
          (fun P (x : Int) => SmartCleaner_t.smartclean exampleFull P x) emptyPossibilities))) :=
  ⟨by decide, smartcleanPossibilitiesBoard_raises_iff exampleFull (by decide) emptyPossibilities⟩

/-- C10 (INIT): in the candidate board built by the constructor for a 9x9 grid `g`, the
candidate set of a non-empty cell is empty, the candidate set of an empty cell `p` is
`{1..9}` without the values found in the column, the row and the box of `p`, and on the
fully empty grid every candidate set is `{1,...,9}`. -/
theorem initial_candidates (g : Board_t Int) (hg : Is9x9 g) (p : pos_t) (hp : InRange p) :
    (Board_t.get g p ≠ 0 → Board_t.get (constructPossibilities g) p = []) ∧
    (Board_t.get g p = 0 →
      Board_t.get (constructPossibilities g) p = target.filter (fun d => decide (d ∉ unitValues g p)) ∧
      ∀ d, d ∈ Board_t.get (constructPossibilities g) p ↔
        (1 ≤ d ∧ d ≤ 9) ∧
        ∀ q, InRange q → (q.1 = p.1 ∨ q.2 = p.2 ∨ SameBox p q) → Board_t.get g q ≠ d) ∧
    Board_t.get (constructPossibilities (Board_t.zero 9 9)) p = [1, 2, 3, 4, 5, 6, 7, 8, 9] := by
  have h1 := (constructPossibilities_spec hg).2 p hp
  rw [getPossibleValues_eq hg hp] at h1
  refine ⟨?_, ?_, ?_⟩
  · intro hne
    rw [h1, if_pos hne]
  · intro h0
    have e : Board_t.get (constructPossibilities g) p =
        target.filter (fun d => decide (d ∉ unitValues g p)) := by
      rw [h1, if_neg (by simp [h0])]
    refine ⟨e, ?_⟩
    intro d
    rw [e, List.mem_filter, mem_target, decide_eq_true_eq, mem_unitValues]
    constructor
    · rintro ⟨hd, hno⟩
      exact ⟨hd, fun q hq hu hv => hno ⟨q, hq, hu, hv⟩⟩
    · rintro ⟨hd, hno⟩
      exact ⟨hd, fun ⟨q, hq, hu, hv⟩ => hno q hq hu hv⟩
  · have hall : ∀ q ∈ allCells,
        Board_t.get (constructPossibilities (Board_t.zero 9 9)) q = [1, 2, 3, 4, 5, 6, 7, 8, 9] := by
      decide!
    exact hall p ((mem_allCells p).2 hp)

theorem initial_candidates_witness :
    (Is9x9 exampleTwoEmpty ∧ InRange (0, 0)) ∧
    ((Board_t.get exampleTwoEmpty (0, 0) ≠ 0 →
        Board_t.get (constructPossibilities exampleTwoEmpty) (0, 0) = []) ∧
    (Board_t.get exampleTwoEmpty (0, 0) = 0 →
      Board_t.get (constructPossibilities exampleTwoEmpty) (0, 0) =
        target.filter (fun d => decide (d ∉ unitValues exampleTwoEmpty (0, 0))) ∧
      ∀ d, d ∈ Board_t.get (constructPossibilities exampleTwoEmpty) (0, 0) ↔
        (1 ≤ d ∧ d ≤ 9) ∧
        ∀ q, InRange q → (q.1 = ((0, 0) : pos_t).1 ∨ q.2 = ((0, 0) : pos_t).2 ∨ SameBox (0, 0) q) →
          Board_t.get exampleTwoEmpty q ≠ d) ∧
    Board_t.get (constructPossibilities (Board_t.zero 9 9)) (0, 0) = [1, 2, 3, 4, 5, 6, 7, 8, 9]) :=
  ⟨by decide, initial_candidates exampleTwoEmpty (by decide) (0, 0) (by decide)⟩

end malcolm


/-!
## The claims on candidates, strategies and the bruteforce pass
-/

namespace malcolm

open BoardSolver_t

/-- C11: monotonic candidates. From a session state with a 9x9 candidate board, each
operation that touches the candidates leaves every candidate set inside the one it was:
`postprocessInsertion` for a field in range, one call of `smartclean`, the pass
`smartcleanPossibilitiesBoard` when it completes, and a call of
`bruteforceStrategyRunner` (whatever its outcome). Hence along any sequence of
operations of the session a digit missing from the candidate set of a cell is missing
from it in every later state. -/
theorem candidates_monotonic (s : Session) (hs : Is9x9 s.m_current_possibilities) :
    (∀ f : field_t, InRange f.1 →
      Shrinks s.m_current_possibilities (postprocessInsertion s.m_current_possibilities f)) ∧
    (∀ d : Int, Shrinks s.m_current_possibilities
      (SmartCleaner_t.smartclean s.copy s.m_current_possibilities d)) ∧
    (∀ P, smartcleanPossibilitiesBoard s.copy s.m_current_possibilities = Except.ok P →
      Shrinks s.m_current_possibilities P) ∧
    Shrinks s.m_current_possibilities (bruteforceStrategyRunner s).state.m_current_possibilities ∧
    (∀ t, Relation.ReflTransGen SessionStep s t → ∀ q, InRange q → ∀ d : Int,
      d ∉ Board_t.get s.m_current_possibilities q → d ∉ Board_t.get t.m_current_possibilities q) := by
  refine ⟨fun f hf => postprocessInsertion_shrinks hs hf,
    fun d => (smartclean_erasesOnly s.copy hs d).shrinks,
    fun P hP => smartcleanPossibilitiesBoard_shrinks s.copy hs hP, ?_, ?_⟩
  · obtain ⟨a1, a2, _, _⟩ := bruteforceStrategyRunner_changes s hs
    exact ⟨a1, fun q _ v hv => a2 q v hv⟩
  · intro t ht q hq d hd hmem
    exact hd ((steps_shrink ht hs).2 q hq d hmem)

set_option maxRecDepth 100000 in
theorem candidates_monotonic_witness :
    Is9x9 (Session.initial exampleThreeEmpty).m_current_possibilities ∧
    ((∀ f : field_t, InRange f.1 →
      Shrinks (Session.initial exampleThreeEmpty).m_current_possibilities
        (postprocessInsertion (Session.initial exampleThreeEmpty).m_current_possibilities f)) ∧
    (∀ d : Int, Shrinks (Session.initial exampleThreeEmpty).m_current_possibilities
      (SmartCleaner_t.smartclean (Session.initial exampleThreeEmpty).copy
        (Session.initial exampleThreeEmpty).m_current_possibilities d)) ∧
    (∀ P, smartcleanPossibilitiesBoard (Session.initial exampleThreeEmpty).copy
        (Session.initial exampleThreeEmpty).m_current_possibilities = Except.ok P →
      Shrinks (Session.initial exampleThreeEmpty).m_current_possibilities P) ∧
    Shrinks (Session.initial exampleThreeEmpty).m_current_possibilities
      (bruteforceStrategyRunner (Session.initial exampleThreeEmpty)).state.m_current_possibilities ∧
    (∀ t, Relation.ReflTransGen SessionStep (Session.initial exampleThreeEmpty) t →
      ∀ q, InRange q → ∀ d : Int,
      d ∉ Board_t.get (Session.initial exampleThreeEmpty).m_current_possibilities q →
      d ∉ Board_t.get t.m_current_possibilities q)) :=
  ⟨by decide!, candidates_monotonic (Session.initial exampleThreeEmpty) (by decide!)⟩

/-- C12: candidate-grid invariant, filled cells. In every state `t` reached by
operations of a session from the initial state on a 9x9 grid `g`, a cell holding a
non-zero value in the working grid has an empty candidate set. A nested session is a
session on the scenario grid whose first operation is `postprocessInsertion(field)`;
the state it ends with, for any field in range placed on the working grid of `t`,
satisfies the same. -/
theorem filled_cells_have_no_candidates (g : Board_t Int) (hg : Is9x9 g) (t : Session)
    (ht : Relation.ReflTransGen SessionStep (Session.initial g) t) :
    (∀ p, InRange p → Board_t.get t.copy p ≠ 0 → Board_t.get t.m_current_possibilities p = []) ∧
    (∀ f : field_t, InRange f.1 → ∀ p, InRange p →
      Board_t.get (scenario_solved (Board_t.set t.copy f.1 f.2) f).state.copy p ≠ 0 →
      Board_t.get (scenario_solved (Board_t.set t.copy f.1 f.2) f).state.m_current_possibilities p = []) := by
  have hc := steps_consistent hg ht
  refine ⟨?_, ?_⟩
  · intro p hp hne
    by_contra hcon
    exact hne (hc.atEmpty p hp hcon)
  · intro f hf p hp hne
    have hc2 := steps_consistent (hc.board9.set f.1 f.2) (scenario_solved_steps (hc.board9.set f.1 f.2) hf)
    by_contra hcon
    exact hne (hc2.atEmpty p hp hcon)

theorem filled_cells_have_no_candidates_witness :
    (Is9x9 exampleTwoEmpty ∧
      Relation.ReflTransGen SessionStep (Session.initial exampleTwoEmpty) (getSolved exampleTwoEmpty).state) ∧
    ((∀ p, InRange p → Board_t.get (getSolved exampleTwoEmpty).state.copy p ≠ 0 →
      Board_t.get (getSolved exampleTwoEmpty).state.m_current_possibilities p = []) ∧
    (∀ f : field_t, InRange f.1 → ∀ p, InRange p →
      Board_t.get (scenario_solved
        (Board_t.set (getSolved exampleTwoEmpty).state.copy f.1 f.2) f).state.copy p ≠ 0 →
      Board_t.get (scenario_solved
        (Board_t.set (getSolved exampleTwoEmpty).state.copy f.1 f.2) f).state.m_current_possibilities p = [])) :=
  ⟨⟨by decide, solve_steps (by decide) true⟩,
    filled_cells_have_no_candidates exampleTwoEmpty (by decide) _ (solve_steps (by decide) true)⟩

/-- C13: candidate-grid invariant, empty cells. In every state `t` reached by operations
of a session from the initial state on a 9x9 grid `g`, no candidate of a cell `p` is the
value of a cell `q` of the working grid in the column, the row or the 3x3 box of `p`; and
every candidate is a digit of 1..9. -/
theorem candidates_avoid_placed_values (g : Board_t Int) (hg : Is9x9 g) (t : Session)
    (ht : Relation.ReflTransGen SessionStep (Session.initial g) t) :
    (∀ p, InRange p → ∀ d ∈ Board_t.get t.m_current_possibilities p,
      ∀ q, InRange q → (q.1 = p.1 ∨ q.2 = p.2 ∨ SameBox p q) → Board_t.get t.copy q ≠ d) ∧
    (∀ p, InRange p → ∀ d ∈ Board_t.get t.m_current_possibilities p, 1 ≤ d ∧ d ≤ 9) := by
  have hc := steps_consistent hg ht
  refine ⟨?_, fun p hp d hd => (mem_target d).1 (hc.digits p hp d hd)⟩
  intro p hp d hd q hq hu e
  by_cases hpq : p = q
  · subst hpq
    have h0 := hc.atEmpty p hp (List.ne_nil_of_mem hd)
    have := (mem_target d).1 (hc.digits p hp d hd)
    omega
  · apply hc.fresh p q hp hq ⟨hpq, ?_⟩
    · rw [e]; exact hd
    · rcases hu with h | h | h
      · exact Or.inl h.symm
      · exact Or.inr (Or.inl h.symm)
      · exact Or.inr (Or.inr h)

theorem candidates_avoid_placed_values_witness :
    (Is9x9 exampleThreeEmpty ∧
      Relation.ReflTransGen SessionStep (Session.initial exampleThreeEmpty)
        (getSolved exampleThreeEmpty).state) ∧
    ((∀ p, InRange p → ∀ d ∈ Board_t.get (getSolved exampleThreeEmpty).state.m_current_possibilities p,
      ∀ q, InRange q → (q.1 = p.1 ∨ q.2 = p.2 ∨ SameBox p q) →
        Board_t.get (getSolved exampleThreeEmpty).state.copy q ≠ d) ∧
    (∀ p, InRange p → ∀ d ∈ Board_t.get (getSolved exampleThreeEmpty).state.m_current_possibilities p,
      1 ≤ d ∧ d ≤ 9)) :=
  ⟨⟨by decide, solve_steps (by decide) true⟩,
    candidates_avoid_placed_values exampleThreeEmpty (by decide) _ (solve_steps (by decide) true)⟩

/-- C14: on a 9x9 candidate board whose candidates are digits of 1..9,
`TheOnlyPossibilityStrategy_t::retrieveNextMove` returns a field with a non-zero value
exactly when some cell has a candidate set of exactly one member; the returned field
`(pos, v)` then has `candidates[pos] = {v}`; and when no cell has exactly one candidate
the result is the sentinel `((0, 0), 0)`. -/
theorem onlyPossibility_iff (P : PossibilitiesBoard_t) (hP : Is9x9 P)
    (hd : ∀ p, InRange p → ∀ v ∈ Board_t.get P p, v ∈ target) (b : Board_t Int) :
    ((TheOnlyPossibilityStrategy_t.retrieveNextMove P b).2 ≠ 0 ↔
      ∃ p, InRange p ∧ (Board_t.get P p).length = 1) ∧
    ((TheOnlyPossibilityStrategy_t.retrieveNextMove P b).2 ≠ 0 →
      InRange (TheOnlyPossibilityStrategy_t.retrieveNextMove P b).1 ∧
      Board_t.get P (TheOnlyPossibilityStrategy_t.retrieveNextMove P b).1 =
        [(TheOnlyPossibilityStrategy_t.retrieveNextMove P b).2]) ∧
    ((¬ ∃ p, InRange p ∧ (Board_t.get P p).length = 1) →
      TheOnlyPossibilityStrategy_t.retrieveNextMove P b = ((0, 0), 0)) := by
  rcases onlyPossibility_cases hP b with ⟨hex, hin, hget⟩ | ⟨hno, hsent⟩
  · have hne : (TheOnlyPossibilityStrategy_t.retrieveNextMove P b).2 ≠ 0 := by
      have hm : (TheOnlyPossibilityStrategy_t.retrieveNextMove P b).2 ∈
          Board_t.get P (TheOnlyPossibilityStrategy_t.retrieveNextMove P b).1 := by
        rw [hget]; exact List.mem_singleton_self _
      have := (mem_target _).1 (hd _ hin _ hm)
      omega
    exact ⟨⟨fun _ => hex, fun _ => hne⟩, fun _ => ⟨hin, hget⟩, fun hno => absurd hex hno⟩
  · refine ⟨⟨fun h => ?_, fun hex => absurd hex hno⟩, fun h => ?_, fun _ => hsent⟩
    · rw [hsent] at h; exact absurd rfl h
    · rw [hsent] at h; exact absurd rfl h

theorem onlyPossibility_iff_witness :
    (Is9x9 (constructPossibilities exampleTwoEmpty) ∧
      ∀ p, InRange p → ∀ v ∈ Board_t.get (constructPossibilities exampleTwoEmpty) p, v ∈ target) ∧
    (((TheOnlyPossibilityStrategy_t.retrieveNextMove (constructPossibilities exampleTwoEmpty)
        exampleTwoEmpty).2 ≠ 0 ↔
      ∃ p, InRange p ∧ (Board_t.get (constructPossibilities exampleTwoEmpty) p).length = 1) ∧
    ((TheOnlyPossibilityStrategy_t.retrieveNextMove (constructPossibilities exampleTwoEmpty)
        exampleTwoEmpty).2 ≠ 0 →
      InRange (TheOnlyPossibilityStrategy_t.retrieveNextMove (constructPossibilities exampleTwoEmpty)
        exampleTwoEmpty).1 ∧
      Board_t.get (constructPossibilities exampleTwoEmpty)
        (TheOnlyPossibilityStrategy_t.retrieveNextMove (constructPossibilities exampleTwoEmpty)
          exampleTwoEmpty).1 =
        [(TheOnlyPossibilityStrategy_t.retrieveNextMove (constructPossibilities exampleTwoEmpty)
          exampleTwoEmpty).2]) ∧
    ((¬ ∃ p, InRange p ∧ (Board_t.get (constructPossibilities exampleTwoEmpty) p).length = 1) →
      TheOnlyPossibilityStrategy_t.retrieveNextMove (constructPossibilities exampleTwoEmpty)
        exampleTwoEmpty = ((0, 0), 0))) :=
  ⟨⟨(constructPossibilities_consistent (by decide)).poss9,
      (constructPossibilities_consistent (by decide)).digits⟩,
    onlyPossibility_iff (constructPossibilities exampleTwoEmpty)
      (constructPossibilities_consistent (by decide)).poss9
      (constructPossibilities_consistent (by decide)).digits exampleTwoEmpty⟩

/-- C15: on a 9x9 grid `b` and a candidate board `P`,
`FillSubboardsStrategy_t::retrieveNextMove` returns a field with a non-zero value exactly
when there are a box (given by its center `c`) and a digit `d` of 1..9 such that no cell of
the box holds `d` and exactly one cell of the box has `d` among its candidates. The
returned field `(pos, v)` then has `v` in 1..9, `pos` inside a box none of whose cells
holds `v`, `v` among the candidates of `pos` and of no other cell of that box. A
returned value 0 comes only with the sentinel `((0, 0), 0)`. -/
theorem fillSubboards_iff (P : PossibilitiesBoard_t) (b : Board_t Int) (hb : Is9x9 b) :
    ((FillSubboardsStrategy_t.retrieveNextMove P b).2 ≠ 0 ↔
      ∃ c ∈ Board_t.centersFor9x9Board, ∃ d ∈ target,
        (∀ q ∈ boxCells c, Board_t.get b q ≠ d) ∧
        ∃ q ∈ boxCells c, d ∈ Board_t.get P q ∧ ∀ x ∈ boxCells c, d ∈ Board_t.get P x → x = q) ∧
    ((FillSubboardsStrategy_t.retrieveNextMove P b).2 ≠ 0 →
      (FillSubboardsStrategy_t.retrieveNextMove P b).2 ∈ target ∧
      ∃ c ∈ Board_t.centersFor9x9Board,
        (FillSubboardsStrategy_t.retrieveNextMove P b).1 ∈ boxCells c ∧
        (∀ q ∈ boxCells c, Board_t.get b q ≠ (FillSubboardsStrategy_t.retrieveNextMove P b).2) ∧
        (FillSubboardsStrategy_t.retrieveNextMove P b).2 ∈
          Board_t.get P (FillSubboardsStrategy_t.retrieveNextMove P b).1 ∧
        ∀ x ∈ boxCells c, (FillSubboardsStrategy_t.retrieveNextMove P b).2 ∈ Board_t.get P x →
          x = (FillSubboardsStrategy_t.retrieveNextMove P b).1) ∧
    ((FillSubboardsStrategy_t.retrieveNextMove P b).2 = 0 →
      FillSubboardsStrategy_t.retrieveNextMove P b = ((0, 0), 0)) := by
  rcases fillSubboards_cases P b with ⟨hsent, hnone⟩ | ⟨hval, c, hc, _, hnb, hin, hmem, huniq⟩
  · refine ⟨⟨fun h => ?_, ?_⟩, fun h => ?_, fun _ => hsent⟩
    · rw [hsent] at h; exact absurd rfl h
    · rintro ⟨c, hc, d, hd, hfree, q, hq, hmem, huniq⟩
      exfalso
      rcases hnone c hc d hd with h | h
      · obtain ⟨x, hx, e⟩ := (mem_getNeighborhood_center hb hc d).1 h
        exact hfree x hx e
      · apply h
        rw [countP_eq_one_iff _ (boxCells_nodup_of_center hc)]
        exact ⟨q, hq, (contains_eq_true_iff _ _).2 hmem,
          fun x hx hpx => huniq x hx ((contains_eq_true_iff _ _).1 hpx)⟩
    · rw [hsent] at h; exact absurd rfl h
  · have hne : (FillSubboardsStrategy_t.retrieveNextMove P b).2 ≠ 0 := by
      have := (mem_target _).1 hval
      omega
    have hfree : ∀ q ∈ boxCells c,
        Board_t.get b q ≠ (FillSubboardsStrategy_t.retrieveNextMove P b).2 :=
      fun q hq e => hnb ((mem_getNeighborhood_center hb hc _).2 ⟨q, hq, e⟩)
    refine ⟨⟨fun _ => ?_, fun _ => hne⟩, fun _ => ?_, fun h => absurd h hne⟩
    · exact ⟨c, hc, _, hval, hfree, _, hin, hmem, huniq⟩
    · exact ⟨hval, c, hc, hin, hfree, hmem, huniq⟩

theorem fillSubboards_iff_witness :
    Is9x9 exampleTwoEmpty ∧
    (((FillSubboardsStrategy_t.retrieveNextMove (constructPossibilities exampleTwoEmpty)
        exampleTwoEmpty).2 ≠ 0 ↔
      ∃ c ∈ Board_t.centersFor9x9Board, ∃ d ∈ target,
        (∀ q ∈ boxCells c, Board_t.get exampleTwoEmpty q ≠ d) ∧
        ∃ q ∈ boxCells c, d ∈ Board_t.get (constructPossibilities exampleTwoEmpty) q ∧
          ∀ x ∈ boxCells c, d ∈ Board_t.get (constructPossibilities exampleTwoEmpty) x → x = q) ∧
    ((FillSubboardsStrategy_t.retrieveNextMove (constructPossibilities exampleTwoEmpty)
        exampleTwoEmpty).2 ≠ 0 →
      (FillSubboardsStrategy_t.retrieveNextMove (constructPossibilities exampleTwoEmpty)
        exampleTwoEmpty).2 ∈ target ∧
      ∃ c ∈ Board_t.centersFor9x9Board,
        (FillSubboardsStrategy_t.retrieveNextMove (constructPossibilities exampleTwoEmpty)
          exampleTwoEmpty).1 ∈ boxCells c ∧
        (∀ q ∈ boxCells c, Board_t.get exampleTwoEmpty q ≠
          (FillSubboardsStrategy_t.retrieveNextMove (constructPossibilities exampleTwoEmpty)
            exampleTwoEmpty).2) ∧
        (FillSubboardsStrategy_t.retrieveNextMove (constructPossibilities exampleTwoEmpty)
          exampleTwoEmpty).2 ∈
          Board_t.get (constructPossibilities exampleTwoEmpty)
            (FillSubboardsStrategy_t.retrieveNextMove (constructPossibilities exampleTwoEmpty)
              exampleTwoEmpty).1 ∧
        ∀ x ∈ boxCells c,
          (FillSubboardsStrategy_t.retrieveNextMove (constructPossibilities exampleTwoEmpty)
            exampleTwoEmpty).2 ∈ Board_t.get (constructPossibilities exampleTwoEmpty) x →
          x = (FillSubboardsStrategy_t.retrieveNextMove (constructPossibilities exampleTwoEmpty)
            exampleTwoEmpty).1) ∧
    ((FillSubboardsStrategy_t.retrieveNextMove (constructPossibilities exampleTwoEmpty)
        exampleTwoEmpty).2 = 0 →
      FillSubboardsStrategy_t.retrieveNextMove (constructPossibilities exampleTwoEmpty)
        exampleTwoEmpty = ((0, 0), 0))) :=
  ⟨by decide, fillSubboards_iff (constructPossibilities exampleTwoEmpty) exampleTwoEmpty (by decide)⟩

/-- C16: the cleaner only removes candidates. For a board `b`, a 9x9 candidate board `P`
and a value `d`, the candidate board after `smartclean(b, P, d)` is 9x9 and every
candidate set in it is either the set before or the set before with `d` erased: nothing
is added and nothing other than `d` is removed. The board `b` is an input that
`smartclean` only reads. -/
theorem cleaner_only_removes (b : Board_t Int) (P : PossibilitiesBoard_t) (hP : Is9x9 P) (d : Int) :
    Is9x9 (SmartCleaner_t.smartclean b P d) ∧
    (∀ q, Board_t.get (SmartCleaner_t.smartclean b P d) q = Board_t.get P q ∨
      Board_t.get (SmartCleaner_t.smartclean b P d) q = setErase (Board_t.get P q) d) ∧
    (∀ q v, v ∈ Board_t.get (SmartCleaner_t.smartclean b P d) q → v ∈ Board_t.get P q) ∧
    (∀ q v, v ∈ Board_t.get P q → v ≠ d → v ∈ Board_t.get (SmartCleaner_t.smartclean b P d) q) := by
  obtain ⟨h9, hq⟩ := smartclean_erasesOnly b hP d
  refine ⟨h9, hq, ?_, ?_⟩
  · intro q v hv
    rcases hq q with e | e
    · rw [e] at hv; exact hv
    · rw [e] at hv; exact ((mem_setErase _ _ _).1 hv).1
  · intro q v hv hne
    rcases hq q with e | e
    · rw [e]; exact hv
    · rw [e]; exact (mem_setErase _ _ _).2 ⟨hv, hne⟩

set_option maxRecDepth 100000 in
theorem cleaner_only_removes_witness :
    Is9x9 (constructPossibilities exampleThreeEmpty) ∧
    (Is9x9 (SmartCleaner_t.smartclean exampleThreeEmpty (constructPossibilities exampleThreeEmpty) 1) ∧
    (∀ q, Board_t.get (SmartCleaner_t.smartclean exampleThreeEmpty
          (constructPossibilities exampleThreeEmpty) 1) q =
        Board_t.get (constructPossibilities exampleThreeEmpty) q ∨
      Board_t.get (SmartCleaner_t.smartclean exampleThreeEmpty
          (constructPossibilities exampleThreeEmpty) 1) q =
        setErase (Board_t.get (constructPossibilities exampleThreeEmpty) q) 1) ∧
    (∀ q v, v ∈ Board_t.get (SmartCleaner_t.smartclean exampleThreeEmpty
          (constructPossibilities exampleThreeEmpty) 1) q →
      v ∈ Board_t.get (constructPossibilities exampleThreeEmpty) q) ∧
    (∀ q v, v ∈ Board_t.get (constructPossibilities exampleThreeEmpty) q → v ≠ 1 →
      v ∈ Board_t.get (SmartCleaner_t.smartclean exampleThreeEmpty
          (constructPossibilities exampleThreeEmpty) 1) q)) :=
  ⟨by decide!, cleaner_only_removes exampleThreeEmpty (constructPossibilities exampleThreeEmpty)
    (by decide!) 1⟩

/-- C17: bruteforce contradiction outcome. When the nested session of the hypothesis
`field = (pos, d)` at the head of the scenario list returns a grid that has an empty
cell and is rejected by `validateBoard`, the loop goes on with the rest of the list from
the parent state with the same working grid and log and with `d` erased from the
candidate set of `pos`: that set is the old one without `d`, every other candidate set
is unchanged, and `d` is still missing from it when the loop ends. -/
theorem bruteforce_contradiction (s : Session) (hs : Is9x9 s.m_current_possibilities)
    (scenario : Board_t Int) (field : field_t) (rest : List (Board_t Int × field_t)) (r : Session)
    (hr : scenario_solved scenario field = Outcome.returned r)
    (hempty : Board_t.count (fun v => v == 0) r.copy > 0)
    (hinvalid : validateBoard r.copy defaultChecks = false) :
    runScenarios ((scenario, field) :: rest) s =
      runScenarios rest
        { copy := s.copy,
          m_current_possibilities := eraseFrompossibilities_board s.m_current_possibilities field.1 field.2,
          written := s.written } ∧
    Board_t.get (eraseFrompossibilities_board s.m_current_possibilities field.1 field.2) field.1 =
      setErase (Board_t.get s.m_current_possibilities field.1) field.2 ∧
    field.2 ∉ Board_t.get (eraseFrompossibilities_board s.m_current_possibilities field.1 field.2) field.1 ∧
    (∀ q, q ≠ field.1 →
      Board_t.get (eraseFrompossibilities_board s.m_current_possibilities field.1 field.2) q =
        Board_t.get s.m_current_possibilities q) ∧
    field.2 ∉ Board_t.get (runScenarios ((scenario, field) :: rest) s).state.m_current_possibilities field.1 := by
  have hstep : runScenarios ((scenario, field) :: rest) s =
      runScenarios rest
        { copy := s.copy,
          m_current_possibilities := eraseFrompossibilities_board s.m_current_possibilities field.1 field.2,
          written := s.written } := by
    rw [runScenarios_cons, hr]
    simp only
    rw [if_pos ⟨hempty, hinvalid⟩]
  have hget := eraseFrom_get hs field.1 field.2
  have hself : Board_t.get (eraseFrompossibilities_board s.m_current_possibilities field.1 field.2) field.1 =
      setErase (Board_t.get s.m_current_possibilities field.1) field.2 := by
    rw [hget, if_pos rfl]
  have hnot : field.2 ∉
      Board_t.get (eraseFrompossibilities_board s.m_current_possibilities field.1 field.2) field.1 := by
    rw [hself, mem_setErase]
    exact fun h => h.2 rfl
  refine ⟨hstep, hself, hnot, ?_, ?_⟩
  · intro q hq
    rw [hget, if_neg hq]
  · rw [hstep]
    intro hmem
    exact hnot ((runScenarios_changes rest _ (eraseFrom_9x9 hs field.1 field.2)).2.1 _ _ hmem)

set_option maxRecDepth 100000 in
theorem bruteforce_contradiction_witness :
    (Is9x9 (Session.initial exampleConflict).m_current_possibilities ∧
      scenario_solved (Board_t.set exampleConflict (0, 0) 1) ((0, 0), 1) =
        Outcome.returned (scenario_solved (Board_t.set exampleConflict (0, 0) 1) ((0, 0), 1)).state ∧
      Board_t.count (fun v => v == 0)
        (scenario_solved (Board_t.set exampleConflict (0, 0) 1) ((0, 0), 1)).state.copy > 0 ∧
      validateBoard (scenario_solved (Board_t.set exampleConflict (0, 0) 1) ((0, 0), 1)).state.copy
        defaultChecks = false) ∧
    (runScenarios [(Board_t.set exampleConflict (0, 0) 1, ((0, 0), 1))] (Session.initial exampleConflict) =
      runScenarios []
        { copy := (Session.initial exampleConflict).copy,
          m_current_possibilities := eraseFrompossibilities_board
            (Session.initial exampleConflict).m_current_possibilities (0, 0) 1,
          written := (Session.initial exampleConflict).written } ∧
    Board_t.get (eraseFrompossibilities_board
        (Session.initial exampleConflict).m_current_possibilities (0, 0) 1) (0, 0) =
      setErase (Board_t.get (Session.initial exampleConflict).m_current_possibilities (0, 0)) 1 ∧
    (1 : Int) ∉ Board_t.get (eraseFrompossibilities_board
        (Session.initial exampleConflict).m_current_possibilities (0, 0) 1) (0, 0) ∧
    (∀ q, q ≠ ((0, 0) : pos_t) →
      Board_t.get (eraseFrompossibilities_board
          (Session.initial exampleConflict).m_current_possibilities (0, 0) 1) q =
        Board_t.get (Session.initial exampleConflict).m_current_possibilities q) ∧
    (1 : Int) ∉ Board_t.get (runScenarios [(Board_t.set exampleConflict (0, 0) 1, ((0, 0), 1))]
        (Session.initial exampleConflict)).state.m_current_possibilities (0, 0)) :=
  ⟨by decide!,
    bruteforce_contradiction (Session.initial exampleConflict) (by decide!)
      (Board_t.set exampleConflict (0, 0) 1) ((0, 0), 1) []
      (scenario_solved (Board_t.set exampleConflict (0, 0) 1) ((0, 0), 1)).state
      (by decide!) (by decide!) (by decide!)⟩

set_option maxRecDepth 100000 in
/-- C18 (bruteforce solution outcome): in the parent state right after the constructor
on `exampleThreeEmpty` (a valid grid with three empty cells, which the cleaning pass
leaves as it is) the first generated hypothesis is `((0, 0), 1)`. Its nested session fills
the two remaining cells and reaches the valid full grid `exampleFull`, but ends with the
thrown `std::exception` instead of returning; `bruteforceStrategyRunner` therefore ends
with the exception too, with the parent grid and candidates as they were: 1 is not
written at `(0, 0)`. -/
theorem bruteforce_solution_raises :
    (smartcleanPossibilitiesBoard exampleThreeEmpty (constructPossibilities exampleThreeEmpty)).toOption =
      some (constructPossibilities exampleThreeEmpty) ∧
    BruteforceStrategy_t.retrieveNextMoves (constructPossibilities exampleThreeEmpty) exampleThreeEmpty =
      [((0, 0), 1), ((0, 1), 1)] ∧
    (scenario_solved (Board_t.set exampleThreeEmpty (0, 0) 1) ((0, 0), 1)).isRaised = true ∧
    (scenario_solved (Board_t.set exampleThreeEmpty (0, 0) 1) ((0, 0), 1)).state.copy = exampleFull ∧
    (scenario_solved (Board_t.set exampleThreeEmpty (0, 0) 1) ((0, 0), 1)).state.written.map Prod.snd =
      [((8, 1), 1), ((0, 1), 2)] ∧
    Board_t.count (fun v => v == 0) exampleFull = 0 ∧
    validateBoard exampleFull defaultChecks = true ∧
    bruteforceStrategyRunner (Session.initial exampleThreeEmpty) =
      Outcome.raised (Session.initial exampleThreeEmpty) ∧
    Board_t.get (bruteforceStrategyRunner (Session.initial exampleThreeEmpty)).state.copy (0, 0) = 0 := by
  decide!

/-- C19: bruteforce inconclusive outcome. When the nested session of the hypothesis at
the head of the scenario list returns a grid that is neither (with an empty cell and
rejected by `validateBoard`) nor (without empty cell and accepted), the loop goes on
with the rest of the list from the unchanged parent state. And whatever the outcomes, a
call of `bruteforceStrategyRunner` adds no candidate, removes a candidate `v` from a cell
`q` only if `(q, v)` is one of the generated hypotheses, and leaves the parent grid as
it was or writes a single generated hypothesis into it. -/
theorem bruteforce_inconclusive (s : Session) (hs : Is9x9 s.m_current_possibilities)
    (scenario : Board_t Int) (field : field_t) (rest : List (Board_t Int × field_t)) (r : Session)
    (hr : scenario_solved scenario field = Outcome.returned r)
    (h1 : ¬ (Board_t.count (fun v => v == 0) r.copy > 0 ∧ validateBoard r.copy defaultChecks = false))
    (h2 : ¬ (Board_t.count (fun v => v == 0) r.copy = 0 ∧ validateBoard r.copy defaultChecks = true)) :
    runScenarios ((scenario, field) :: rest) s = runScenarios rest s ∧
    (∀ q v, v ∈ Board_t.get (bruteforceStrategyRunner s).state.m_current_possibilities q →
      v ∈ Board_t.get s.m_current_possibilities q) ∧
    (∀ q v, v ∈ Board_t.get s.m_current_possibilities q →
      v ∉ Board_t.get (bruteforceStrategyRunner s).state.m_current_possibilities q →
      (q, v) ∈ BruteforceStrategy_t.retrieveNextMoves s.m_current_possibilities s.copy) ∧
    ((bruteforceStrategyRunner s).state.copy = s.copy ∨
      ∃ f ∈ BruteforceStrategy_t.retrieveNextMoves s.m_current_possibilities s.copy,
        (bruteforceStrategyRunner s).state.copy = Board_t.set s.copy f.1 f.2) := by
  obtain ⟨_, a2, a3, a4⟩ := bruteforceStrategyRunner_changes s hs
  refine ⟨?_, a2, a3, a4⟩
  rw [runScenarios_cons, hr]
  simp only
  rw [if_neg h1, if_neg h2]

set_option maxRecDepth 100000 in
theorem bruteforce_inconclusive_witness :
    (Is9x9 (Session.initial exampleTwelveEmpty).m_current_possibilities ∧
      scenario_solved (Board_t.set exampleTwelveEmpty (0, 0) 1) ((0, 0), 1) =
        Outcome.returned (scenario_solved (Board_t.set exampleTwelveEmpty (0, 0) 1) ((0, 0), 1)).state ∧
      ¬ (Board_t.count (fun v => v == 0)
          (scenario_solved (Board_t.set exampleTwelveEmpty (0, 0) 1) ((0, 0), 1)).state.copy > 0 ∧
        validateBoard (scenario_solved (Board_t.set exampleTwelveEmpty (0, 0) 1) ((0, 0), 1)).state.copy
          defaultChecks = false) ∧
      ¬ (Board_t.count (fun v => v == 0)
          (scenario_solved (Board_t.set exampleTwelveEmpty (0, 0) 1) ((0, 0), 1)).state.copy = 0 ∧
        validateBoard (scenario_solved (Board_t.set exampleTwelveEmpty (0, 0) 1) ((0, 0), 1)).state.copy
          defaultChecks = true)) ∧
    (runScenarios [(Board_t.set exampleTwelveEmpty (0, 0) 1, ((0, 0), 1))]
        (Session.initial exampleTwelveEmpty) =
      runScenarios [] (Session.initial exampleTwelveEmpty) ∧
    (∀ q v, v ∈ Board_t.get
        (bruteforceStrategyRunner (Session.initial exampleTwelveEmpty)).state.m_current_possibilities q →
      v ∈ Board_t.get (Session.initial exampleTwelveEmpty).m_current_possibilities q) ∧
    (∀ q v, v ∈ Board_t.get (Session.initial exampleTwelveEmpty).m_current_possibilities q →
      v ∉ Board_t.get
        (bruteforceStrategyRunner (Session.initial exampleTwelveEmpty)).state.m_current_possibilities q →
      (q, v) ∈ BruteforceStrategy_t.retrieveNextMoves
        (Session.initial exampleTwelveEmpty).m_current_possibilities
        (Session.initial exampleTwelveEmpty).copy) ∧
    ((bruteforceStrategyRunner (Session.initial exampleTwelveEmpty)).state.copy =
        (Session.initial exampleTwelveEmpty).copy ∨
      ∃ f ∈ BruteforceStrategy_t.retrieveNextMoves
          (Session.initial exampleTwelveEmpty).m_current_possibilities
          (Session.initial exampleTwelveEmpty).copy,
        (bruteforceStrategyRunner (Session.initial exampleTwelveEmpty)).state.copy =
          Board_t.set (Session.initial exampleTwelveEmpty).copy f.1 f.2)) :=
  ⟨by decide!,
    bruteforce_inconclusive (Session.initial exampleTwelveEmpty) (by decide!)
      (Board_t.set exampleTwelveEmpty (0, 0) 1) ((0, 0), 1) []
      (scenario_solved (Board_t.set exampleTwelveEmpty (0, 0) 1) ((0, 0), 1)).state
      (by decide!) (by decide!) (by decide!)⟩

/-- C20: for a 9x9 grid `b` and a position `p = (x, y)` in range, the values returned by
`getNeighborhood(p)` are exactly the values `b[i][j]` of the nine cells with `i` in
`3*(x/3) .. 3*(x/3)+2` and `j` in `3*(y/3) .. 3*(y/3)+2`, the 3x3 box containing `p`; and
the result is the same for every position of that box. -/
theorem getNeighborhood_box (b : Board_t Int) (hb : Is9x9 b) (p : pos_t) (hp : InRange p) :
    (∀ v, v ∈ Board_t.getNeighborhood b p ↔
      ∃ i j, (i = 3 * (p.1 / 3) ∨ i = 3 * (p.1 / 3) + 1 ∨ i = 3 * (p.1 / 3) + 2) ∧
        (j = 3 * (p.2 / 3) ∨ j = 3 * (p.2 / 3) + 1 ∨ j = 3 * (p.2 / 3) + 2) ∧
        Board_t.get b (i, j) = v) ∧
    (∀ v, v ∈ Board_t.getNeighborhood b p ↔ v ∈ (boxOf p).map (Board_t.get b)) ∧
    p ∈ boxOf p ∧
    (∀ q ∈ boxOf p, Board_t.getNeighborhood b q = Board_t.getNeighborhood b p) := by
  have hmem : ∀ v, v ∈ Board_t.getNeighborhood b p ↔ v ∈ (boxOf p).map (Board_t.get b) := by
    intro v
    rw [Board_t.mem_getNeighborhood hb hp, List.mem_map]
    constructor
    · rintro ⟨q, hq, e⟩
      exact ⟨q, (mem_boxOf p q).2 hq, e⟩
    · rintro ⟨q, hq, e⟩
      exact ⟨q, (mem_boxOf p q).1 hq, e⟩
  refine ⟨?_, hmem, (mem_boxOf p p).2 ⟨rfl, rfl⟩,
    fun q hq => getNeighborhood_sameBox b ((mem_boxOf p q).1 hq)⟩
  intro v
  rw [Board_t.mem_getNeighborhood hb hp]
  constructor
  · rintro ⟨⟨q1, q2⟩, ⟨h1, h2⟩, e⟩
    simp only at h1 h2
    exact ⟨q1, q2, by omega, by omega, e⟩
  · rintro ⟨i, j, hi, hj, e⟩
    refine ⟨(i, j), ⟨?_, ?_⟩, e⟩
    · simp only; omega
    · simp only; omega

theorem getNeighborhood_box_witness :
    (Is9x9 exampleTwoEmpty ∧ InRange (5, 6)) ∧
    ((∀ v, v ∈ Board_t.getNeighborhood exampleTwoEmpty (5, 6) ↔
      ∃ i j, (i = 3 * (((5, 6) : pos_t).1 / 3) ∨ i = 3 * (((5, 6) : pos_t).1 / 3) + 1 ∨
          i = 3 * (((5, 6) : pos_t).1 / 3) + 2) ∧
        (j = 3 * (((5, 6) : pos_t).2 / 3) ∨ j = 3 * (((5, 6) : pos_t).2 / 3) + 1 ∨
          j = 3 * (((5, 6) : pos_t).2 / 3) + 2) ∧
        Board_t.get exampleTwoEmpty (i, j) = v) ∧
    (∀ v, v ∈ Board_t.getNeighborhood exampleTwoEmpty (5, 6) ↔
      v ∈ (boxOf (5, 6)).map (Board_t.get exampleTwoEmpty)) ∧
    ((5, 6) : pos_t) ∈ boxOf (5, 6) ∧
    (∀ q ∈ boxOf (5, 6),
      Board_t.getNeighborhood exampleTwoEmpty q = Board_t.getNeighborhood exampleTwoEmpty (5, 6))) :=
  ⟨by decide, getNeighborhood_box exampleTwoEmpty (by decide) (5, 6) (by decide)⟩

end malcolm


/-!
## The claims on the board methods, the cleaner rule and the hypotheses
-/

namespace malcolm

open BoardSolver_t

/-- C21: for a 9x9 grid `b` and a position `p = (x, y)` in range, `copyNeighborhood(p)`
is a grid `n` of three columns of three cells with `n[i][j] = b[3*(x/3)+i][3*(y/3)+j]`
for `i, j` in 0..2, and the values it holds are exactly the values returned by
`getNeighborhood(p)`. -/
theorem copyNeighborhood_layout (b : Board_t Int) (hb : Is9x9 b) (p : pos_t) (hp : InRange p) :
    (Board_t.copyNeighborhood b p).length = 3 ∧
    (∀ col ∈ Board_t.copyNeighborhood b p, col.length = 3) ∧
    (∀ i j, i < 3 → j < 3 →
      Board_t.get (Board_t.copyNeighborhood b p) (i, j) =
        Board_t.get b (3 * (p.1 / 3) + i, 3 * (p.2 / 3) + j)) ∧
    (∀ v, v ∈ (Board_t.copyNeighborhood b p).flatten ↔ v ∈ Board_t.getNeighborhood b p) := by
  refine ⟨?_, ?_, ?_, ?_⟩
  · simp [Board_t.copyNeighborhood]
  · intro col hcol
    simp only [Board_t.copyNeighborhood, List.map_cons, List.map_nil, List.mem_cons,
      List.mem_singleton, List.mem_nil_iff, or_false] at hcol
    rcases hcol with e | e | e <;> rw [e] <;> rfl
  · intro i j hi hj
    rw [Board_t.get_copyNeighborhood b p hi hj, getLocalCenter_fst, getLocalCenter_snd]
    congr 2 <;> omega
  · intro v
    rw [Board_t.copyNeighborhood_flatten, Board_t.mem_getNeighborhood hb hp, List.mem_map]
    constructor
    · rintro ⟨q, hq, e⟩
      exact ⟨q, mem_boxCells_center.1 hq, e⟩
    · rintro ⟨q, hq, e⟩
      exact ⟨q, mem_boxCells_center.2 hq, e⟩

theorem copyNeighborhood_layout_witness :
    (Is9x9 exampleTwoEmpty ∧ InRange (5, 6)) ∧
    ((Board_t.copyNeighborhood exampleTwoEmpty (5, 6)).length = 3 ∧
    (∀ col ∈ Board_t.copyNeighborhood exampleTwoEmpty (5, 6), col.length = 3) ∧
    (∀ i j, i < 3 → j < 3 →
      Board_t.get (Board_t.copyNeighborhood exampleTwoEmpty (5, 6)) (i, j) =
        Board_t.get exampleTwoEmpty (3 * (((5, 6) : pos_t).1 / 3) + i, 3 * (((5, 6) : pos_t).2 / 3) + j)) ∧
    (∀ v, v ∈ (Board_t.copyNeighborhood exampleTwoEmpty (5, 6)).flatten ↔
      v ∈ Board_t.getNeighborhood exampleTwoEmpty (5, 6))) :=
  ⟨by decide, copyNeighborhood_layout exampleTwoEmpty (by decide) (5, 6) (by decide)⟩

/-- C22 (`transposed`): the method returns a copy of the board with the same columns in
the same order, for every board. On the 9x9 grid `exampleFull` the result is the grid
itself: its cell `[1][0]` holds 4, the value of `b[1][0]`, and not 2, the value of
`b[0][1]`; on the grid of two columns of three cells the result still has two columns of
three cells. Row and column roles are not swapped. -/
theorem transposed_is_copy :
    (∀ b : Board_t Int, Board_t.transposed b = b) ∧
    Board_t.transposed exampleFull = exampleFull ∧
    Board_t.get (Board_t.transposed exampleFull) (1, 0) = 4 ∧
    Board_t.get exampleFull (0, 1) = 2 ∧
    Board_t.transposed exampleTwoByThree = [[1, 2, 3], [4, 5, 6]] ∧
    Board_t.getSize (Board_t.transposed exampleTwoByThree) = (2, 3) := by
  refine ⟨fun b => Board_t.transposed_eq b, Board_t.transposed_eq _, ?_, by decide, ?_, ?_⟩
  · rw [Board_t.transposed_eq]; decide
  · rw [Board_t.transposed_eq]; rfl
  · rw [Board_t.transposed_eq]; decide

set_option maxRecDepth 100000 in
/-- C23, counterexample: on the grid of 16 columns of 16 cells that all hold 1, with the
predicate "equals 1", 256 cells satisfy the predicate, `findAll` returns 256 positions
and `find` returns `(0, 0)`, but the 8-bit result of `count` is 0. -/
theorem count_wraps_counterexample :
    Board_t.Small exampleWide ∧
    Board_t.count (fun v => v == 1) exampleWide = 0 ∧
    Board_t.find (fun v => v == 1) exampleWide = (0, 0) ∧
    (Board_t.findAll (fun v => v == 1) exampleWide).length = 256 ∧
    ¬ ((Board_t.findAll (fun v => v == 1) exampleWide).length =
        Board_t.count (fun v => v == 1) exampleWide) ∧
    ¬ (Board_t.find (fun v => v == 1) exampleWide = (255, 255) ↔
        Board_t.count (fun v => v == 1) exampleWide = 0) := by
  decide!

/-- C23, amended: for every grid of at most 255 by 255 cells and every predicate,
`findAll` returns exactly the positions of the cells that satisfy the predicate, and its
size is the number of those cells; `count` returns that number modulo 256, hence that
number when fewer than 256 cells satisfy the predicate. `find` returns the sentinel
`(255, 255)` exactly when no cell satisfies the predicate (when fewer than 256 cells
satisfy it: exactly when `count` returns 0); otherwise it returns a position of
`findAll` whose cell satisfies the predicate and that comes first in the scan, which goes
through the first coordinate in increasing order and, for each, through the second. -/
theorem find_findAll_count {α : Type} [Inhabited α] (b : Board_t α) (hb : Board_t.Small b)
    (p : α → Bool) :
    (∀ q, q ∈ Board_t.findAll p b ↔ Board_t.HasCell b q ∧ p (Board_t.get b q) = true) ∧
    (Board_t.findAll p b).length = b.flatten.countP p ∧
    Board_t.count p b = (Board_t.findAll p b).length % 256 ∧
    ((Board_t.findAll p b).length < 256 →
      (Board_t.findAll p b).length = Board_t.count p b ∧
      (Board_t.find p b = (255, 255) ↔ Board_t.count p b = 0)) ∧
    (Board_t.find p b = (255, 255) ↔ ∀ q, Board_t.HasCell b q → p (Board_t.get b q) = false) ∧
    (Board_t.find p b ≠ (255, 255) →
      Board_t.find p b ∈ Board_t.findAll p b ∧
      p (Board_t.get b (Board_t.find p b)) = true ∧
      ∀ q ∈ Board_t.findAll p b,
        (Board_t.find p b).1 < q.1 ∨ ((Board_t.find p b).1 = q.1 ∧ (Board_t.find p b).2 ≤ q.2)) := by
  have hmem := Board_t.mem_findAll_iff p hb
  have hlen := Board_t.findAll_length p hb
  have hcount : Board_t.count p b = (Board_t.findAll p b).length % 256 := by
    rw [Board_t.count_eq, hlen]
  have hsent : Board_t.find p b = (255, 255) ↔
      ∀ q, Board_t.HasCell b q → p (Board_t.get b q) = false := by
    rcases Board_t.find_cases p hb with ⟨h1, h2⟩ | ⟨h1, h2, _⟩
    · exact ⟨fun _ => h1, fun _ => h2⟩
    · constructor
      · intro e
        have := h1.1
        rw [e] at this
        have := hb.1
        omega
      · intro hall
        rw [hall _ h1] at h2
        exact absurd h2 (by simp)
  have hnil : (Board_t.findAll p b).length = 0 ↔
      ∀ q, Board_t.HasCell b q → p (Board_t.get b q) = false := by
    rw [List.length_eq_zero]
    constructor
    · intro e q hq
      by_contra hne
      have : q ∈ Board_t.findAll p b := (hmem q).2 ⟨hq, by simpa using hne⟩
      rw [e] at this
      exact absurd this (List.not_mem_nil _)
    · intro hall
      apply List.eq_nil_iff_forall_not_mem.2
      intro q hq
      have := (hmem q).1 hq
      rw [hall q this.1] at this
      exact absurd this.2 (by simp)
  refine ⟨hmem, hlen, hcount, ?_, hsent, ?_⟩
  · intro hsmall
    have e : (Board_t.findAll p b).length = Board_t.count p b := by
      rw [hcount, Nat.mod_eq_of_lt hsmall]
    exact ⟨e, by rw [hsent, ← hnil, e]⟩
  · intro hne
    rcases Board_t.find_cases p hb with ⟨_, h2⟩ | ⟨h1, h2, h3⟩
    · exact absurd h2 hne
    · exact ⟨(hmem _).2 ⟨h1, h2⟩, h2, fun q hq => h3 q ((hmem q).1 hq).1 ((hmem q).1 hq).2⟩

theorem find_findAll_count_witness :
    Board_t.Small exampleTwoEmpty ∧
    ((∀ q, q ∈ Board_t.findAll (fun v => v == 0) exampleTwoEmpty ↔
      Board_t.HasCell exampleTwoEmpty q ∧ (fun v => v == 0) (Board_t.get exampleTwoEmpty q) = true) ∧
    (Board_t.findAll (fun v => v == 0) exampleTwoEmpty).length =
      exampleTwoEmpty.flatten.countP (fun v => v == 0) ∧
    Board_t.count (fun v => v == 0) exampleTwoEmpty =
      (Board_t.findAll (fun v => v == 0) exampleTwoEmpty).length % 256 ∧
    ((Board_t.findAll (fun v => v == 0) exampleTwoEmpty).length < 256 →
      (Board_t.findAll (fun v => v == 0) exampleTwoEmpty).length =
        Board_t.count (fun v => v == 0) exampleTwoEmpty ∧
      (Board_t.find (fun v => v == 0) exampleTwoEmpty = (255, 255) ↔
        Board_t.count (fun v => v == 0) exampleTwoEmpty = 0)) ∧
    (Board_t.find (fun v => v == 0) exampleTwoEmpty = (255, 255) ↔
      ∀ q, Board_t.HasCell exampleTwoEmpty q →
        (fun v => v == 0) (Board_t.get exampleTwoEmpty q) = false) ∧
    (Board_t.find (fun v => v == 0) exampleTwoEmpty ≠ (255, 255) →
      Board_t.find (fun v => v == 0) exampleTwoEmpty ∈
        Board_t.findAll (fun v => v == 0) exampleTwoEmpty ∧
      (fun v => v == 0)
        (Board_t.get exampleTwoEmpty (Board_t.find (fun v => v == 0) exampleTwoEmpty)) = true ∧
      ∀ q ∈ Board_t.findAll (fun v => v == 0) exampleTwoEmpty,
        (Board_t.find (fun v => v == 0) exampleTwoEmpty).1 < q.1 ∨
          ((Board_t.find (fun v => v == 0) exampleTwoEmpty).1 = q.1 ∧
            (Board_t.find (fun v => v == 0) exampleTwoEmpty).2 ≤ q.2))) :=
  ⟨by decide, find_findAll_count exampleTwoEmpty (by decide) (fun v => v == 0)⟩

/-- C24, counterexample: on the 9x9 grid `exampleTwelveEmpty` the value 0 occurs 12 times,
which differs from the number of columns 9, but `getModalValueAndCount` returns the
value 1 with its count 7: a value that occurs more often than there are columns is not
eligible. On the full grid `exampleFull`, where every value occurs 9 times, no value is
eligible, the count is 0 and no assignment to the returned value is made. -/
theorem modal_value_counterexample :
    Board_t.getModalValueAndCount exampleTwelveEmpty = (some 1, 7) ∧
    occurrencesOf exampleTwelveEmpty 0 = 12 ∧
    exampleTwelveEmpty.length = 9 ∧
    ¬ (∀ w, occurrencesOf exampleTwelveEmpty w ≠ exampleTwelveEmpty.length →
        occurrencesOf exampleTwelveEmpty w ≤ (Board_t.getModalValueAndCount exampleTwelveEmpty).2) ∧
    Board_t.getModalValueAndCount exampleFull = (none, 0) := by
  refine ⟨by decide, by decide, by decide, ?_, by decide⟩
  intro h
  exact absurd (h 0 (by decide)) (by decide)

/-- C24, amended: for every grid `b` of fewer than 256 cells, if `getModalValueAndCount`
returns a value `v` with the count `c`, then `c` is the number of cells equal to `v`, `c`
is positive and less than the number of columns of `b`, and no value whose occurrence
count is less than the number of columns occurs more than `c` times. A value is returned
whenever some value occurs at least once and fewer times than there are columns;
otherwise the count is 0 and no assignment to the returned value is made. -/
theorem modal_value_below_columns (b : Board_t Int) (hb : b.flatten.length < 256) :
    (∀ v c, Board_t.getModalValueAndCount b = (some v, c) →
      c = occurrencesOf b v ∧ 0 < c ∧ c < b.length ∧
      ∀ w, occurrencesOf b w < b.length → occurrencesOf b w ≤ c) ∧
    ((∃ w, 0 < occurrencesOf b w ∧ occurrencesOf b w < b.length) →
      ∃ v c, Board_t.getModalValueAndCount b = (some v, c)) ∧
    (∀ c, Board_t.getModalValueAndCount b = (none, c) →
      c = 0 ∧ ∀ w, ¬ (0 < occurrencesOf b w ∧ occurrencesOf b w < b.length)) := by
  rcases getModalValueAndCount_spec b hb with ⟨h0, hno⟩ | ⟨v, c, hr, hc, hpos, hlt, hmax⟩
  · refine ⟨?_, ?_, ?_⟩
    · intro v c e
      rw [h0] at e
      exact absurd e (by simp)
    · rintro ⟨w, hw⟩
      exact absurd hw (hno w)
    · intro c e
      rw [h0] at e
      simp only [Prod.mk.injEq, true_and] at e
      exact ⟨e.symm, hno⟩
  · refine ⟨?_, fun _ => ⟨v, c, hr⟩, ?_⟩
    · intro v2 c2 e
      rw [hr] at e
      simp only [Prod.mk.injEq, Option.some.injEq] at e
      rw [← e.1, ← e.2]
      exact ⟨hc, hpos, hlt, hmax⟩
    · intro c2 e
      rw [hr] at e
      exact absurd e (by simp)

theorem modal_value_below_columns_witness :
    exampleTwelveEmpty.flatten.length < 256 ∧
    ((∀ v c, Board_t.getModalValueAndCount exampleTwelveEmpty = (some v, c) →
      c = occurrencesOf exampleTwelveEmpty v ∧ 0 < c ∧ c < exampleTwelveEmpty.length ∧
      ∀ w, occurrencesOf exampleTwelveEmpty w < exampleTwelveEmpty.length →
        occurrencesOf exampleTwelveEmpty w ≤ c) ∧
    ((∃ w, 0 < occurrencesOf exampleTwelveEmpty w ∧
        occurrencesOf exampleTwelveEmpty w < exampleTwelveEmpty.length) →
      ∃ v c, Board_t.getModalValueAndCount exampleTwelveEmpty = (some v, c)) ∧
    (∀ c, Board_t.getModalValueAndCount exampleTwelveEmpty = (none, c) →
      c = 0 ∧ ∀ w, ¬ (0 < occurrencesOf exampleTwelveEmpty w ∧
        occurrencesOf exampleTwelveEmpty w < exampleTwelveEmpty.length))) :=
  ⟨by decide, modal_value_below_columns exampleTwelveEmpty (by decide)⟩

set_option maxRecDepth 100000 in
/-- C25 (cleaner forced-column rule): on the valid grid `exampleStuck` the digit 5 occurs
twice. In the box centered at `(7, 1)`, which holds no 5, all three local columns are
excluded (the columns 6 and 7 hold a 5, the three cells of column 8 inside the box are
filled), so no column remains; the computed `allowed_column` is `-5 + 7 = 2`, and
`smartclean` erases 5 from the candidates of the cell `(2, 0)`, although the condition of
the forced-column rule holds for no box at that cell. -/
theorem cleaner_erases_outside_rule :
    validateBoard exampleStuck defaultChecks = true ∧
    Board_t.count (fun v => v == 5) exampleStuck = 2 ∧
    (5 : Int) ∈ Board_t.get (constructPossibilities exampleStuck) (2, 0) ∧
    (5 : Int) ∉ Board_t.get
      (SmartCleaner_t.smartclean exampleStuck (constructPossibilities exampleStuck) 5) (2, 0) ∧
    ¬ ForcedColumn exampleStuck 5 2 0 ∧
    (∀ q ∈ boxCells (7, 1), Board_t.get exampleStuck q ≠ 5) ∧
    columnExcluded exampleStuck 5 (7, 1) 0 = true ∧
    columnExcluded exampleStuck 5 (7, 1) 1 = true ∧
    columnExcluded exampleStuck 5 (7, 1) 2 = true ∧
    SmartCleaner_t.allowedColumn
      (SmartCleaner_t.determineLocalRulesForColumns exampleStuck 5 (7, 1)
        (Board_t.copyNeighborhood exampleStuck (7, 1))) (7, 1) = 2 := by
  decide!

/-- C26: cleaner guard. For a 9x9 grid `b`, a candidate board `P` and a value `d` that
occurs in exactly 0 or exactly 9 cells of `b`, `smartclean(b, P, d)` returns the candidate
board `P` as it was given. The board `b` is an input that `smartclean` only reads. -/
theorem cleaner_guard (b : Board_t Int) (hb : Is9x9 b) (P : PossibilitiesBoard_t) (d : Int)
    (h : occurrencesOf b d = 0 ∨ occurrencesOf b d = 9) :
    SmartCleaner_t.smartclean b P d = P := by
  have hlen : b.flatten.length = 81 := by
    rw [Board_t.flatten_eq hb, List.length_map, allCells_length]
  have hle : b.flatten.countP (fun v => v == d) ≤ b.flatten.length := List.countP_le_length _
  have hc : Board_t.count (fun v => v == d) b = occurrencesOf b d := by
    rw [Board_t.count_eq]
    unfold occurrencesOf List.count
    omega
  unfold SmartCleaner_t.smartclean
  simp only [hc]
  rw [if_pos (by omega)]

theorem cleaner_guard_witness :
    (Is9x9 exampleFull ∧ (occurrencesOf exampleFull 5 = 0 ∨ occurrencesOf exampleFull 5 = 9)) ∧
    SmartCleaner_t.smartclean exampleFull emptyPossibilities 5 = emptyPossibilities :=
  ⟨by decide, cleaner_guard exampleFull (by decide) emptyPossibilities 5 (by decide)⟩

/-- C27: hypothesis generation. For a 9x9 grid `b` and a 9x9 candidate board `P`,
`retrieveNextMoves(P, b)` is a set (no field twice) that holds exactly the fields
`(pos, d)` with `pos` in range, `d` in 1..9, `d` not the value of any cell of the box of
`pos` in `b`, `d` among the candidates of `pos`, and exactly two cells of the box of `pos`
with `d` among their candidates. -/
theorem hypotheses_generated (P : PossibilitiesBoard_t) (hP : Is9x9 P) (b : Board_t Int)
    (hb : Is9x9 b) :
    (∀ f : field_t, f ∈ BruteforceStrategy_t.retrieveNextMoves P b ↔
      InRange f.1 ∧ (1 ≤ f.2 ∧ f.2 ≤ 9) ∧ (∀ q ∈ boxOf f.1, Board_t.get b q ≠ f.2) ∧
      f.2 ∈ Board_t.get P f.1 ∧
      (boxOf f.1).countP (fun q => (Board_t.get P q).contains f.2) = 2) ∧
    (BruteforceStrategy_t.retrieveNextMoves P b).Nodup := by
  refine ⟨?_, ?_⟩
  · intro f
    rw [mem_retrieveNextMoves_generated, mem_generationOrder hP, countP_boxCells_eq, mem_target]
    constructor
    · rintro ⟨h1, h2, h3, h4, h5⟩
      refine ⟨h1, h2, ?_, h4, h5⟩
      intro q hq e
      apply h3
      rw [Board_t.mem_getNeighborhood hb (getLocalCenter_mem_centers h1 |> getLocalCenter_of_mem_centers).2]
      refine ⟨q, ?_, e⟩
      have hs := (mem_boxOf f.1 q).1 hq
      have c1 := getLocalCenter_fst f.1
      have c2 := getLocalCenter_snd f.1
      unfold SameBox at hs ⊢
      rw [c1, c2]
      omega
    · rintro ⟨h1, h2, h3, h4, h5⟩
      refine ⟨h1, h2, ?_, h4, h5⟩
      intro hmem
      rw [Board_t.mem_getNeighborhood hb (getLocalCenter_mem_centers h1 |> getLocalCenter_of_mem_centers).2]
        at hmem
      obtain ⟨q, hs, e⟩ := hmem
      apply h3 q _ e
      rw [mem_boxOf]
      have c1 := getLocalCenter_fst f.1
      have c2 := getLocalCenter_snd f.1
      unfold SameBox at hs ⊢
      rw [c1, c2] at hs
      omega
  · apply (retrieveNextMoves_pairwise P b).imp
    intro x y h e
    subst e
    rw [fieldLt_irrefl] at h
    exact absurd h (by simp)

theorem hypotheses_generated_witness :
    (Is9x9 (constructPossibilities exampleTwelveEmpty) ∧ Is9x9 exampleTwelveEmpty) ∧
    ((∀ f : field_t,
      f ∈ BruteforceStrategy_t.retrieveNextMoves (constructPossibilities exampleTwelveEmpty)
        exampleTwelveEmpty ↔
      InRange f.1 ∧ (1 ≤ f.2 ∧ f.2 ≤ 9) ∧
      (∀ q ∈ boxOf f.1, Board_t.get exampleTwelveEmpty q ≠ f.2) ∧
      f.2 ∈ Board_t.get (constructPossibilities exampleTwelveEmpty) f.1 ∧
      (boxOf f.1).countP
        (fun q => (Board_t.get (constructPossibilities exampleTwelveEmpty) q).contains f.2) = 2) ∧
    (BruteforceStrategy_t.retrieveNextMoves (constructPossibilities exampleTwelveEmpty)
      exampleTwelveEmpty).Nodup) :=
  ⟨⟨(constructPossibilities_consistent (by decide)).poss9, by decide⟩,
    hypotheses_generated (constructPossibilities exampleTwelveEmpty)
      (constructPossibilities_consistent (by decide)).poss9 exampleTwelveEmpty (by decide)⟩

/-- C28: candidate update after a move. For a 9x9 candidate board `P`, a position `p` in
range and a value `v`, after `postprocessInsertion((p, v))` the board is still 9x9, the
candidate set of `p` is empty, the candidate set of every other cell in the column, the
row or the 3x3 box of `p` is its previous set with `v` erased, and the candidate set of
every cell outside the column, the row and the box of `p` is unchanged. -/
theorem candidates_after_move (P : PossibilitiesBoard_t) (hP : Is9x9 P) (p : pos_t)
    (hp : InRange p) (v : Int) :
    Is9x9 (postprocessInsertion P (p, v)) ∧
    Board_t.get (postprocessInsertion P (p, v)) p = [] ∧
    (∀ q, InRange q → q ≠ p → (q.1 = p.1 ∨ q.2 = p.2 ∨ SameBox p q) →
      Board_t.get (postprocessInsertion P (p, v)) q = setErase (Board_t.get P q) v ∧
      ∀ x, x ∈ Board_t.get (postprocessInsertion P (p, v)) q ↔ x ∈ Board_t.get P q ∧ x ≠ v) ∧
    (∀ q, InRange q → q.1 ≠ p.1 → q.2 ≠ p.2 → ¬ SameBox p q →
      Board_t.get (postprocessInsertion P (p, v)) q = Board_t.get P q) := by
  refine ⟨postprocessInsertion_9x9 hP _, ?_, ?_, ?_⟩
  · rw [postprocessInsertion_get hP hp v hp, if_pos rfl]
  · intro q hq hne hu
    have hpeers : Peers p q := by
      refine ⟨fun e => hne e.symm, ?_⟩
      rcases hu with h | h | h
      · exact Or.inl h.symm
      · exact Or.inr (Or.inl h.symm)
      · exact Or.inr (Or.inr h)
    have e : Board_t.get (postprocessInsertion P (p, v)) q = setErase (Board_t.get P q) v := by
      rw [postprocessInsertion_get hP hp v hq, if_neg hne, if_pos hpeers]
    refine ⟨e, fun x => ?_⟩
    rw [e, mem_setErase]
  · intro q hq h1 h2 h3
    have hne : q ≠ p := fun e => h1 (by rw [e])
    have hnp : ¬ Peers p q := by
      rintro ⟨_, h | h | h⟩
      · exact h1 h.symm
      · exact h2 h.symm
      · exact h3 h
    rw [postprocessInsertion_get hP hp v hq, if_neg hne, if_neg hnp]

theorem candidates_after_move_witness :
    (Is9x9 (constructPossibilities exampleTwelveEmpty) ∧ InRange (0, 0)) ∧
    (Is9x9 (postprocessInsertion (constructPossibilities exampleTwelveEmpty) ((0, 0), 1)) ∧
    Board_t.get (postprocessInsertion (constructPossibilities exampleTwelveEmpty) ((0, 0), 1)) (0, 0) = [] ∧
    (∀ q, InRange q → q ≠ ((0, 0) : pos_t) →
      (q.1 = ((0, 0) : pos_t).1 ∨ q.2 = ((0, 0) : pos_t).2 ∨ SameBox (0, 0) q) →
      Board_t.get (postprocessInsertion (constructPossibilities exampleTwelveEmpty) ((0, 0), 1)) q =
        setErase (Board_t.get (constructPossibilities exampleTwelveEmpty) q) 1 ∧
      ∀ x, x ∈ Board_t.get
          (postprocessInsertion (constructPossibilities exampleTwelveEmpty) ((0, 0), 1)) q ↔
        x ∈ Board_t.get (constructPossibilities exampleTwelveEmpty) q ∧ x ≠ 1) ∧
    (∀ q, InRange q → q.1 ≠ ((0, 0) : pos_t).1 → q.2 ≠ ((0, 0) : pos_t).2 → ¬ SameBox (0, 0) q →
      Board_t.get (postprocessInsertion (constructPossibilities exampleTwelveEmpty) ((0, 0), 1)) q =
        Board_t.get (constructPossibilities exampleTwelveEmpty) q)) :=
  ⟨⟨(constructPossibilities_consistent (by decide)).poss9, by decide⟩,
    candidates_after_move (constructPossibilities exampleTwelveEmpty)
      (constructPossibilities_consistent (by decide)).poss9 (0, 0) (by decide) 1⟩

set_option maxRecDepth 100000 in
/-- C29, counterexample: on the grid `exampleTwelveEmpty` with the candidates built by the
constructor, the hypotheses are generated in the order `((0,0),1), ((1,0),1), ((0,1),2),
...` but the set handed to the loop of `bruteforceStrategyRunner` starts with
`((0,0),1), ((0,0),4), ((0,1),2)`: the second hypothesis evaluated is for the digit 4,
before the second cell of the digit 1, and `((0,3),4)`, a hypothesis of the box centered
at `(1, 4)`, comes before `((1,0),1)`, a hypothesis of the box centered at `(1, 1)`. -/
theorem generation_order_counterexample :
    (generationOrder (constructPossibilities exampleTwelveEmpty) exampleTwelveEmpty).take 3 =
      [((0, 0), 1), ((1, 0), 1), ((0, 1), 2)] ∧
    (BruteforceStrategy_t.retrieveNextMoves (constructPossibilities exampleTwelveEmpty)
      exampleTwelveEmpty).take 5 = [((0, 0), 1), ((0, 0), 4), ((0, 1), 2), ((0, 1), 5), ((0, 3), 4)] ∧
    (BruteforceStrategy_t.retrieveNextMoves (constructPossibilities exampleTwelveEmpty)
      exampleTwelveEmpty).indexOf ((0, 3), 4) <
      (BruteforceStrategy_t.retrieveNextMoves (constructPossibilities exampleTwelveEmpty)
        exampleTwelveEmpty).indexOf ((1, 0), 1) ∧
    ¬ (BruteforceStrategy_t.retrieveNextMoves (constructPossibilities exampleTwelveEmpty)
        exampleTwelveEmpty =
      generationOrder (constructPossibilities exampleTwelveEmpty) exampleTwelveEmpty) := by
  decide!

/-- C29, amended: `bruteforceStrategyRunner` evaluates the hypotheses in the order of the
ordered set returned by `retrieveNextMoves`: strictly increasing by position (first
coordinate, then second) and then by digit. That set is the result of inserting the
hypotheses in their order of generation, so it holds the same hypotheses. A
hypothesis of the box centered at `(1, 1)` always comes before a hypothesis of the box
centered at `(4, 1)`. -/
theorem hypotheses_sorted (P : PossibilitiesBoard_t) (b : Board_t Int) :
    (BruteforceStrategy_t.retrieveNextMoves P b).Pairwise (fun f g => fieldLt f g = true) ∧
    BruteforceStrategy_t.retrieveNextMoves P b =
      (generationOrder P b).foldl (fun result f => setInsert fieldLt f result) [] ∧
    (∀ f, f ∈ BruteforceStrategy_t.retrieveNextMoves P b ↔ f ∈ generationOrder P b) ∧
    (∀ s : Session, s.m_current_possibilities = P → s.copy = b →
      BruteforceStrategy_t.retrieveNextMoves P b ≠ [] →
      bruteforceStrategyRunner s =
        runScenarios ((BruteforceStrategy_t.retrieveNextMoves P b).map
          (fun f => (Board_t.set b f.1 f.2, f))) s) ∧
    (∀ f g : field_t, utils.getLocalCenter f.1 = (1, 1) → utils.getLocalCenter g.1 = (4, 1) →
      fieldLt f g = true) := by
  refine ⟨retrieveNextMoves_pairwise P b, retrieveNextMoves_eq P b,
    mem_retrieveNextMoves_generated P b, ?_, ?_⟩
  · intro s hP hb hne
    subst hP hb
    unfold bruteforceStrategyRunner
    simp only
    rw [if_neg]
    intro h0
    exact hne (List.length_eq_zero.1 h0)
  · intro f g hf hg
    have h1 := getLocalCenter_fst f.1
    have h2 := getLocalCenter_fst g.1
    rw [hf] at h1
    rw [hg] at h2
    simp only at h1 h2
    rw [fieldLt_iff, posLt_iff]
    left; left
    omega

set_option maxRecDepth 100000 in
/-- C30, counterexample: in the candidate board `exampleTies` the cell at column 0,
row 1 and the cell at column 1, row 0 each have exactly one candidate. The cell of the
smaller row index is the one at column 1, row 0, but the strategy returns the cell at
column 0, row 1. -/
theorem onlyPossibility_tie_counterexample :
    (Board_t.get exampleTies (0, 1)).length = 1 ∧
    (Board_t.get exampleTies (1, 0)).length = 1 ∧
    TheOnlyPossibilityStrategy_t.retrieveNextMove exampleTies exampleFull = ((0, 1), 7) ∧
    ¬ (∀ p, InRange p → (Board_t.get exampleTies p).length = 1 →
        (TheOnlyPossibilityStrategy_t.retrieveNextMove exampleTies exampleFull).1.2 < p.2 ∨
        ((TheOnlyPossibilityStrategy_t.retrieveNextMove exampleTies exampleFull).1.2 = p.2 ∧
          (TheOnlyPossibilityStrategy_t.retrieveNextMove exampleTies exampleFull).1.1 ≤ p.1)) := by
  refine ⟨by decide, by decide, by decide!, ?_⟩
  intro h
  have := h (1, 0) (by decide) (by decide)
  revert this
  decide!

/-- C30, amended: with the grid stored as `grid[col][row]` and the first component of a
position indexing the column, when one or several cells of a 9x9 candidate board have a
candidate set of exactly one member, `TheOnlyPossibilityStrategy_t` returns the one with
the smallest column index and, among those, the smallest row index (the first met by the
scan of `find`, which goes through the columns and, for each column, through its rows). -/
theorem onlyPossibility_first_in_scan (P : PossibilitiesBoard_t) (hP : Is9x9 P) (b : Board_t Int)
    (p : pos_t) (hp : InRange p) (h1 : (Board_t.get P p).length = 1) :
    InRange (TheOnlyPossibilityStrategy_t.retrieveNextMove P b).1 ∧
    Board_t.get P (TheOnlyPossibilityStrategy_t.retrieveNextMove P b).1 =
      [(TheOnlyPossibilityStrategy_t.retrieveNextMove P b).2] ∧
    ((TheOnlyPossibilityStrategy_t.retrieveNextMove P b).1.1 < p.1 ∨
      ((TheOnlyPossibilityStrategy_t.retrieveNextMove P b).1.1 = p.1 ∧
        (TheOnlyPossibilityStrategy_t.retrieveNextMove P b).1.2 ≤ p.2)) := by
  have hex : ∃ p, InRange p ∧ (Board_t.get P p).length = 1 := ⟨p, hp, h1⟩
  rcases onlyPossibility_cases hP b with ⟨_, hin, hget⟩ | ⟨hno, _⟩
  · refine ⟨hin, hget, ?_⟩
    have hfind : (TheOnlyPossibilityStrategy_t.retrieveNextMove P b).1 =
        Board_t.find (fun (val : List Int) => val.length == 1) P := by
      unfold TheOnlyPossibilityStrategy_t.retrieveNextMove
      simp only
      rw [if_pos]
      rw [Board_t.count_pos_iff _ hP]
      exact ⟨p, hp, by simpa using h1⟩
    rw [hfind]
    rcases Board_t.find_cases (fun (val : List Int) => val.length == 1) hP.small with
      ⟨hnone, _⟩ | ⟨_, _, hleast⟩
    · have := hnone p ((hP.hasCell_iff p).2 hp)
      rw [h1] at this
      exact absurd this (by simp)
    · exact hleast p ((hP.hasCell_iff p).2 hp) (by simpa using h1)
  · exact absurd hex hno

theorem onlyPossibility_first_in_scan_witness :
    (Is9x9 exampleTies ∧ InRange (1, 0) ∧ (Board_t.get exampleTies (1, 0)).length = 1) ∧
    (InRange (TheOnlyPossibilityStrategy_t.retrieveNextMove exampleTies exampleFull).1 ∧
    Board_t.get exampleTies (TheOnlyPossibilityStrategy_t.retrieveNextMove exampleTies exampleFull).1 =
      [(TheOnlyPossibilityStrategy_t.retrieveNextMove exampleTies exampleFull).2] ∧
    ((TheOnlyPossibilityStrategy_t.retrieveNextMove exampleTies exampleFull).1.1 < ((1, 0) : pos_t).1 ∨
      ((TheOnlyPossibilityStrategy_t.retrieveNextMove exampleTies exampleFull).1.1 = ((1, 0) : pos_t).1 ∧
        (TheOnlyPossibilityStrategy_t.retrieveNextMove exampleTies exampleFull).1.2 ≤
          ((1, 0) : pos_t).2))) :=
  ⟨by decide, onlyPossibility_first_in_scan exampleTies (by decide) exampleFull (1, 0) (by decide)
    (by decide)⟩

end malcolm


/-!
## Claims C31..C36
-/

namespace malcolm

open BoardSolver_t SmartCleaner_t

set_option maxRecDepth 100000 in
/-- C31 (scenario D, modal value): on the fully empty 9x9 grid, whose 81 cells all hold 0,
`getModalValueAndCount` returns the occurrence count 0: the value 0 occurs 81 times, which
is not below the number of columns, so no assignment to `modal_value` is made and the
answer is not the value 0 with its count of 81. -/
theorem modal_value_of_empty_grid :
    Is9x9 (Board_t.zero 9 9 : Board_t Int) ∧
    (∀ p ∈ allCells, Board_t.get (Board_t.zero 9 9 : Board_t Int) p = 0) ∧
    occurrencesOf (Board_t.zero 9 9) 0 = 81 ∧
    (Board_t.getModalValueAndCount (Board_t.zero 9 9)).2 = 0 ∧
    Board_t.getModalValueAndCount (Board_t.zero 9 9) = (none, 0) ∧
    Board_t.getModalValueAndCount (Board_t.zero 9 9) ≠ (some 0, 81) := by
  decide!

/-- C32: for a position `p = (x, y)` with `x, y` in 0..8, `getLocalCenter` returns
`(3*(x/3)+1, 3*(y/3)+1)`; this is one of the nine centers of `centersFor9x9Board` and it
differs from `p` by at most 1 in each coordinate; `getLocalCenter` is idempotent; two
positions have the same local center iff they lie in the same 3x3 box; and the
nine centers are distinct, each is the local center of exactly nine of the 81 cells. -/
theorem getLocalCenter_boxes (p q : pos_t) (hp : InRange p) :
    utils.getLocalCenter p = (3 * (p.1 / 3) + 1, 3 * (p.2 / 3) + 1) ∧
    utils.getLocalCenter p ∈ Board_t.centersFor9x9Board ∧
    ((utils.getLocalCenter p).1 ≤ p.1 + 1 ∧ p.1 ≤ (utils.getLocalCenter p).1 + 1) ∧
    ((utils.getLocalCenter p).2 ≤ p.2 + 1 ∧ p.2 ≤ (utils.getLocalCenter p).2 + 1) ∧
    utils.getLocalCenter (utils.getLocalCenter p) = utils.getLocalCenter p ∧
    (utils.getLocalCenter p = utils.getLocalCenter q ↔ SameBox p q) ∧
    Board_t.centersFor9x9Board.Nodup ∧ Board_t.centersFor9x9Board.length = 9 ∧
    allCells.Nodup ∧ allCells.length = 81 ∧
    (∀ c ∈ Board_t.centersFor9x9Board,
      (allCells.filter (fun r => decide (utils.getLocalCenter r = c))).length = 9) := by
  have h1 := getLocalCenter_fst p
  have h2 := getLocalCenter_snd p
  have e : utils.getLocalCenter p = (3 * (p.1 / 3) + 1, 3 * (p.2 / 3) + 1) := Prod.ext h1 h2
  refine ⟨e, getLocalCenter_mem_centers hp, ⟨by omega, by omega⟩, ⟨by omega, by omega⟩, ?_, ?_,
    by decide, by decide, by decide, by decide, by decide⟩
  · apply Prod.ext
    · rw [getLocalCenter_fst, h1]; omega
    · rw [getLocalCenter_snd, h2]; omega
  · unfold SameBox
    constructor
    · intro h
      have a1 := congrArg Prod.fst h
      have a2 := congrArg Prod.snd h
      rw [getLocalCenter_fst, getLocalCenter_fst] at a1
      rw [getLocalCenter_snd, getLocalCenter_snd] at a2
      exact ⟨by omega, by omega⟩
    · rintro ⟨a1, a2⟩
      apply Prod.ext
      · rw [getLocalCenter_fst, getLocalCenter_fst, a1]
      · rw [getLocalCenter_snd, getLocalCenter_snd, a2]

theorem getLocalCenter_boxes_witness :
    InRange (5, 6) ∧
    utils.getLocalCenter (5, 6) = (4, 7) ∧
    (utils.getLocalCenter (5, 6) = utils.getLocalCenter (3, 8) ↔ SameBox (5, 6) (3, 8)) :=
  ⟨by decide, (getLocalCenter_boxes (5, 6) (3, 8) (by decide)).1,
    (getLocalCenter_boxes (5, 6) (3, 8) (by decide)).2.2.2.2.2.1⟩

/-- C33: for every 9x9 input grid `g`, a grid returned by `getSolved g` has an empty
cell. The state `getSolved` ends with, like every state `t` of the session, is reached
from the initial state by operations of the session; in every such state a nested
session (the call `solve(false)` made by `bruteforceStrategyRunner` on the scenario of a
generated hypothesis) that returns gives a grid with an empty cell, the bruteforce pass
leaves the working grid and the log of writes as they are (it commits nothing), and once
the working grid has no empty cell left a call of `smartcleanPossibilitiesBoard`
raises. -/
theorem returned_grid_has_empty_cell (g : Board_t Int) (hg : Is9x9 g) :
    (∀ r, getSolved g = Outcome.returned r → ∃ p ∈ allCells, Board_t.get r.copy p = 0) ∧
    Relation.ReflTransGen SessionStep (Session.initial g) (getSolved g).state ∧
    ∀ t, Relation.ReflTransGen SessionStep (Session.initial g) t →
      (∀ f ∈ BruteforceStrategy_t.retrieveNextMoves t.m_current_possibilities t.copy, ∀ r,
        scenario_solved (Board_t.set t.copy f.1 f.2) f = Outcome.returned r →
          ∃ p ∈ allCells, Board_t.get r.copy p = 0) ∧
      (bruteforceStrategyRunner t).state.copy = t.copy ∧
      (bruteforceStrategyRunner t).state.written = t.written ∧
      ((∀ p ∈ allCells, Board_t.get t.copy p ≠ 0) →
        ∀ P, smartcleanPossibilitiesBoard t.copy P = Except.error P) := by
  refine ⟨?_, solve_steps hg true, ?_⟩
  · intro r hr
    obtain ⟨_, a2, a3⟩ := solve_spec hg true
    have hr2 : solve g true = Outcome.returned r := hr
    rw [hr2] at a2
    simp only [Outcome.state] at a2
    have hz : Board_t.count (fun v => v == 0) r.copy ≠ 0 := by
      rcases (a3 r hr2).2 with ⟨c, _⟩ | c
      · exact absurd c (by simp)
      · exact c
    have hpos : Board_t.count (fun v => v == 0) r.copy > 0 := by omega
    obtain ⟨p, hp, hpz⟩ := (Board_t.count_pos_iff _ a2.1.board9).1 hpos
    exact ⟨p, (mem_allCells p).2 hp, by simpa using hpz⟩
  · intro t ht
    have hc := steps_consistent hg ht
    obtain ⟨_, P, _, e⟩ := bruteforceStrategyRunner_spec t hc
    refine ⟨fun f hf r hr => scenario_solved_has_empty hc hf r hr, by rw [e], by rw [e], ?_⟩
    intro hfull P
    unfold smartcleanPossibilitiesBoard
    rw [if_pos]
    rw [Board_t.count_eq_zero_iff _ hc.board9]
    intro p hp
    simpa using hfull p ((mem_allCells p).2 hp)

set_option maxRecDepth 100000 in
theorem returned_grid_has_empty_cell_witness :
    Is9x9 exampleStuck ∧
    (∀ r, getSolved exampleStuck = Outcome.returned r →
      ∃ p ∈ allCells, Board_t.get r.copy p = 0) ∧
    getSolved exampleStuck = Outcome.returned (getSolved exampleStuck).state :=
  ⟨by decide, (returned_grid_has_empty_cell exampleStuck (by decide)).1, by decide!⟩

/-- C34: let `b` be a 9x9 grid of the data model (cells 0..9) that `validateBoard`
accepts and `P` a 9x9 candidate grid in which no cell lists a digit held by a cell of its
row, column or box in `b`. Then, for every hypothesis generated by the bruteforce pass,
the nested session does not run forever and a grid it returns is accepted by
`validateBoard` and has an empty cell, so that neither the condition of the contradiction
branch nor the condition of the solution branch holds; a call of
`bruteforceStrategyRunner` that returns, returns the parent state as it was: same grid,
same candidates, same log of writes. -/
theorem bruteforce_frame_on_valid_grid (b : Board_t Int) (P : PossibilitiesBoard_t)
    (w : List (Board_t Int × field_t)) (hb : IsGrid b)
    (hvalid : validateBoard b defaultChecks = true) (hP : Is9x9 P) (hav : AvoidsPresent b P) :
    (∀ f ∈ BruteforceStrategy_t.retrieveNextMoves P b,
      (∀ t, scenario_solved (Board_t.set b f.1 f.2) f ≠ Outcome.exhausted t) ∧
      ∀ r, scenario_solved (Board_t.set b f.1 f.2) f = Outcome.returned r →
        validateBoard r.copy defaultChecks = true ∧
        ¬ (Board_t.count (fun v => v == 0) r.copy > 0 ∧ validateBoard r.copy defaultChecks = false) ∧
        ¬ (Board_t.count (fun v => v == 0) r.copy = 0 ∧ validateBoard r.copy defaultChecks = true)) ∧
    (∀ t, bruteforceStrategyRunner (Session.mk b P w) ≠ Outcome.exhausted t) ∧
    (∀ t, bruteforceStrategyRunner (Session.mk b P w) = Outcome.returned t →
      t.copy = b ∧ t.m_current_possibilities = P ∧ t.written = w) := by
  have hn := ((validateBoard_eq_true_iff hb.1 defaultChecks).1 hvalid).1
  obtain ⟨a1, a2, a3⟩ := bruteforceStrategyRunner_frame (Session.mk b P w) hb hn hP hav
  refine ⟨?_, a2, ?_⟩
  · intro f hf
    obtain ⟨c1, c2⟩ := a1 f hf
    refine ⟨c1, fun r hr => ?_⟩
    obtain ⟨d1, d2⟩ := c2 r hr
    exact ⟨d1, fun h => by rw [d1] at h; exact absurd h.2 (by simp), fun h => d2 h.1⟩
  · intro t ht
    rw [ht] at a3
    simp only [Outcome.state] at a3
    rw [a3]
    exact ⟨rfl, rfl, rfl⟩

set_option maxRecDepth 100000 in
theorem bruteforce_frame_on_valid_grid_witness :
    (IsGrid exampleTwelveEmpty ∧ validateBoard exampleTwelveEmpty defaultChecks = true ∧
      Is9x9 (constructPossibilities exampleTwelveEmpty) ∧
      AvoidsPresent exampleTwelveEmpty (constructPossibilities exampleTwelveEmpty)) ∧
    ((0, 0), 1) ∈ BruteforceStrategy_t.retrieveNextMoves (constructPossibilities exampleTwelveEmpty)
      exampleTwelveEmpty ∧
    (∀ t, bruteforceStrategyRunner
        (Session.mk exampleTwelveEmpty (constructPossibilities exampleTwelveEmpty) []) =
          Outcome.returned t →
      t.copy = exampleTwelveEmpty ∧
      t.m_current_possibilities = constructPossibilities exampleTwelveEmpty ∧ t.written = []) :=
  ⟨by decide!, by decide!,
    (bruteforce_frame_on_valid_grid exampleTwelveEmpty (constructPossibilities exampleTwelveEmpty) []
      (by decide!) (by decide!) (by decide!) (by decide!)).2.2⟩

/-- C35 (cleaner soundness): let `b` be a 9x9 grid, `S` a completely filled grid accepted
by `validateBoard` that agrees with `b` on the non-empty cells of `b`, `d` any value and
`P` a 9x9 candidate grid with `S[p]` in `P[p]` for each empty cell `p` of `b`. After
`smartclean(b, P, d)` it still holds that `S[p]` is in `P[p]` for each empty cell `p`. -/
theorem cleaner_soundness (b S : Board_t Int) (P : PossibilitiesBoard_t) (d : Int) (hb : Is9x9 b)
    (hS : CompletelyFilled S) (hvalid : validateBoard S defaultChecks = true)
    (hagree : ∀ p ∈ allCells, Board_t.get b p ≠ 0 → Board_t.get S p = Board_t.get b p)
    (hP : Is9x9 P)
    (hsound : ∀ p ∈ allCells, Board_t.get b p = 0 → Board_t.get S p ∈ Board_t.get P p) :
    ∀ p ∈ allCells, Board_t.get b p = 0 →
      Board_t.get S p ∈ Board_t.get (smartclean b P d) p := by
  have hsol : IsSolution S :=
    ⟨hS.1, fun p hp => (mem_target _).2 (hS.2 p ((mem_allCells p).2 hp)),
      ((validateBoard_eq_true_iff hS.1 defaultChecks).1 hvalid).1⟩
  have hs : Sound S b P :=
    ⟨fun p hp hne => (hagree p ((mem_allCells p).2 hp) hne).symm,
      fun p hp h0 => hsound p ((mem_allCells p).2 hp) h0⟩
  have key := smartclean_sound hsol hb hP hs d
  intro p hp h0
  exact key.2 p ((mem_allCells p).1 hp) h0

set_option maxRecDepth 100000 in
theorem cleaner_soundness_witness :
    (Is9x9 exampleThreeEmpty ∧ CompletelyFilled exampleFull ∧
      validateBoard exampleFull defaultChecks = true ∧
      (∀ p ∈ allCells, Board_t.get exampleThreeEmpty p ≠ 0 →
        Board_t.get exampleFull p = Board_t.get exampleThreeEmpty p) ∧
      Is9x9 (constructPossibilities exampleThreeEmpty) ∧
      (∀ p ∈ allCells, Board_t.get exampleThreeEmpty p = 0 →
        Board_t.get exampleFull p ∈ Board_t.get (constructPossibilities exampleThreeEmpty) p)) ∧
    (∀ p ∈ allCells, Board_t.get exampleThreeEmpty p = 0 →
      Board_t.get exampleFull p ∈
        Board_t.get (smartclean exampleThreeEmpty (constructPossibilities exampleThreeEmpty) 1) p) :=
  ⟨by decide!, cleaner_soundness exampleThreeEmpty exampleFull (constructPossibilities exampleThreeEmpty)
    1 (by decide) (by decide!) (by decide!) (by decide!) (by decide!) (by decide!)⟩

/-- C36: the cells at which `smartclean(b, P, d)` erases `d` are the cells of
`cleanedCells b d`, a list computed from the grid and the digit without reading the
candidate grid: on a 9x9 candidate grid `P` the call erases `d` from the candidate sets
of these cells and leaves every other set as it is, so whether a listed `d` is removed
from a cell is the same for any two candidate grids. Consequently `smartclean` is
idempotent, the calls for two digits commute, and a second run of
`smartcleanPossibilitiesBoard` on the same grid returns the candidates of the first run
unchanged. -/
theorem smartclean_cells_fixed (b : Board_t Int) (P : PossibilitiesBoard_t) (hP : Is9x9 P)
    (d e : Int) :
    (∀ q, Board_t.get (smartclean b P d) q =
      if q ∈ cleanedCells b d then setErase (Board_t.get P q) d else Board_t.get P q) ∧
    (∀ P2, Is9x9 P2 → ∀ q, d ∈ Board_t.get P q → d ∈ Board_t.get P2 q →
      (d ∈ Board_t.get (smartclean b P d) q ↔ d ∈ Board_t.get (smartclean b P2 d) q)) ∧
    smartclean b (smartclean b P d) d = smartclean b P d ∧
    smartclean b (smartclean b P d) e = smartclean b (smartclean b P e) d ∧
    (∀ P1, smartcleanPossibilitiesBoard b P = Except.ok P1 →
      smartcleanPossibilitiesBoard b P1 = Except.ok P1) := by
  refine ⟨smartclean_get b hP d, ?_, smartclean_idem b hP d, smartclean_comm b hP d e,
    fun P1 h => smartcleanPossibilitiesBoard_twice b hP h⟩
  intro P2 hP2 q h1 h2
  rw [smartclean_get b hP, smartclean_get b hP2]
  by_cases hq : q ∈ cleanedCells b d
  · simp only [if_pos hq, mem_setErase, ne_eq, not_true_eq_false, and_false]
  · simp only [if_neg hq, h1, h2]

set_option maxRecDepth 100000 in
theorem smartclean_cells_fixed_witness :
    Is9x9 (constructPossibilities exampleStuck) ∧
    (2, 0) ∈ cleanedCells exampleStuck 5 ∧
    5 ∈ Board_t.get (constructPossibilities exampleStuck) (2, 0) ∧
    smartclean exampleStuck (smartclean exampleStuck (constructPossibilities exampleStuck) 5) 5 =
      smartclean exampleStuck (constructPossibilities exampleStuck) 5 ∧
    smartclean exampleStuck (smartclean exampleStuck (constructPossibilities exampleStuck) 5) 1 =
      smartclean exampleStuck (smartclean exampleStuck (constructPossibilities exampleStuck) 1) 5 :=
  ⟨by decide!, by decide!, by decide!,
    (smartclean_cells_fixed exampleStuck (constructPossibilities exampleStuck) (by decide!) 5 1).2.2.1,
    (smartclean_cells_fixed exampleStuck (constructPossibilities exampleStuck) (by decide!) 5 1).2.2.2.1⟩

end malcolm
